import Mathlib

/-!
# Multilayer perceptron (neuralnet.c / neuralnet.h)

A shallow embedding of the multilayer perceptron of `src/neuralnet.c` and of the
properties stated about it.

Modelling conventions.

* A `double` is an element of a field `α` with exact arithmetic: rounding, infinities and
  NaN are not modelled.  The results on derivatives take `α = ℝ`.
* The functions `exp`, `tanh`, `sqrt` of `<math.h>`, the generator `rand` with `RAND_MAX`
  and the outcome of `calloc` are not part of the repository: they are the fields of the
  parameter `libc`.
* A C array together with its `len` field is a `List`, and `len` is the length of the list.
  A read is `List.getD` and a write is `List.set`; the theorems state the bounds under
  which the source stays inside its arrays.
* The type `struct vecd` is the list of its `attrs`.
* A pointer argument that the source tests against `NULL` is an `Option`.
* An `int` read from the layout string is the value that `sscanf` of the GNU C library
  stores (`strtol` on a `long` of 64 bits, cut to 32 bits); the product of two layer lengths
  is reduced to 32 bits by `wrap32`.  The counters over the characters and the tokens of the layout
  string are natural numbers: a layout is shorter than `INT_MAX` characters.
* A counted `for` loop is `forLoop`; its bound is evaluated once, and no loop of the source
  changes a length.  The descending loop over the hidden layers of `backpropagate` is
  `downLoop`.
-/

namespace MLP

/-! ## The C library, as far as the source uses it -/

/-- The library functions and constants the source takes from `<math.h>` and `<stdlib.h>`.
`rand k` is the value returned by the `k`-th call of `rand()`, and `calloc n` tells whether
an allocation of `n` elements returns a non-null pointer. -/
structure libc (α : Type) where
  exp : α → α
  tanh : α → α
  sqrt : α → α
  RAND_MAX : Nat
  rand : Nat → Nat
  calloc : Nat → Bool

/-! ## Loops -/

/-- The loop `for (int i = 0; i < n; i++) s = body i s`. -/
def forLoop {σ : Type} : Nat → (Nat → σ → σ) → σ → σ
  | 0, _, s => s
  | n + 1, body, s => body n (forLoop n body s)

/-- The loop `for (int p = n; p > 0; p--) s = body p s`. -/
def downLoop {σ : Type} : Nat → (Nat → σ → σ) → σ → σ
  | 0, _, s => s
  | n + 1, body, s => downLoop n body (body (n + 1) s)

/-! ## Data model -/

/-- The type `struct node`. -/
structure node (α : Type) where
  out : α
  delta : α
  bias : α
  deriving DecidableEq

/-- The type `enum activation_func_id`. -/
inductive activation_func_id where
  | SIGMOID_LOGISTIC
  | SIGMOID_TANH
  deriving DecidableEq

/-- The type `struct neuralnet`: `nlayers` is `layers.length`, `nweights` is
`weights.length`, `input` points to `layers[0]` and `output` to `layers[nlayers - 1]`. -/
structure neuralnet (α : Type) where
  layers : List (List (node α))
  weights : List (List α)
  func_id : activation_func_id
  learn : α
  deriving DecidableEq

/-- The type `struct vecd`: the list of the `attrs`, `len` being its length. -/
abbrev vecd (α : Type) := List α

section Model

variable {α : Type} [Field α]

/-- A node as `calloc` returns it. -/
def node.zero : node α := ⟨0, 0, 0⟩

def f_logistic (m : libc α) (x : α) : α := 1 / (1 + m.exp (-x))

def f_tanh (m : libc α) (x : α) : α := m.tanh x

def d_logistic (y : α) : α := y * (1 - y)

def d_tanh (y : α) : α := y * (1 / y - y)

/-- The entry `activation[id].function`. -/
def activation_function (m : libc α) : activation_func_id → α → α
  | .SIGMOID_LOGISTIC => f_logistic m
  | .SIGMOID_TANH => f_tanh m

/-- The entry `activation[id].derivative`. -/
def activation_derivative : activation_func_id → α → α
  | .SIGMOID_LOGISTIC => d_logistic
  | .SIGMOID_TANH => d_tanh

namespace neuralnet

/-- The field `nn->nlayers`. -/
def nlayers (nn : neuralnet α) : Nat := nn.layers.length

/-- The field `nn->nweights`. -/
def nweights (nn : neuralnet α) : Nat := nn.weights.length

/-- The field `nn->layers[l].len`. -/
def layer_len (nn : neuralnet α) (l : Nat) : Nat := (nn.layers.getD l []).length

/-- The field `nn->weights[l].len`. -/
def weights_len (nn : neuralnet α) (l : Nat) : Nat := (nn.weights.getD l []).length

/-- The node `nn->layers[l].nodes[j]`. -/
def node_at (nn : neuralnet α) (l j : Nat) : node α :=
  (nn.layers.getD l []).getD j node.zero

/-- The assignment `nn->layers[l].nodes[j] = v`. -/
def set_node (nn : neuralnet α) (l j : Nat) (v : node α) : neuralnet α :=
  { nn with layers := nn.layers.set l ((nn.layers.getD l []).set j v) }

/-- The value `nn->layers[l].nodes[j].out`. -/
def out (nn : neuralnet α) (l j : Nat) : α := (nn.node_at l j).out

/-- The value `nn->layers[l].nodes[j].delta`. -/
def delta (nn : neuralnet α) (l j : Nat) : α := (nn.node_at l j).delta

/-- The value `nn->layers[l].nodes[j].bias`. -/
def bias (nn : neuralnet α) (l j : Nat) : α := (nn.node_at l j).bias

/-- The assignment `nn->layers[l].nodes[j].out = v`. -/
def set_out (nn : neuralnet α) (l j : Nat) (v : α) : neuralnet α :=
  nn.set_node l j { nn.node_at l j with out := v }

/-- The assignment `nn->layers[l].nodes[j].delta = v`. -/
def set_delta (nn : neuralnet α) (l j : Nat) (v : α) : neuralnet α :=
  nn.set_node l j { nn.node_at l j with delta := v }

/-- The assignment `nn->layers[l].nodes[j].bias = v`. -/
def set_bias (nn : neuralnet α) (l j : Nat) (v : α) : neuralnet α :=
  nn.set_node l j { nn.node_at l j with bias := v }

/-- The index `nn->layers[L].len * K + J` of the macro `WEIGHT_AT(L, J, K)`. -/
def weight_index (nn : neuralnet α) (L J K : Nat) : Nat := nn.layer_len L * K + J

/-- The value of `WEIGHT_AT(L, J, K)`, that is
`nn->weights[L].values[nn->layers[L].len * K + J]`. -/
def WEIGHT_AT (nn : neuralnet α) (L J K : Nat) : α :=
  (nn.weights.getD L []).getD (nn.weight_index L J K) 0

/-- The assignment `WEIGHT_AT(L, J, K) = v`. -/
def set_WEIGHT_AT (nn : neuralnet α) (L J K : Nat) (v : α) : neuralnet α :=
  { nn with weights := nn.weights.set L ((nn.weights.getD L []).set (nn.weight_index L J K) v) }

end neuralnet

open neuralnet

/-! ## Forward pass -/

/-- The body of the loop over `j` in `feedforward`, for the layer pair `p`, `q`. -/
def feedforward_node (m : libc α) (p q j : Nat) (nn : neuralnet α) : neuralnet α :=
  let nn1 := nn.set_out q j 0
  let nn2 := forLoop (nn1.layer_len p)
    (fun i s => s.set_out q j (s.out q j + s.out p i * s.WEIGHT_AT p i j)) nn1
  nn2.set_out q j (activation_function m nn2.func_id (nn2.out q j + nn2.bias q j))

/-- The function `feedforward`. -/
def feedforward (m : libc α) (nn : neuralnet α) (feature : vecd α) : neuralnet α :=
  let nn1 := forLoop feature.length (fun i s => s.set_out 0 i (feature.getD i 0)) nn
  forLoop (nn1.nlayers - 1)
    (fun p s => forLoop (s.layer_len (p + 1)) (feedforward_node m p (p + 1)) s) nn1

/-- The loop of `neuralnet_query` that copies the output layer into `label->attrs`. -/
def copy_output (nn : neuralnet α) (label : vecd α) : vecd α :=
  forLoop label.length (fun i (l : vecd α) => l.set i (nn.out (nn.nlayers - 1) i)) label

/-- The function `neuralnet_query`: the returned `int`, the network and the label vector
after the call. -/
def neuralnet_query (m : libc α) :
    Option (neuralnet α) → Option (vecd α) → Option (vecd α) →
      Int × Option (neuralnet α) × Option (vecd α)
  | some nn, some feature, some label =>
    if feature.length ≠ nn.layer_len 0 ∨ label.length ≠ nn.layer_len (nn.nlayers - 1) then
      (-1, some nn, some label)
    else
      let nn1 := feedforward m nn feature
      (0, some nn1, some (copy_output nn1 label))
  | nn, _, label => (-1, nn, label)

/-! ## Backward pass -/

/-- The body of the loop over `j` in the hidden-layer part of `backpropagate`, for the
layer pair `p`, `q` and the node `i` of `p`; the second component is the local variable
`delta`. -/
def backpropagate_edge (p q i j : Nat) (s : neuralnet α × α) : neuralnet α × α :=
  let delta := s.2 + s.1.WEIGHT_AT p i j * s.1.delta q j
  (s.1.set_WEIGHT_AT p i j
      (s.1.WEIGHT_AT p i j -
        s.1.learn * s.1.delta q j * activation_derivative s.1.func_id (s.1.out q j) *
          s.1.out p i),
    delta)

/-- The body of the loop over `i` in the hidden-layer part of `backpropagate`. -/
def backpropagate_node (p q i : Nat) (nn : neuralnet α) : neuralnet α :=
  let s := forLoop (nn.layer_len q) (backpropagate_edge p q i) (nn, 0)
  s.1.set_delta p i s.2

/-- The first loop of `backpropagate`: the error values of the output layer. -/
def backpropagate_output (nn : neuralnet α) (test : vecd α) : neuralnet α :=
  forLoop (nn.layer_len (nn.nlayers - 1))
    (fun j s => s.set_delta (s.nlayers - 1) j (s.out (s.nlayers - 1) j - test.getD j 0)) nn

/-- The second loop of `backpropagate`: the hidden layers, from `nlayers - 2` down to 1. -/
def backpropagate_hidden (nn : neuralnet α) : neuralnet α :=
  downLoop (nn.nlayers - 2)
    (fun p s => forLoop (s.layer_len p) (backpropagate_node p (p + 1)) s) nn

/-- The third loop of `backpropagate`: the weight matrix leaving the input layer. -/
def backpropagate_input (nn : neuralnet α) : neuralnet α :=
  forLoop (nn.layer_len 0)
    (fun i s => forLoop (s.layer_len 1)
      (fun j t => t.set_WEIGHT_AT 0 i j
        (t.WEIGHT_AT 0 i j -
          t.learn * t.delta 1 j * activation_derivative t.func_id (t.out 1 j) * t.out 0 i))
      s) nn

/-- The fourth loop of `backpropagate`: the biases of the layers `1 .. nlayers - 1`. -/
def backpropagate_bias (nn : neuralnet α) : neuralnet α :=
  forLoop (nn.nlayers - 1)
    (fun k s => forLoop (s.layer_len (k + 1))
      (fun j t => t.set_bias (k + 1) j
        (t.bias (k + 1) j -
          t.learn * t.delta (k + 1) j * activation_derivative t.func_id (t.out (k + 1) j)))
      s) nn

/-- The function `backpropagate`. -/
def backpropagate (nn : neuralnet α) (test : vecd α) : neuralnet α :=
  backpropagate_bias (backpropagate_input (backpropagate_hidden (backpropagate_output nn test)))

/-- The function `neuralnet_train`: the returned `int` and the network after the call. -/
def neuralnet_train (m : libc α) :
    Option (neuralnet α) → Option (vecd α) → Option (vecd α) → Int × Option (neuralnet α)
  | some nn, some feature, some label =>
    if feature.length ≠ nn.layer_len 0 ∨ label.length ≠ nn.layer_len (nn.nlayers - 1) then
      (-1, some nn)
    else
      (0, some (backpropagate (feedforward m nn feature) label))
  | nn, _, _ => (-1, nn)

/-! ## Construction -/

/-- The type `struct hyperparams`; `layout` may be a null pointer. -/
structure hyperparams (α : Type) where
  layout : Option String
  learn : α
  func_id : activation_func_id

/-- The largest value of the type `int`. -/
def INT_MAX : Int := 2147483647

/-- The `int` that results from a value outside the range of `int`: the value reduced
modulo `2 ^ 32` into the range `-2 ^ 31 .. 2 ^ 31 - 1`.  A value in the range is unchanged. -/
def wrap32 (x : Int) : Int := (x + 2147483648) % 4294967296 - 2147483648

/-- The macro `RESCALE(X, MIN_X, MAX_X, A, B)` of `neuralnet.h`. -/
def RESCALE (X MIN_X MAX_X A B : α) : α := A + ((X - MIN_X) * (B - A)) / (MAX_X - MIN_X)

/-- The macro `INIT_VAL(N)`, expanded at the `k`-th call of `rand()`. -/
def INIT_VAL (m : libc α) (k : Nat) (N : Nat) : α :=
  RESCALE (m.rand k : α) 0 (m.RAND_MAX : α) (-1 / m.sqrt (N : α)) (1 / m.sqrt (N : α))

/-- The function `isspace` of `<ctype.h>` in the C locale. -/
def isspace (c : Char) : Bool := c.toNat = 32 || (9 ≤ c.toNat && c.toNat ≤ 13)

/-- The function `isdigit` of `<ctype.h>`. -/
def isdigit (c : Char) : Bool := 48 ≤ c.toNat && c.toNat ≤ 57

/-- The value of a sequence of decimal digits. -/
def decimal_value (ds : List Char) : Nat := ds.foldl (fun acc c => 10 * acc + (c.toNat - 48)) 0

/-- The largest value of the type `long`, of 64 bits. -/
def LONG_MAX : Int := 9223372036854775807

/-- The smallest value of the type `long`, of 64 bits. -/
def LONG_MIN : Int := -9223372036854775808

/-- The result of `strtol` for digits of the signed value `z`: a value above `LONG_MAX` gives
`LONG_MAX` and a value below `LONG_MIN` gives `LONG_MIN`. -/
def strtol_value (z : Int) : Int :=
  if LONG_MAX < z then LONG_MAX else if z < LONG_MIN then LONG_MIN else z

/-- The call `sscanf(p, "%d", &n)`: `some n` when it returns 1, `none` when it returns 0 or
`EOF`.  The directive skips white space, accepts one optional sign and then needs at least
one decimal digit; it stops in front of the first character that is not a digit.  The value
stored is that of the GNU C library with a `long` of 64 bits: the digits are converted by
`strtol` and the `long` is cut to the 32 bits of an `int`.  (The C standard leaves the
result open when the value does not fit an `int`.) -/
def sscanf_d (p : List Char) : Option Int :=
  let s := p.dropWhile isspace
  let neg := s.head? = some '-'
  let s1 := if s.head? = some '-' ∨ s.head? = some '+' then s.tail else s
  let ds := s1.takeWhile isdigit
  if ds = [] then none
  else
    some (wrap32 (strtol_value
      (if neg then -(decimal_value ds : Int) else (decimal_value ds : Int))))

/-- The tokens returned by `strtok(buf, ";")` and the calls `strtok(NULL, ";")` after it, up
to the first null pointer: the maximal non-empty runs of characters other than `;`.  The
second argument is the part already read of the current token. -/
def strtok_all : List Char → List Char → List (List Char)
  | [], cur => if cur = [] then [] else [cur]
  | c :: cs, cur =>
    if c = ';' then (if cur = [] then strtok_all cs [] else cur :: strtok_all cs [])
    else strtok_all cs (cur ++ [c])

/-- A counted `for` loop whose body may leave the function with an error. -/
def forLoopOpt {σ : Type} : Nat → (Nat → σ → Option σ) → σ → Option σ
  | 0, _, s => some s
  | n + 1, body, s => (forLoopOpt n body s).bind (body n)

/-- The assignment `nn->weights[l].values[k] = v`. -/
def neuralnet.set_value (nn : neuralnet α) (l k : Nat) (v : α) : neuralnet α :=
  { nn with weights := nn.weights.set l ((nn.weights.getD l []).set k v) }

/-- The assignments `nn->layers[i].nodes = nodes` and `nn->layers[i].len = nodes.length`. -/
def neuralnet.set_layer (nn : neuralnet α) (i : Nat) (nodes : List (node α)) : neuralnet α :=
  { nn with layers := nn.layers.set i nodes }

/-- The assignments `nn->weights[i].values = values` and
`nn->weights[i].len = values.length`. -/
def neuralnet.set_matrix (nn : neuralnet α) (i : Nat) (values : List α) : neuralnet α :=
  { nn with weights := nn.weights.set i values }

/-- The body of the token loop of `create_layers` for the token `p` with index `i`; the
second component of the state counts the calls of `rand()`.  `none` is the return of -1. -/
def create_layers_token (m : libc α) (layer_count i : Nat) (p : List Char)
    (s : neuralnet α × Nat) : Option (neuralnet α × Nat) :=
  match sscanf_d p with
  | none => none
  | some n =>
    if n < 1 ∨ i = layer_count ∨ m.calloc n.toNat = false then none
    else
      let nn1 := s.1.set_layer i (List.replicate n.toNat node.zero)
      if 0 < i then
        some (forLoop (nn1.layer_len i)
          (fun j t => (t.1.set_bias i j (INIT_VAL m t.2 (t.1.layer_len (i - 1))), t.2 + 1))
          (nn1, s.2))
      else some (nn1, s.2)

/-- The token loop of `create_layers`, from the token with index `i` on. -/
def create_layers_loop (m : libc α) (layer_count : Nat) :
    List (List Char) → Nat → neuralnet α × Nat → Option (neuralnet α × Nat)
  | [], _, s => some s
  | p :: rest, i, s =>
    match create_layers_token m layer_count i p s with
    | none => none
    | some s1 => create_layers_loop m layer_count rest (i + 1) s1

/-- The function `create_layers`; `none` is the return of -1. -/
def create_layers (m : libc α) (nn : neuralnet α) (layout : String) (seed : Nat) :
    Option (neuralnet α × Nat) :=
  let layer_count := 1 + layout.toList.count ';'
  if layer_count < 2 then none
  else if m.calloc layer_count = false then none
  else if m.calloc (layout.length + 1) = false then none
  else
    create_layers_loop m layer_count (strtok_all layout.toList []) 0
      ({ nn with layers := List.replicate layer_count [] }, seed)

/-- The body of the loop of `create_weights` for the matrix `i`.  A negative length, turned
into a `size_t`, is more than `calloc` can allocate. -/
def create_weights_matrix (m : libc α) (i : Nat) (s : neuralnet α × Nat) :
    Option (neuralnet α × Nat) :=
  let len := wrap32 ((s.1.layer_len i : Int) * (s.1.layer_len (i + 1) : Int))
  if len < 0 ∨ m.calloc len.toNat = false then none
  else
    let nn1 := s.1.set_matrix i (List.replicate len.toNat 0)
    some (forLoop (nn1.weights_len i)
      (fun j t => (t.1.set_value i j (INIT_VAL m t.2 (t.1.layer_len i)), t.2 + 1)) (nn1, s.2))

/-- The function `create_weights`; `none` is the return of -1. -/
def create_weights (m : libc α) (s : neuralnet α × Nat) : Option (neuralnet α × Nat) :=
  if m.calloc (s.1.nlayers - 1) = false then none
  else
    forLoopOpt (s.1.nlayers - 1) (create_weights_matrix m)
      ({ s.1 with weights := List.replicate (s.1.nlayers - 1) [] }, s.2)

/-- The function `neuralnet_create`; `none` is the null pointer. -/
def neuralnet_create (m : libc α) : Option (hyperparams α) → Option (neuralnet α)
  | none => none
  | some params =>
    match params.layout with
    | none => none
    | some layout =>
      if m.calloc 1 = false then none
      else
        match create_layers m ⟨[], [], .SIGMOID_LOGISTIC, 0⟩ layout 0 with
        | none => none
        | some s1 =>
          match create_weights m s1 with
          | none => none
          | some s2 => some { s2.1 with learn := params.learn, func_id := params.func_id }

/-- The layer lengths and the weight matrix lengths of a network. -/
def neuralnet.shape (nn : neuralnet α) : List Nat × List Nat :=
  (nn.layers.map List.length, nn.weights.map List.length)

/-- The layout string with the entries `toks`, separated by single `;` characters. -/
def join_layout : List (List Char) → List Char
  | [] => []
  | [t] => t
  | t :: u :: rest => t ++ ';' :: join_layout (u :: rest)

/-- A positive decimal integer that fits the type `int`: a non-empty sequence of decimal
digits whose value is between 1 and `INT_MAX`. -/
def positive_int_token (t : List Char) : Prop :=
  t ≠ [] ∧ (∀ c ∈ t, isdigit c = true) ∧ 1 ≤ decimal_value t ∧ (decimal_value t : Int) ≤ INT_MAX

/-! ## Invariants and reference functions -/

/-- The construction invariants of a network: at least two layers, no empty layer, one
weight matrix per pair of adjacent layers, of `len(p) * len(p + 1)` values. -/
structure neuralnet.wf (nn : neuralnet α) : Prop where
  nlayers_ge : 2 ≤ nn.nlayers
  layer_pos : ∀ l, l < nn.nlayers → 1 ≤ nn.layer_len l
  nweights_eq : nn.nweights = nn.nlayers - 1
  weights_len_eq : ∀ p, p < nn.nweights → nn.weights_len p = nn.layer_len p * nn.layer_len (p + 1)

/-- The reference forward function: the output of node `j` of layer `l` for the input
`feature`.  Layer 0 holds the feature values; a later layer applies the activation function
to the weighted sum over the preceding layer plus the bias.  It reads the weights, the
biases, the layer lengths and `func_id` of `nn`, and no `out` or `delta` field. -/
def ref_out (m : libc α) (nn : neuralnet α) (feature : vecd α) : Nat → Nat → α
  | 0, j => feature.getD j 0
  | p + 1, j =>
    activation_function m nn.func_id
      ((∑ i ∈ Finset.range (nn.layer_len p), ref_out m nn feature p i * nn.WEIGHT_AT p i j) +
        nn.bias (p + 1) j)

/-- The networks `s` and `t` differ at most in the `out` fields of their nodes. -/
def only_out (s t : neuralnet α) : Prop :=
  t.weights = s.weights ∧ t.func_id = s.func_id ∧ t.learn = s.learn ∧
    t.nlayers = s.nlayers ∧ (∀ l, t.layer_len l = s.layer_len l) ∧
    (∀ l j, t.delta l j = s.delta l j) ∧ (∀ l j, t.bias l j = s.bias l j)

/-- The networks `s` and `t` have the same weights, biases, layer lengths and
hyperparameters; they may differ in the `out` and `delta` fields of their nodes. -/
def same_params (s t : neuralnet α) : Prop :=
  t.weights = s.weights ∧ t.func_id = s.func_id ∧ t.learn = s.learn ∧
    t.nlayers = s.nlayers ∧ (∀ l, t.layer_len l = s.layer_len l) ∧
    (∀ l j, t.bias l j = s.bias l j)

/-- The networks `s` and `t` have the same hyperparameters and the same array lengths. -/
def same_shape (s t : neuralnet α) : Prop :=
  t.func_id = s.func_id ∧ t.learn = s.learn ∧ t.nlayers = s.nlayers ∧
    (∀ l, t.layer_len l = s.layer_len l) ∧ t.nweights = s.nweights ∧
    (∀ l, t.weights_len l = s.weights_len l)

/-- The reference error value, counted from the output layer: `ref_delta nn o test k i` is
the error value of node `i` of layer `nlayers - 1 - k`, where `o` gives the outputs of the
output layer.  The output layer has the signed residual `o j - test[j]`; a layer before it
has the sum over the next layer of weight times error value.  It reads the weights and the
layer lengths of `nn`, and no `delta` field. -/
def ref_delta (nn : neuralnet α) (o : Nat → α) (test : vecd α) : Nat → Nat → α
  | 0, j => o j - test.getD j 0
  | k + 1, i =>
    ∑ j ∈ Finset.range (nn.layer_len (nn.nlayers - 1 - k)),
      nn.WEIGHT_AT (nn.nlayers - 2 - k) i j * ref_delta nn o test k j

/-- The reference error value `D(l, i)` of node `i` of layer `l`. -/
def ref_D (nn : neuralnet α) (o : Nat → α) (test : vecd α) (l i : Nat) : α :=
  ref_delta nn o test (nn.nlayers - 1 - l) i

/-- The loss `E = 1/2 * sum_j (target_j - output_j)^2` of the output layer after a forward
pass of `nn` on `feature`. -/
def query_loss (m : libc α) (nn : neuralnet α) (feature target : vecd α) : α :=
  1 / 2 * ∑ j ∈ Finset.range (nn.layer_len (nn.nlayers - 1)),
    (target.getD j 0 - (feedforward m nn feature).out (nn.nlayers - 1) j) ^ 2

/-- A C library with the given functions of `<math.h>`. -/
def libc_of (exp tanh sqrt : α → α) : libc α :=
  ⟨exp, tanh, sqrt, 32767, fun k => k % 32768, fun _ => true⟩

/-- A network of layout 1;1;1 with logistic activation: the weights are 0 and 2, the bias of
the hidden node is 0, the bias of the output node is -1 and the learning rate is 1. -/
def net_1_1_1 (α : Type) [Field α] : neuralnet α :=
  ⟨[[⟨0, 0, 0⟩], [⟨0, 0, 0⟩], [⟨0, 0, -1⟩]], [[0], [2]], .SIGMOID_LOGISTIC, 1⟩

/-- The networks `s` and `t` have the same number of layers, the same layer lengths, the same
`out` field in every node, and the same `delta` and `bias` in every node of the input
layer. -/
def input_frame (s t : neuralnet α) : Prop :=
  t.nlayers = s.nlayers ∧ (∀ l, t.layer_len l = s.layer_len l) ∧
    (∀ l j, t.out l j = s.out l j) ∧ (∀ j, t.delta 0 j = s.delta 0 j) ∧
    (∀ j, t.bias 0 j = s.bias 0 j)

/-- The loss of a layer of `n` logistic output nodes as a function of the parameters that
feed it, the outputs `o` of the `N` nodes of the preceding layer being held fixed:
`E = 1/2 * sum_j (t_j - o_j)^2` with `o_j = f_logistic(sum_i o_i * w(i, j) + b_j)`. -/
def output_layer_loss (m : libc α) (N n : Nat) (o : Nat → α) (w : Nat → Nat → α)
    (b t : Nat → α) : α :=
  1 / 2 * ∑ j ∈ Finset.range n,
    (t j - f_logistic m ((∑ i ∈ Finset.range N, o i * w i j) + b j)) ^ 2

/-- The value `nn->weights[l].values[k]`. -/
def neuralnet.value (nn : neuralnet α) (l k : Nat) : α := (nn.weights.getD l []).getD k 0

/-- The biases of a network as `create_layers` leaves them: 0 in the input layer, and in a
later layer a value `INIT_VAL(N)` with `N` the length of the preceding layer. -/
def init_biases (m : libc α) (nn : neuralnet α) : Prop :=
  (∀ j, nn.bias 0 j = 0) ∧
    ∀ l j, j < nn.layer_len (l + 1) → ∃ k, nn.bias (l + 1) j = INIT_VAL m k (nn.layer_len l)

/-- The weights of a network as `create_weights` leaves them: every value of the matrix `l`
is a value `INIT_VAL(N)` with `N` the length of layer `l`. -/
def init_weights (m : libc α) (nn : neuralnet α) : Prop :=
  ∀ l x, x < nn.weights_len l → ∃ k, nn.value l x = INIT_VAL m k (nn.layer_len l)

/-- The network that a successful call of `neuralnet_train` leaves when the learning rate of
`nn` is `lr`: the forward pass followed by the backward pass. -/
def train_result (m : libc α) (nn : neuralnet α) (lr : α) (feature label : vecd α) :
    neuralnet α :=
  backpropagate (feedforward m { nn with learn := lr } feature) label

/-- A network of layout 1;1;2 with logistic activation: the weight into the hidden node is
0, the weights into the two output nodes are 1 and -1, the bias of the hidden node is 0 and
the biases of the output nodes are -1/2 and 7/2. -/
def net_1_1_2 (α : Type) [Field α] : neuralnet α :=
  ⟨[[⟨0, 0, 0⟩], [⟨0, 0, 0⟩], [⟨0, 0, -1 / 2⟩, ⟨0, 0, 7 / 2⟩]], [[0], [1, -1]],
    .SIGMOID_LOGISTIC, 1⟩

/-- The slope at the learning rate 0 of the output of node `j` of layer `l` after one
training step on `feature` and `target`, the output taken as a function of the learning
rate.  Layer 0 holds the feature values, which do not change; in a later layer the chain
rule is applied to the weighted sum, in which the outputs of the preceding layer, the weights
and the bias change with the learning rate. -/
def train_out_slope (m : libc α) (nn : neuralnet α) (feature target : vecd α) : Nat → Nat → α
  | 0, _ => 0
  | p + 1, j =>
    activation_derivative nn.func_id (ref_out m nn feature (p + 1) j) *
      ((∑ i ∈ Finset.range (nn.layer_len p),
          (train_out_slope m nn feature target p i * nn.WEIGHT_AT p i j -
            ref_out m nn feature p i *
              (ref_D nn (ref_out m nn feature (nn.nlayers - 1)) target (p + 1) j *
                activation_derivative nn.func_id (ref_out m nn feature (p + 1) j) *
                ref_out m nn feature p i))) -
        ref_D nn (ref_out m nn feature (nn.nlayers - 1)) target (p + 1) j *
          activation_derivative nn.func_id (ref_out m nn feature (p + 1) j))

/-- The slope at the learning rate 0 of the loss `E` of a query after one training step on
`feature` and `target`, the loss taken as a function of the learning rate. -/
def train_loss_slope (m : libc α) (nn : neuralnet α) (feature target : vecd α) : α :=
  ∑ k ∈ Finset.range (nn.layer_len (nn.nlayers - 1)),
    (ref_out m nn feature (nn.nlayers - 1) k - target.getD k 0) *
      train_out_slope m nn feature target (nn.nlayers - 1) k

/-- A network of layout 1;1 with tanh activation: the weight is 1, the bias of the output
node is 0 and the learning rate is 1. -/
def net_tanh_1_1 (α : Type) [Field α] : neuralnet α :=
  ⟨[[⟨0, 0, 0⟩], [⟨0, 0, 0⟩]], [[1]], .SIGMOID_TANH, 1⟩

end Model

/-! ## Concrete data for the instances below -/

/-- A C library over the rationals. -/
def libc_Q : libc ℚ :=
  ⟨fun x => 1 + x, fun x => x, fun _ => 1, 32767, fun k => k % 32768, fun _ => true⟩

/-- A network of layout 2;1. -/
def net_2_1 : neuralnet ℚ :=
  ⟨[[⟨0, 0, 0⟩, ⟨0, 0, 0⟩], [⟨0, 0, 1⟩]], [[1, 2]], .SIGMOID_LOGISTIC, 1 / 2⟩

/-- A network of layout 2;2;1. -/
def net_2_2_1 : neuralnet ℚ :=
  ⟨[[⟨0, 0, 0⟩, ⟨0, 0, 0⟩], [⟨0, 0, 1 / 2⟩, ⟨0, 0, -1 / 2⟩], [⟨0, 0, 1 / 4⟩]],
    [[1, 2, 3, 4], [1 / 2, -1]], .SIGMOID_LOGISTIC, 1 / 10⟩

/-- At every node after the input layer, the value that the entry `activation[id].derivative`
gives for the output of the node in the forward pass on `feature` is the derivative of the
entry `activation[id].function` at the weighted sum of the node, and it is positive. -/
def nodes_regular (m : libc ℝ) (nn : neuralnet ℝ) (feature : vecd ℝ) : Prop :=
  ∀ p j, p + 1 < nn.nlayers → j < nn.layer_len (p + 1) →
    HasDerivAt (activation_function m nn.func_id)
        (activation_derivative nn.func_id (ref_out m nn feature (p + 1) j))
        ((∑ i ∈ Finset.range (nn.layer_len p),
          ref_out m nn feature p i * nn.WEIGHT_AT p i j) + nn.bias (p + 1) j) ∧
      0 < activation_derivative nn.func_id (ref_out m nn feature (p + 1) j)

/-! ## Lemmas -/

section Lemmas

set_option linter.unusedSectionVars false

variable {α : Type} [Field α]

open neuralnet

theorem getD_set_list {β : Type} (l : List β) (i j : Nat) (a d : β) :
    (l.set i a).getD j d = if j = i ∧ i < l.length then a else l.getD j d := by
  simp only [List.getD_eq_getElem?_getD, List.getElem?_set]
  by_cases h : i = j
  · subst h
    by_cases h2 : i < l.length
    · simp [h2]
    · have : l[i]? = none := by simp; omega
      simp [h2, this]
  · have h' : ¬ j = i := fun e => h e.symm
    simp [h, h']

theorem forLoop_succ {σ : Type} (n : Nat) (body : Nat → σ → σ) (s : σ) :
    forLoop (n + 1) body s = body n (forLoop n body s) := rfl

theorem forLoop_inv {σ : Type} (I : Nat → σ → Prop) (n : Nat) (body : Nat → σ → σ) (s : σ)
    (h0 : I 0 s) (hstep : ∀ k, k < n → ∀ t, I k t → I (k + 1) (body k t)) :
    I n (forLoop n body s) := by
  induction n with
  | zero => exact h0
  | succ n ih =>
    exact hstep n (Nat.lt_succ_self n) _ (ih (fun k hk t ht => hstep k (Nat.lt_succ_of_lt hk) t ht))

theorem downLoop_inv {σ : Type} (I : Nat → σ → Prop) (n : Nat) (body : Nat → σ → σ) (s : σ)
    (h0 : I n s) (hstep : ∀ k, k < n → ∀ t, I (k + 1) t → I k (body (k + 1) t)) :
    I 0 (downLoop n body s) := by
  induction n generalizing s with
  | zero => exact h0
  | succ n ih =>
    exact ih _ (hstep n (Nat.lt_succ_self n) s h0) (fun k hk t ht => hstep k (Nat.lt_succ_of_lt hk) t ht)


namespace neuralnet

@[simp] theorem set_node_weights (nn : neuralnet α) (l j : Nat) (v : node α) :
    (nn.set_node l j v).weights = nn.weights := rfl
@[simp] theorem set_node_func_id (nn : neuralnet α) (l j : Nat) (v : node α) :
    (nn.set_node l j v).func_id = nn.func_id := rfl
@[simp] theorem set_node_learn (nn : neuralnet α) (l j : Nat) (v : node α) :
    (nn.set_node l j v).learn = nn.learn := rfl
@[simp] theorem set_node_nlayers (nn : neuralnet α) (l j : Nat) (v : node α) :
    (nn.set_node l j v).nlayers = nn.nlayers := by
  simp [nlayers, set_node]

@[simp] theorem set_node_layer_len (nn : neuralnet α) (l j : Nat) (v : node α) (l' : Nat) :
    (nn.set_node l j v).layer_len l' = nn.layer_len l' := by
  simp only [layer_len, set_node, getD_set_list]
  split
  · rename_i h; rw [h.1]; simp
  · rfl

theorem node_at_set_node (nn : neuralnet α) (l j : Nat) (v : node α) (l' j' : Nat) :
    (nn.set_node l j v).node_at l' j' =
      if l' = l ∧ j' = j ∧ j < nn.layer_len l then v else nn.node_at l' j' := by
  unfold node_at set_node layer_len
  dsimp only
  rw [getD_set_list]
  by_cases h1 : l' = l
  · subst h1
    by_cases h2 : l' < nn.layers.length
    · rw [if_pos ⟨rfl, h2⟩, getD_set_list]
      by_cases h3 : j' = j ∧ j < (nn.layers.getD l' []).length
      · rw [if_pos h3, if_pos ⟨rfl, h3⟩]
      · rw [if_neg h3, if_neg (fun h => h3 h.2)]
    · have h4 : nn.layers.getD l' [] = [] := by
        rw [List.getD_eq_getElem?_getD]
        have : nn.layers[l']? = none := by simp; omega
        simp [this]
      rw [if_neg (fun h => h2 h.2), h4]
      simp
  · rw [if_neg (fun h => h1 h.1), if_neg (fun h => h1 h.1)]

theorem node_at_set_out (nn : neuralnet α) (l j : Nat) (v : α) (l' j' : Nat) :
    (nn.set_out l j v).node_at l' j' =
      if l' = l ∧ j' = j ∧ j < nn.layer_len l then { nn.node_at l j with out := v }
      else nn.node_at l' j' := node_at_set_node _ _ _ _ _ _

theorem out_set_out (nn : neuralnet α) (l j : Nat) (v : α) (l' j' : Nat) :
    (nn.set_out l j v).out l' j' =
      if l' = l ∧ j' = j ∧ j < nn.layer_len l then v else nn.out l' j' := by
  unfold out; rw [node_at_set_out]; split <;> rfl

@[simp] theorem delta_set_out (nn : neuralnet α) (l j : Nat) (v : α) (l' j' : Nat) :
    (nn.set_out l j v).delta l' j' = nn.delta l' j' := by
  unfold delta; rw [node_at_set_out]; split
  · rename_i h; rw [h.1, h.2.1]
  · rfl

@[simp] theorem bias_set_out (nn : neuralnet α) (l j : Nat) (v : α) (l' j' : Nat) :
    (nn.set_out l j v).bias l' j' = nn.bias l' j' := by
  unfold bias; rw [node_at_set_out]; split
  · rename_i h; rw [h.1, h.2.1]
  · rfl

@[simp] theorem set_out_weights (nn : neuralnet α) (l j : Nat) (v : α) :
    (nn.set_out l j v).weights = nn.weights := rfl
@[simp] theorem set_out_func_id (nn : neuralnet α) (l j : Nat) (v : α) :
    (nn.set_out l j v).func_id = nn.func_id := rfl
@[simp] theorem set_out_learn (nn : neuralnet α) (l j : Nat) (v : α) :
    (nn.set_out l j v).learn = nn.learn := rfl
@[simp] theorem set_out_nlayers (nn : neuralnet α) (l j : Nat) (v : α) :
    (nn.set_out l j v).nlayers = nn.nlayers := set_node_nlayers _ _ _ _
@[simp] theorem set_out_layer_len (nn : neuralnet α) (l j : Nat) (v : α) (l' : Nat) :
    (nn.set_out l j v).layer_len l' = nn.layer_len l' := set_node_layer_len _ _ _ _ _

theorem WEIGHT_AT_congr (s t : neuralnet α) (hw : t.weights = s.weights)
    (hl : ∀ l, t.layer_len l = s.layer_len l) (L J K : Nat) :
    t.WEIGHT_AT L J K = s.WEIGHT_AT L J K := by
  unfold WEIGHT_AT weight_index; rw [hw, hl]

end neuralnet


theorem only_out_refl (s : neuralnet α) : only_out s s :=
  ⟨rfl, rfl, rfl, rfl, fun _ => rfl, fun _ _ => rfl, fun _ _ => rfl⟩

theorem only_out_trans {s t u : neuralnet α} (h1 : only_out s t) (h2 : only_out t u) :
    only_out s u := by
  obtain ⟨sw, sf, sl, sn, slen, sdelta, sbias⟩ := h1
  obtain ⟨tw, tf, tl, tn, tlen, tdelta, tbias⟩ := h2
  exact ⟨tw.trans sw, tf.trans sf, tl.trans sl, tn.trans sn, fun l => (tlen l).trans (slen l),
    fun l j => (tdelta l j).trans (sdelta l j), fun l j => (tbias l j).trans (sbias l j)⟩

theorem only_out_set_out (s : neuralnet α) (l j : Nat) (v : α) : only_out s (s.set_out l j v) :=
  ⟨rfl, rfl, rfl, by simp, by simp, by simp, by simp⟩

theorem only_out_WEIGHT_AT {s t : neuralnet α} (h : only_out s t) (L J K : Nat) :
    t.WEIGHT_AT L J K = s.WEIGHT_AT L J K :=
  WEIGHT_AT_congr s t h.1 h.2.2.2.2.1 L J K

/-- The accumulation loop of `feedforward_node`. -/
theorem feedforward_sum_loop (p q j : Nat) (s : neuralnet α) (hpq : p ≠ q)
    (hj : j < s.layer_len q) (n : Nat) :
    let t := forLoop n (fun i u => u.set_out q j (u.out q j + u.out p i * u.WEIGHT_AT p i j))
      (s.set_out q j 0)
    only_out s t ∧ (∀ l' j', ¬ (l' = q ∧ j' = j) → t.out l' j' = s.out l' j') ∧
      t.out q j = ∑ i ∈ Finset.range n, s.out p i * s.WEIGHT_AT p i j := by
  induction n with
  | zero =>
    refine ⟨only_out_set_out _ _ _ _, ?_, ?_⟩
    · intro l' j' h
      simp only [forLoop]
      rw [out_set_out, if_neg (fun h' => h ⟨h'.1, h'.2.1⟩)]
    · simp only [forLoop]
      rw [out_set_out, if_pos ⟨rfl, rfl, hj⟩]; simp
  | succ n ih =>
    obtain ⟨h1, h2, h3⟩ := ih
    simp only [forLoop]
    generalize forLoop n (fun i u => u.set_out q j (u.out q j + u.out p i * u.WEIGHT_AT p i j))
      (s.set_out q j 0) = t at h1 h2 h3
    refine ⟨only_out_trans h1 (only_out_set_out _ _ _ _), ?_, ?_⟩
    · intro l' j' h
      rw [out_set_out, if_neg (fun h' => h ⟨h'.1, h'.2.1⟩)]
      exact h2 l' j' h
    · have hj' : j < t.layer_len q := by rw [h1.2.2.2.2.1]; exact hj
      rw [out_set_out, if_pos ⟨rfl, rfl, hj'⟩, Finset.sum_range_succ, h3,
        h2 p n (fun h => hpq h.1), only_out_WEIGHT_AT h1]

theorem feedforward_node_spec (m : libc α) (p q j : Nat) (s : neuralnet α) (hpq : p ≠ q)
    (hj : j < s.layer_len q) :
    only_out s (feedforward_node m p q j s) ∧
      (∀ l' j', ¬ (l' = q ∧ j' = j) → (feedforward_node m p q j s).out l' j' = s.out l' j') ∧
      (feedforward_node m p q j s).out q j =
        activation_function m s.func_id
          ((∑ i ∈ Finset.range (s.layer_len p), s.out p i * s.WEIGHT_AT p i j) + s.bias q j) := by
  simp only [feedforward_node, set_out_layer_len]
  obtain ⟨h1, h2, h3⟩ := feedforward_sum_loop p q j s hpq hj (s.layer_len p)
  generalize forLoop (s.layer_len p)
    (fun i u => u.set_out q j (u.out q j + u.out p i * u.WEIGHT_AT p i j))
    (s.set_out q j 0) = t at h1 h2 h3
  have hj' : j < t.layer_len q := by rw [h1.2.2.2.2.1]; exact hj
  refine ⟨only_out_trans h1 (only_out_set_out _ _ _ _), ?_, ?_⟩
  · intro l' j' h
    rw [out_set_out, if_neg (fun h' => h ⟨h'.1, h'.2.1⟩)]
    exact h2 l' j' h
  · rw [out_set_out, if_pos ⟨rfl, rfl, hj'⟩, h3, h1.2.1, h1.2.2.2.2.2.2]

theorem feedforward_layer_loop (m : libc α) (p q : Nat) (s : neuralnet α) (hpq : p ≠ q)
    (n : Nat) (hn : n ≤ s.layer_len q) :
    let t := forLoop n (feedforward_node m p q) s
    only_out s t ∧ (∀ l' j', l' ≠ q ∨ n ≤ j' → t.out l' j' = s.out l' j') ∧
      ∀ j', j' < n → t.out q j' =
        activation_function m s.func_id
          ((∑ i ∈ Finset.range (s.layer_len p), s.out p i * s.WEIGHT_AT p i j') + s.bias q j') := by
  induction n with
  | zero =>
    exact ⟨only_out_refl s, fun _ _ _ => rfl, fun _ h => absurd h (Nat.not_lt_zero _)⟩
  | succ n ih =>
    obtain ⟨h1, h2, h3⟩ := ih (Nat.le_of_succ_le hn)
    simp only [forLoop]
    generalize forLoop n (feedforward_node m p q) s = t at h1 h2 h3
    have hlen : ∀ l, t.layer_len l = s.layer_len l := h1.2.2.2.2.1
    have hn' : n < t.layer_len q := by rw [hlen]; exact hn
    obtain ⟨g1, g2, g3⟩ := feedforward_node_spec m p q n t hpq hn'
    refine ⟨only_out_trans h1 g1, ?_, ?_⟩
    · intro l' j' h
      rw [g2 l' j' (by rintro ⟨rfl, rfl⟩; rcases h with h | h; exact h rfl; omega)]
      exact h2 l' j' (by rcases h with h | h; exact Or.inl h; exact Or.inr (by omega))
    · intro j' hj'
      by_cases hjn : j' = n
      · subst hjn
        rw [g3, h1.2.1, hlen, h1.2.2.2.2.2.2]
        congr 2
        apply Finset.sum_congr rfl
        intro i _
        rw [h2 p i (Or.inl hpq), only_out_WEIGHT_AT h1]
      · rw [g2 q j' (fun h => hjn h.2)]
        exact h3 j' (by omega)

theorem feedforward_input_loop (feature : vecd α) (s : neuralnet α) (n : Nat)
    (hn : n ≤ s.layer_len 0) :
    let t := forLoop n (fun i u => u.set_out 0 i (feature.getD i 0)) s
    only_out s t ∧ (∀ l' j', l' ≠ 0 ∨ n ≤ j' → t.out l' j' = s.out l' j') ∧
      ∀ j', j' < n → t.out 0 j' = feature.getD j' 0 := by
  induction n with
  | zero =>
    exact ⟨only_out_refl s, fun _ _ _ => rfl, fun _ h => absurd h (Nat.not_lt_zero _)⟩
  | succ n ih =>
    obtain ⟨h1, h2, h3⟩ := ih (Nat.le_of_succ_le hn)
    simp only [forLoop]
    generalize forLoop n (fun i u => u.set_out 0 i (feature.getD i 0)) s = t at h1 h2 h3
    have hn' : n < t.layer_len 0 := by rw [h1.2.2.2.2.1]; exact hn
    refine ⟨only_out_trans h1 (only_out_set_out _ _ _ _), ?_, ?_⟩
    · intro l' j' h
      rw [out_set_out, if_neg (by rintro ⟨rfl, rfl, _⟩; rcases h with h | h; exact h rfl; omega)]
      exact h2 l' j' (by rcases h with h | h; exact Or.inl h; exact Or.inr (by omega))
    · intro j' hj'
      rw [out_set_out]
      by_cases hjn : j' = n
      · subst hjn; rw [if_pos ⟨rfl, rfl, hn'⟩]
      · rw [if_neg (fun h => hjn h.2.1)]; exact h3 j' (by omega)

theorem same_params_of_only_out {s t : neuralnet α} (h : only_out s t) : same_params s t :=
  ⟨h.1, h.2.1, h.2.2.1, h.2.2.2.1, h.2.2.2.2.1, h.2.2.2.2.2.2⟩

theorem same_params_WEIGHT_AT {s t : neuralnet α} (h : same_params s t) (L J K : Nat) :
    t.WEIGHT_AT L J K = s.WEIGHT_AT L J K :=
  WEIGHT_AT_congr s t h.1 h.2.2.2.2.1 L J K

theorem ref_out_congr (m : libc α) {s t : neuralnet α} (h : same_params s t)
    (feature : vecd α) (l j : Nat) : ref_out m t feature l j = ref_out m s feature l j := by
  induction l generalizing j with
  | zero => rfl
  | succ l ih =>
    simp only [ref_out]
    rw [h.2.1, h.2.2.2.2.1, h.2.2.2.2.2]
    congr 2
    apply Finset.sum_congr rfl
    intro i _
    rw [ih, same_params_WEIGHT_AT h]

theorem feedforward_layers_loop (m : libc α) (nn : neuralnet α) (feature : vecd α)
    (s : neuralnet α) (hs : only_out nn s)
    (h0 : ∀ j, j < nn.layer_len 0 → s.out 0 j = ref_out m nn feature 0 j) (n : Nat) :
    let t := forLoop n (fun p u => forLoop (u.layer_len (p + 1)) (feedforward_node m p (p + 1)) u) s
    only_out nn t ∧ (∀ l j, n < l → t.out l j = s.out l j) ∧
      ∀ l, l ≤ n → ∀ j, j < nn.layer_len l → t.out l j = ref_out m nn feature l j := by
  induction n with
  | zero =>
    refine ⟨hs, fun _ _ _ => rfl, ?_⟩
    intro l hl j hj
    have : l = 0 := by omega
    subst this
    exact h0 j hj
  | succ n ih =>
    obtain ⟨h1, h2, h3⟩ := ih
    simp only [forLoop]
    generalize forLoop n
      (fun p u => forLoop (u.layer_len (p + 1)) (feedforward_node m p (p + 1)) u) s = t
      at h1 h2 h3
    obtain ⟨g1, g2, g3⟩ := feedforward_layer_loop m n (n + 1) t (by omega) (t.layer_len (n + 1))
      (Nat.le_refl _)
    have hlen : ∀ l, t.layer_len l = nn.layer_len l := h1.2.2.2.2.1
    refine ⟨only_out_trans h1 g1, ?_, ?_⟩
    · intro l j hl
      rw [g2 l j (Or.inl (by omega))]
      exact h2 l j (by omega)
    · intro l hl j hj
      by_cases hln : l = n + 1
      · subst hln
        rw [g3 j (by rw [hlen]; exact hj)]
        simp only [ref_out]
        rw [h1.2.1, hlen, h1.2.2.2.2.2.2]
        congr 2
        apply Finset.sum_congr rfl
        intro i hi
        rw [h3 n (Nat.le_refl _) i (Finset.mem_range.mp hi), only_out_WEIGHT_AT h1]
      · rw [g2 l j (Or.inl hln)]
        exact h3 l (by omega) j hj

theorem feedforward_spec (m : libc α) (nn : neuralnet α) (feature : vecd α)
    (hf : feature.length = nn.layer_len 0) :
    only_out nn (feedforward m nn feature) ∧
      ∀ l, l < nn.nlayers → ∀ j, j < nn.layer_len l →
        (feedforward m nn feature).out l j = ref_out m nn feature l j := by
  unfold feedforward
  obtain ⟨h1, _, h3⟩ := feedforward_input_loop feature nn feature.length (by omega)
  generalize forLoop feature.length (fun i u => u.set_out 0 i (feature.getD i 0)) nn = s
    at h1 h3
  obtain ⟨g1, _, g3⟩ := feedforward_layers_loop m nn feature s h1
    (fun j hj => h3 j (by omega)) (s.nlayers - 1)
  refine ⟨g1, ?_⟩
  intro l hl j hj
  exact g3 l (by rw [h1.2.2.2.1]; omega) j hj



theorem copy_output_loop (nn : neuralnet α) (label : vecd α) (n : Nat) (hn : n ≤ label.length) :
    let r := forLoop n (fun i (l : vecd α) => l.set i (nn.out (nn.nlayers - 1) i)) label
    r.length = label.length ∧ (∀ j, j < n → r[j]? = some (nn.out (nn.nlayers - 1) j)) ∧
      ∀ j, n ≤ j → r[j]? = label[j]? := by
  induction n with
  | zero => exact ⟨rfl, fun _ h => absurd h (Nat.not_lt_zero _), fun _ _ => rfl⟩
  | succ n ih =>
    obtain ⟨h1, h2, h3⟩ := ih (Nat.le_of_succ_le hn)
    simp only [forLoop]
    generalize forLoop n (fun i (l : vecd α) => l.set i (nn.out (nn.nlayers - 1) i)) label = r
      at h1 h2 h3
    refine ⟨by rw [List.length_set]; exact h1, ?_, ?_⟩
    · intro j hj
      rw [List.getElem?_set]
      by_cases hjn : n = j
      · subst hjn
        rw [if_pos rfl, if_pos (by omega)]
      · rw [if_neg hjn]; exact h2 j (by omega)
    · intro j hj
      rw [List.getElem?_set, if_neg (by omega)]
      exact h3 j (by omega)

theorem weight_index_lt {n m i j : Nat} (hi : i < n) (hj : j < m) : n * j + i < n * m := by
  calc n * j + i < n * j + n := by omega
    _ = n * (j + 1) := by ring
    _ ≤ n * m := Nat.mul_le_mul_left n hj

theorem weight_index_inj {n i j i' j' : Nat} (hi : i < n) (hi' : i' < n)
    (h : n * j + i = n * j' + i') : i = i' ∧ j = j' := by
  have hn : 0 < n := by omega
  have h1 : (n * j + i) % n = i := by
    rw [Nat.mul_add_mod]; exact Nat.mod_eq_of_lt hi
  have h2 : (n * j' + i') % n = i' := by
    rw [Nat.mul_add_mod]; exact Nat.mod_eq_of_lt hi'
  have h3 : (n * j + i) / n = j := by
    rw [Nat.mul_add_div hn, Nat.div_eq_of_lt hi]; rfl
  have h4 : (n * j' + i') / n = j' := by
    rw [Nat.mul_add_div hn, Nat.div_eq_of_lt hi']; rfl
  constructor
  · rw [← h1, h, h2]
  · rw [← h3, h, h4]

namespace neuralnet

theorem node_at_set_delta (nn : neuralnet α) (l j : Nat) (v : α) (l' j' : Nat) :
    (nn.set_delta l j v).node_at l' j' =
      if l' = l ∧ j' = j ∧ j < nn.layer_len l then { nn.node_at l j with delta := v }
      else nn.node_at l' j' := node_at_set_node _ _ _ _ _ _

theorem delta_set_delta (nn : neuralnet α) (l j : Nat) (v : α) (l' j' : Nat) :
    (nn.set_delta l j v).delta l' j' =
      if l' = l ∧ j' = j ∧ j < nn.layer_len l then v else nn.delta l' j' := by
  unfold delta; rw [node_at_set_delta]; split <;> rfl

@[simp] theorem out_set_delta (nn : neuralnet α) (l j : Nat) (v : α) (l' j' : Nat) :
    (nn.set_delta l j v).out l' j' = nn.out l' j' := by
  unfold out; rw [node_at_set_delta]; split
  · rename_i h; rw [h.1, h.2.1]
  · rfl

@[simp] theorem bias_set_delta (nn : neuralnet α) (l j : Nat) (v : α) (l' j' : Nat) :
    (nn.set_delta l j v).bias l' j' = nn.bias l' j' := by
  unfold bias; rw [node_at_set_delta]; split
  · rename_i h; rw [h.1, h.2.1]
  · rfl

@[simp] theorem set_delta_weights (nn : neuralnet α) (l j : Nat) (v : α) :
    (nn.set_delta l j v).weights = nn.weights := rfl
@[simp] theorem set_delta_func_id (nn : neuralnet α) (l j : Nat) (v : α) :
    (nn.set_delta l j v).func_id = nn.func_id := rfl
@[simp] theorem set_delta_learn (nn : neuralnet α) (l j : Nat) (v : α) :
    (nn.set_delta l j v).learn = nn.learn := rfl
@[simp] theorem set_delta_nlayers (nn : neuralnet α) (l j : Nat) (v : α) :
    (nn.set_delta l j v).nlayers = nn.nlayers := set_node_nlayers _ _ _ _
@[simp] theorem set_delta_layer_len (nn : neuralnet α) (l j : Nat) (v : α) (l' : Nat) :
    (nn.set_delta l j v).layer_len l' = nn.layer_len l' := set_node_layer_len _ _ _ _ _

theorem node_at_set_bias (nn : neuralnet α) (l j : Nat) (v : α) (l' j' : Nat) :
    (nn.set_bias l j v).node_at l' j' =
      if l' = l ∧ j' = j ∧ j < nn.layer_len l then { nn.node_at l j with bias := v }
      else nn.node_at l' j' := node_at_set_node _ _ _ _ _ _

theorem bias_set_bias (nn : neuralnet α) (l j : Nat) (v : α) (l' j' : Nat) :
    (nn.set_bias l j v).bias l' j' =
      if l' = l ∧ j' = j ∧ j < nn.layer_len l then v else nn.bias l' j' := by
  unfold bias; rw [node_at_set_bias]; split <;> rfl

@[simp] theorem out_set_bias (nn : neuralnet α) (l j : Nat) (v : α) (l' j' : Nat) :
    (nn.set_bias l j v).out l' j' = nn.out l' j' := by
  unfold out; rw [node_at_set_bias]; split
  · rename_i h; rw [h.1, h.2.1]
  · rfl

@[simp] theorem delta_set_bias (nn : neuralnet α) (l j : Nat) (v : α) (l' j' : Nat) :
    (nn.set_bias l j v).delta l' j' = nn.delta l' j' := by
  unfold delta; rw [node_at_set_bias]; split
  · rename_i h; rw [h.1, h.2.1]
  · rfl

@[simp] theorem set_bias_weights (nn : neuralnet α) (l j : Nat) (v : α) :
    (nn.set_bias l j v).weights = nn.weights := rfl
@[simp] theorem set_bias_func_id (nn : neuralnet α) (l j : Nat) (v : α) :
    (nn.set_bias l j v).func_id = nn.func_id := rfl
@[simp] theorem set_bias_learn (nn : neuralnet α) (l j : Nat) (v : α) :
    (nn.set_bias l j v).learn = nn.learn := rfl
@[simp] theorem set_bias_nlayers (nn : neuralnet α) (l j : Nat) (v : α) :
    (nn.set_bias l j v).nlayers = nn.nlayers := set_node_nlayers _ _ _ _
@[simp] theorem set_bias_layer_len (nn : neuralnet α) (l j : Nat) (v : α) (l' : Nat) :
    (nn.set_bias l j v).layer_len l' = nn.layer_len l' := set_node_layer_len _ _ _ _ _

@[simp] theorem set_WEIGHT_AT_layers (nn : neuralnet α) (L J K : Nat) (v : α) :
    (nn.set_WEIGHT_AT L J K v).layers = nn.layers := rfl
@[simp] theorem set_WEIGHT_AT_func_id (nn : neuralnet α) (L J K : Nat) (v : α) :
    (nn.set_WEIGHT_AT L J K v).func_id = nn.func_id := rfl
@[simp] theorem set_WEIGHT_AT_learn (nn : neuralnet α) (L J K : Nat) (v : α) :
    (nn.set_WEIGHT_AT L J K v).learn = nn.learn := rfl
@[simp] theorem set_WEIGHT_AT_nweights (nn : neuralnet α) (L J K : Nat) (v : α) :
    (nn.set_WEIGHT_AT L J K v).nweights = nn.nweights := by
  simp [nweights, set_WEIGHT_AT]

@[simp] theorem set_WEIGHT_AT_weights_len (nn : neuralnet α) (L J K : Nat) (v : α) (l' : Nat) :
    (nn.set_WEIGHT_AT L J K v).weights_len l' = nn.weights_len l' := by
  simp only [weights_len, set_WEIGHT_AT, getD_set_list]
  split
  · rename_i h; rw [h.1]; simp
  · rfl

theorem layer_len_of_layers {s t : neuralnet α} (h : t.layers = s.layers) (l : Nat) :
    t.layer_len l = s.layer_len l := by unfold layer_len; rw [h]
theorem nlayers_of_layers {s t : neuralnet α} (h : t.layers = s.layers) :
    t.nlayers = s.nlayers := by unfold nlayers; rw [h]
theorem out_of_layers {s t : neuralnet α} (h : t.layers = s.layers) (l j : Nat) :
    t.out l j = s.out l j := by unfold out node_at; rw [h]
theorem delta_of_layers {s t : neuralnet α} (h : t.layers = s.layers) (l j : Nat) :
    t.delta l j = s.delta l j := by unfold delta node_at; rw [h]
theorem bias_of_layers {s t : neuralnet α} (h : t.layers = s.layers) (l j : Nat) :
    t.bias l j = s.bias l j := by unfold bias node_at; rw [h]
theorem nweights_of_weights {s t : neuralnet α} (h : t.weights = s.weights) :
    t.nweights = s.nweights := by unfold nweights; rw [h]
theorem weights_len_of_weights {s t : neuralnet α} (h : t.weights = s.weights) (l : Nat) :
    t.weights_len l = s.weights_len l := by unfold weights_len; rw [h]

theorem WEIGHT_AT_set_WEIGHT_AT (nn : neuralnet α) (p i j : Nat) (v : α) (p' i' j' : Nat)
    (hi : i < nn.layer_len p) (hi' : i' < nn.layer_len p')
    (hb : nn.weight_index p i j < nn.weights_len p) :
    (nn.set_WEIGHT_AT p i j v).WEIGHT_AT p' i' j' =
      if p' = p ∧ i' = i ∧ j' = j then v else nn.WEIGHT_AT p' i' j' := by
  unfold WEIGHT_AT
  have hidx : (nn.set_WEIGHT_AT p i j v).weight_index p' i' j' = nn.weight_index p' i' j' := rfl
  rw [hidx]
  unfold set_WEIGHT_AT
  dsimp only
  rw [getD_set_list]
  by_cases hp : p' = p
  · subst hp
    have hlt : p' < nn.weights.length := by
      by_contra hcon
      have : nn.weights.getD p' [] = [] := by
        rw [List.getD_eq_getElem?_getD]
        have : nn.weights[p']? = none := by simp; omega
        simp [this]
      unfold weights_len at hb
      rw [this] at hb
      exact absurd hb (Nat.not_lt_zero _)
    rw [if_pos ⟨rfl, hlt⟩, getD_set_list]
    by_cases hij : i' = i ∧ j' = j
    · obtain ⟨rfl, rfl⟩ := hij
      rw [if_pos ⟨rfl, hb⟩, if_pos ⟨rfl, rfl, rfl⟩]
    · have hne : ¬ (nn.weight_index p' i' j' = nn.weight_index p' i j ∧
          nn.weight_index p' i j < (nn.weights.getD p' []).length) := by
        rintro ⟨h1, _⟩
        unfold weight_index at h1
        obtain ⟨e1, e2⟩ := weight_index_inj hi' hi h1
        exact hij ⟨e1, e2⟩
      rw [if_neg hne, if_neg (fun h => hij ⟨h.2.1, h.2.2⟩)]
  · rw [if_neg (fun h => hp h.1), if_neg (fun h => hp h.1)]

end neuralnet

theorem same_shape_refl (s : neuralnet α) : same_shape s s :=
  ⟨rfl, rfl, rfl, fun _ => rfl, rfl, fun _ => rfl⟩

theorem same_shape_trans {s t u : neuralnet α} (h1 : same_shape s t) (h2 : same_shape t u) :
    same_shape s u := by
  obtain ⟨sf, sl, sn, slen, snw, swlen⟩ := h1
  obtain ⟨tf, tl, tn, tlen, tnw, twlen⟩ := h2
  exact ⟨tf.trans sf, tl.trans sl, tn.trans sn, fun l => (tlen l).trans (slen l),
    tnw.trans snw, fun l => (twlen l).trans (swlen l)⟩

theorem same_shape_set_delta (s : neuralnet α) (l j : Nat) (v : α) :
    same_shape s (s.set_delta l j v) :=
  ⟨rfl, rfl, by simp, by simp, rfl, fun _ => rfl⟩

theorem same_shape_set_bias (s : neuralnet α) (l j : Nat) (v : α) :
    same_shape s (s.set_bias l j v) :=
  ⟨rfl, rfl, by simp, by simp, rfl, fun _ => rfl⟩

theorem same_shape_set_WEIGHT_AT (s : neuralnet α) (L J K : Nat) (v : α) :
    same_shape s (s.set_WEIGHT_AT L J K v) :=
  ⟨rfl, rfl, rfl, fun _ => rfl, by simp, by simp⟩

theorem same_shape_of_only_out {s t : neuralnet α} (h : only_out s t) : same_shape s t :=
  ⟨h.2.1, h.2.2.1, h.2.2.2.1, h.2.2.2.2.1, nweights_of_weights h.1,
    weights_len_of_weights h.1⟩

theorem wf_of_same_shape {s t : neuralnet α} (h : same_shape s t) (hs : s.wf) : t.wf := by
  obtain ⟨_, _, a3, a4, a5, a6⟩ := h
  refine ⟨by rw [a3]; exact hs.nlayers_ge, ?_, by rw [a5, a3]; exact hs.nweights_eq, ?_⟩
  · intro l hl; rw [a4]; exact hs.layer_pos l (by rw [← a3]; exact hl)
  · intro p hp; rw [a6, a4, a4]; exact hs.weights_len_eq p (by rw [← a5]; exact hp)



theorem backpropagate_edge_loop (p q i : Nat) (s : neuralnet α) (hi : i < s.layer_len p)
    (hw : s.weights_len p = s.layer_len p * s.layer_len q) (n : Nat)
    (hn : n ≤ s.layer_len q) :
    (forLoop n (backpropagate_edge p q i) (s, 0)).1.layers = s.layers ∧
      same_shape s (forLoop n (backpropagate_edge p q i) (s, 0)).1 ∧
      (forLoop n (backpropagate_edge p q i) (s, 0)).2 =
        ∑ j ∈ Finset.range n, s.WEIGHT_AT p i j * s.delta q j ∧
      ∀ p' i' j', i' < s.layer_len p' →
        (forLoop n (backpropagate_edge p q i) (s, 0)).1.WEIGHT_AT p' i' j' =
          if p' = p ∧ i' = i ∧ j' < n then
            s.WEIGHT_AT p i j' -
              s.learn * s.delta q j' * activation_derivative s.func_id (s.out q j') * s.out p i
          else s.WEIGHT_AT p' i' j' := by
  induction n with
  | zero =>
    refine ⟨rfl, same_shape_refl s, by simp [forLoop], ?_⟩
    intro p' i' j' _
    rw [if_neg (fun h => absurd h.2.2 (Nat.not_lt_zero _))]
    rfl
  | succ n ih =>
    obtain ⟨h1, h2, h3, h4⟩ := ih (Nat.le_of_succ_le hn)
    simp only [forLoop]
    generalize forLoop n (backpropagate_edge p q i) (s, 0) = r at h1 h2 h3 h4
    obtain ⟨t, acc⟩ := r
    simp only at h1 h2 h3 h4
    simp only [backpropagate_edge]
    have hlen : ∀ l, t.layer_len l = s.layer_len l := layer_len_of_layers h1
    have hWn : t.WEIGHT_AT p i n = s.WEIGHT_AT p i n := by
      rw [h4 p i n hi, if_neg (fun h => absurd h.2.2 (Nat.lt_irrefl _))]
    have hb : t.weight_index p i n < t.weights_len p := by
      unfold weight_index
      rw [h2.2.2.2.2.2, hw, hlen]
      exact weight_index_lt hi (by omega)
    refine ⟨h1, same_shape_trans h2 (same_shape_set_WEIGHT_AT _ _ _ _ _), ?_, ?_⟩
    · rw [Finset.sum_range_succ, h3, hWn, delta_of_layers h1]
    · intro p' i' j' hi'
      rw [WEIGHT_AT_set_WEIGHT_AT t p i n _ p' i' j' (by rw [hlen]; exact hi)
        (by rw [hlen]; exact hi') hb]
      by_cases hc : p' = p ∧ i' = i ∧ j' = n
      · obtain ⟨rfl, rfl, rfl⟩ := hc
        rw [if_pos ⟨rfl, rfl, rfl⟩, if_pos ⟨rfl, rfl, Nat.lt_succ_self _⟩, hWn, h2.2.1,
          delta_of_layers h1, h2.1, out_of_layers h1, out_of_layers h1]
      · rw [if_neg hc, h4 p' i' j' hi']
        by_cases hd : p' = p ∧ i' = i ∧ j' < n
        · rw [if_pos hd, if_pos ⟨hd.1, hd.2.1, by omega⟩]
        · rw [if_neg hd, if_neg]
          rintro ⟨e1, e2, e3⟩
          rcases Nat.lt_succ_iff_lt_or_eq.mp e3 with e | e
          · exact hd ⟨e1, e2, e⟩
          · exact hc ⟨e1, e2, e⟩

theorem backpropagate_node_loop (p q : Nat) (s : neuralnet α) (hpq : p ≠ q)
    (hw : s.weights_len p = s.layer_len p * s.layer_len q) (n : Nat)
    (hn : n ≤ s.layer_len p) :
    same_shape s (forLoop n (backpropagate_node p q) s) ∧
      (∀ l j, (forLoop n (backpropagate_node p q) s).out l j = s.out l j) ∧
      (∀ l j, (forLoop n (backpropagate_node p q) s).bias l j = s.bias l j) ∧
      (∀ l i', (forLoop n (backpropagate_node p q) s).delta l i' =
        if l = p ∧ i' < n then
          ∑ j ∈ Finset.range (s.layer_len q), s.WEIGHT_AT p i' j * s.delta q j
        else s.delta l i') ∧
      ∀ p' i' j', i' < s.layer_len p' →
        (forLoop n (backpropagate_node p q) s).WEIGHT_AT p' i' j' =
          if p' = p ∧ i' < n ∧ j' < s.layer_len q then
            s.WEIGHT_AT p i' j' -
              s.learn * s.delta q j' * activation_derivative s.func_id (s.out q j') * s.out p i'
          else s.WEIGHT_AT p' i' j' := by
  induction n with
  | zero =>
    refine ⟨same_shape_refl s, fun _ _ => rfl, fun _ _ => rfl, ?_, ?_⟩
    · intro l i'
      rw [if_neg (fun h => absurd h.2 (Nat.not_lt_zero _))]; rfl
    · intro p' i' j' _
      rw [if_neg (fun h => absurd h.2.1 (Nat.not_lt_zero _))]; rfl
  | succ n ih =>
    obtain ⟨h1, h2, h3, h4, h5⟩ := ih (Nat.le_of_succ_le hn)
    simp only [forLoop]
    generalize forLoop n (backpropagate_node p q) s = t at h1 h2 h3 h4 h5
    have hlen : ∀ l, t.layer_len l = s.layer_len l := h1.2.2.2.1
    have hnt : n < t.layer_len p := by rw [hlen]; exact hn
    have hwt : t.weights_len p = t.layer_len p * t.layer_len q := by
      rw [h1.2.2.2.2.2, hlen, hlen]; exact hw
    obtain ⟨g1, g2, g3, g4⟩ := backpropagate_edge_loop p q n t hnt hwt (t.layer_len q)
      (Nat.le_refl _)
    simp only [backpropagate_node]
    generalize forLoop (t.layer_len q) (backpropagate_edge p q n) (t, 0) = r at g1 g2 g3 g4
    obtain ⟨u, acc⟩ := r
    simp only at g1 g2 g3 g4
    have hdq : ∀ j, t.delta q j = s.delta q j := by
      intro j; rw [h4 q j, if_neg (fun h => hpq h.1.symm)]
    have hWn : ∀ j, t.WEIGHT_AT p n j = s.WEIGHT_AT p n j := by
      intro j
      rw [h5 p n j (by omega), if_neg (fun h => absurd h.2.1 (Nat.lt_irrefl _))]
    have hulen : ∀ l, u.layer_len l = t.layer_len l := layer_len_of_layers g1
    refine ⟨same_shape_trans h1 (same_shape_trans g2 (same_shape_set_delta _ _ _ _)), ?_, ?_,
      ?_, ?_⟩
    · intro l j; rw [out_set_delta, out_of_layers g1, h2]
    · intro l j; rw [bias_set_delta, bias_of_layers g1, h3]
    · intro l i'
      rw [delta_set_delta]
      by_cases hc : l = p ∧ i' = n
      · obtain ⟨rfl, rfl⟩ := hc
        rw [if_pos ⟨rfl, rfl, by rw [hulen]; exact hnt⟩, if_pos ⟨rfl, Nat.lt_succ_self _⟩, g3,
          hlen]
        dsimp only
        apply Finset.sum_congr rfl
        intro j _
        rw [hWn, hdq]
      · rw [if_neg (fun h => hc ⟨h.1, h.2.1⟩), delta_of_layers g1, h4]
        by_cases hd : l = p ∧ i' < n
        · rw [if_pos hd, if_pos ⟨hd.1, by omega⟩]
        · rw [if_neg hd, if_neg]
          rintro ⟨e1, e2⟩
          rcases Nat.lt_succ_iff_lt_or_eq.mp e2 with e | e
          · exact hd ⟨e1, e⟩
          · exact hc ⟨e1, e⟩
    · intro p' i' j' hi'
      have hW : (u.set_delta p n acc).WEIGHT_AT p' i' j' = u.WEIGHT_AT p' i' j' :=
        WEIGHT_AT_congr u (u.set_delta p n acc) rfl (fun l => set_delta_layer_len _ _ _ _ _) _ _ _
      rw [hW, g4 p' i' j' (by rw [hlen]; exact hi')]
      by_cases hc : p' = p ∧ i' = n ∧ j' < t.layer_len q
      · obtain ⟨rfl, rfl, hj⟩ := hc
        rw [if_pos ⟨rfl, rfl, hj⟩, if_pos ⟨rfl, Nat.lt_succ_self _, by rw [← hlen]; exact hj⟩,
          hWn, h1.2.1, hdq, h1.1, h2, h2]
      · rw [if_neg hc, h5 p' i' j' hi']
        by_cases hd : p' = p ∧ i' < n ∧ j' < s.layer_len q
        · rw [if_pos hd, if_pos ⟨hd.1, by omega, hd.2.2⟩]
        · rw [if_neg hd, if_neg]
          rintro ⟨e1, e2, e3⟩
          rcases Nat.lt_succ_iff_lt_or_eq.mp e2 with e | e
          · exact hd ⟨e1, e, e3⟩
          · exact hc ⟨e1, e, by rw [hlen]; exact e3⟩



theorem ref_D_last (s : neuralnet α) (o : Nat → α) (test : vecd α) (j : Nat) :
    ref_D s o test (s.nlayers - 1) j = o j - test.getD j 0 := by
  unfold ref_D
  rw [Nat.sub_self]
  rfl

theorem ref_D_succ (s : neuralnet α) (o : Nat → α) (test : vecd α) (p i : Nat)
    (hp : p + 1 < s.nlayers) :
    ref_D s o test p i =
      ∑ j ∈ Finset.range (s.layer_len (p + 1)), s.WEIGHT_AT p i j * ref_D s o test (p + 1) j := by
  unfold ref_D
  have e1 : s.nlayers - 1 - p = (s.nlayers - 2 - p) + 1 := by omega
  have e2 : s.nlayers - 1 - (s.nlayers - 2 - p) = p + 1 := by omega
  have e3 : s.nlayers - 2 - (s.nlayers - 2 - p) = p := by omega
  have e4 : s.nlayers - 1 - (p + 1) = s.nlayers - 2 - p := by omega
  rw [e1, e4]
  simp only [ref_delta]
  rw [e2, e3]

theorem backpropagate_output_loop (s : neuralnet α) (test : vecd α) (n : Nat)
    (hn : n ≤ s.layer_len (s.nlayers - 1)) :
    let t := forLoop n
      (fun j u => u.set_delta (u.nlayers - 1) j (u.out (u.nlayers - 1) j - test.getD j 0)) s
    t.weights = s.weights ∧ same_shape s t ∧ (∀ l j, t.out l j = s.out l j) ∧
      (∀ l j, t.bias l j = s.bias l j) ∧
      ∀ l j, t.delta l j =
        if l = s.nlayers - 1 ∧ j < n then s.out (s.nlayers - 1) j - test.getD j 0
        else s.delta l j := by
  induction n with
  | zero =>
    refine ⟨rfl, same_shape_refl s, fun _ _ => rfl, fun _ _ => rfl, ?_⟩
    intro l j
    rw [if_neg (fun h => absurd h.2 (Nat.not_lt_zero _))]; rfl
  | succ n ih =>
    obtain ⟨h1, h2, h3, h4, h5⟩ := ih (Nat.le_of_succ_le hn)
    simp only [forLoop]
    generalize forLoop n
      (fun j u => u.set_delta (u.nlayers - 1) j (u.out (u.nlayers - 1) j - test.getD j 0)) s = t
      at h1 h2 h3 h4 h5
    have hL : t.nlayers = s.nlayers := h2.2.2.1
    refine ⟨h1, same_shape_trans h2 (same_shape_set_delta _ _ _ _), ?_, ?_, ?_⟩
    · intro l j; rw [out_set_delta, h3]
    · intro l j; rw [bias_set_delta, h4]
    · intro l j
      rw [delta_set_delta, hL, h2.2.2.2.1, h3]
      by_cases hc : l = s.nlayers - 1 ∧ j = n
      · obtain ⟨rfl, rfl⟩ := hc
        rw [if_pos ⟨rfl, rfl, by omega⟩, if_pos ⟨rfl, Nat.lt_succ_self _⟩]
      · rw [if_neg (fun h => hc ⟨h.1, h.2.1⟩), h5]
        by_cases hd : l = s.nlayers - 1 ∧ j < n
        · rw [if_pos hd, if_pos ⟨hd.1, by omega⟩]
        · rw [if_neg hd, if_neg]
          rintro ⟨e1, e2⟩
          rcases Nat.lt_succ_iff_lt_or_eq.mp e2 with e | e
          · exact hd ⟨e1, e⟩
          · exact hc ⟨e1, e⟩

theorem backpropagate_hidden_spec (s : neuralnet α) (hwf : s.wf) (o : Nat → α) (test : vecd α)
    (ho : ∀ j, j < s.layer_len (s.nlayers - 1) →
      s.delta (s.nlayers - 1) j = o j - test.getD j 0) :
    same_shape s (backpropagate_hidden s) ∧
      (∀ l j, (backpropagate_hidden s).out l j = s.out l j) ∧
      (∀ l j, (backpropagate_hidden s).bias l j = s.bias l j) ∧
      (∀ j, (backpropagate_hidden s).delta 0 j = s.delta 0 j) ∧
      (∀ l j, 1 ≤ l → l < s.nlayers → j < s.layer_len l →
        (backpropagate_hidden s).delta l j = ref_D s o test l j) ∧
      ∀ p i j, i < s.layer_len p →
        (backpropagate_hidden s).WEIGHT_AT p i j =
          if 1 ≤ p ∧ p + 1 < s.nlayers ∧ j < s.layer_len (p + 1) then
            s.WEIGHT_AT p i j -
              s.learn * ref_D s o test (p + 1) j *
                activation_derivative s.func_id (s.out (p + 1) j) * s.out p i
          else s.WEIGHT_AT p i j := by
  unfold backpropagate_hidden
  have key := downLoop_inv
    (fun k (t : neuralnet α) =>
      same_shape s t ∧ (∀ l j, t.out l j = s.out l j) ∧ (∀ l j, t.bias l j = s.bias l j) ∧
      (∀ l j, l ≤ k → t.delta l j = s.delta l j) ∧
      (∀ l j, k < l → l < s.nlayers → j < s.layer_len l → t.delta l j = ref_D s o test l j) ∧
      ∀ p i j, i < s.layer_len p →
        t.WEIGHT_AT p i j =
          if k < p ∧ p + 1 < s.nlayers ∧ j < s.layer_len (p + 1) then
            s.WEIGHT_AT p i j -
              s.learn * ref_D s o test (p + 1) j *
                activation_derivative s.func_id (s.out (p + 1) j) * s.out p i
          else s.WEIGHT_AT p i j)
    (s.nlayers - 2) (fun p u => forLoop (u.layer_len p) (backpropagate_node p (p + 1)) u) s
    ?_ ?_
  · obtain ⟨h1, h2, h3, h4, h5, h6⟩ := key
    refine ⟨h1, h2, h3, fun j => h4 0 j (Nat.le_refl _), ?_, ?_⟩
    · intro l j hl hL hj
      exact h5 l j (by omega) hL hj
    · intro p i j hi
      rw [h6 p i j hi]
      by_cases hc : 1 ≤ p ∧ p + 1 < s.nlayers ∧ j < s.layer_len (p + 1)
      · rw [if_pos hc, if_pos ⟨by omega, hc.2⟩]
      · rw [if_neg hc, if_neg (fun h => hc ⟨by omega, h.2⟩)]
  · refine ⟨same_shape_refl s, fun _ _ => rfl, fun _ _ => rfl, fun _ _ _ => rfl, ?_, ?_⟩
    · intro l j h1 h2 hj
      have hl : l = s.nlayers - 1 := by omega
      subst hl
      rw [ho j hj, ref_D_last]
    · intro p i j _
      rw [if_neg (fun h => by omega)]
  · intro k hk t ⟨h1, h2, h3, h4, h5, h6⟩
    have hL := hwf.nlayers_ge
    have hlen : ∀ l, t.layer_len l = s.layer_len l := h1.2.2.2.1
    have hws : s.weights_len (k + 1) = s.layer_len (k + 1) * s.layer_len (k + 1 + 1) :=
      hwf.weights_len_eq (k + 1) (by rw [hwf.nweights_eq]; omega)
    have hwt : t.weights_len (k + 1) = t.layer_len (k + 1) * t.layer_len (k + 1 + 1) := by
      rw [h1.2.2.2.2.2, hlen, hlen]; exact hws
    obtain ⟨g1, g2, g3, g4, g5⟩ := backpropagate_node_loop (k + 1) (k + 1 + 1) t (by omega) hwt
      (t.layer_len (k + 1)) (Nat.le_refl _)
    dsimp only
    generalize forLoop (t.layer_len (k + 1)) (backpropagate_node (k + 1) (k + 1 + 1)) t = u
      at g1 g2 g3 g4 g5
    refine ⟨same_shape_trans h1 g1, fun l j => (g2 l j).trans (h2 l j),
      fun l j => (g3 l j).trans (h3 l j), ?_, ?_, ?_⟩
    · intro l j hl
      rw [g4, if_neg (fun h => by omega)]
      exact h4 l j (by omega)
    · intro l j hl hlL hj
      rw [g4]
      by_cases hc : l = k + 1 ∧ j < t.layer_len (k + 1)
      · obtain ⟨rfl, _⟩ := hc
        rw [if_pos ⟨rfl, by rw [hlen]; exact hj⟩, ref_D_succ s o test (k + 1) j (by omega), hlen]
        apply Finset.sum_congr rfl
        intro x hx
        rw [h6 (k + 1) j x hj, if_neg (fun h => absurd h.1 (Nat.lt_irrefl _)),
          h5 (k + 1 + 1) x (by omega) (by omega) (Finset.mem_range.mp hx)]
      · have hne : l ≠ k + 1 := by
          intro e; subst e; exact hc ⟨rfl, by rw [hlen]; exact hj⟩
        rw [if_neg hc]
        exact h5 l j (by omega) hlL hj
    · intro p i j hi
      rw [g5 p i j (by rw [hlen]; exact hi)]
      by_cases hp : p = k + 1
      · subst hp
        have hWt : t.WEIGHT_AT (k + 1) i j = s.WEIGHT_AT (k + 1) i j := by
          rw [h6 (k + 1) i j hi, if_neg (fun h => absurd h.1 (Nat.lt_irrefl _))]
        by_cases hj : j < s.layer_len (k + 1 + 1)
        · rw [if_pos ⟨rfl, by rw [hlen]; exact hi, by rw [hlen]; exact hj⟩,
            if_pos ⟨Nat.lt_succ_self _, by omega, hj⟩, hWt, h1.2.1,
            h5 (k + 1 + 1) j (by omega) (by omega) hj, h1.1, h2, h2]
        · rw [if_neg (fun h => hj (by rw [← hlen]; exact h.2.2)), if_neg (fun h => hj h.2.2),
            hWt]
      · rw [if_neg (fun h => hp h.1), h6 p i j hi]
        by_cases hc : k + 1 < p ∧ p + 1 < s.nlayers ∧ j < s.layer_len (p + 1)
        · rw [if_pos hc, if_pos ⟨by omega, hc.2⟩]
        · rw [if_neg hc, if_neg (fun h => hc ⟨by omega, h.2⟩)]



theorem backpropagate_edge_fst (p q i : Nat) (s : neuralnet α) (a : α) (n : Nat) :
    (forLoop n (backpropagate_edge p q i) (s, a)).1 =
      forLoop n (fun j t => t.set_WEIGHT_AT p i j
        (t.WEIGHT_AT p i j -
          t.learn * t.delta q j * activation_derivative t.func_id (t.out q j) * t.out p i)) s := by
  induction n with
  | zero => rfl
  | succ n ih =>
    simp only [forLoop, backpropagate_edge]
    rw [ih]

theorem backpropagate_input_loop (s : neuralnet α)
    (hw : s.weights_len 0 = s.layer_len 0 * s.layer_len 1) (n : Nat) (hn : n ≤ s.layer_len 0) :
    let t := forLoop n
      (fun i u => forLoop (u.layer_len 1)
        (fun j t => t.set_WEIGHT_AT 0 i j
          (t.WEIGHT_AT 0 i j -
            t.learn * t.delta 1 j * activation_derivative t.func_id (t.out 1 j) * t.out 0 i))
        u) s
    t.layers = s.layers ∧ same_shape s t ∧
      ∀ p' i' j', i' < s.layer_len p' →
        t.WEIGHT_AT p' i' j' =
          if p' = 0 ∧ i' < n ∧ j' < s.layer_len 1 then
            s.WEIGHT_AT 0 i' j' -
              s.learn * s.delta 1 j' * activation_derivative s.func_id (s.out 1 j') * s.out 0 i'
          else s.WEIGHT_AT p' i' j' := by
  induction n with
  | zero =>
    refine ⟨rfl, same_shape_refl s, ?_⟩
    intro p' i' j' _
    rw [if_neg (fun h => absurd h.2.1 (Nat.not_lt_zero _))]; rfl
  | succ n ih =>
    obtain ⟨h1, h2, h3⟩ := ih (Nat.le_of_succ_le hn)
    simp only [forLoop]
    generalize forLoop n
      (fun i u => forLoop (u.layer_len 1)
        (fun j t => t.set_WEIGHT_AT 0 i j
          (t.WEIGHT_AT 0 i j -
            t.learn * t.delta 1 j * activation_derivative t.func_id (t.out 1 j) * t.out 0 i))
        u) s = t at h1 h2 h3
    have hlen : ∀ l, t.layer_len l = s.layer_len l := layer_len_of_layers h1
    have hnt : n < t.layer_len 0 := by rw [hlen]; exact hn
    have hwt : t.weights_len 0 = t.layer_len 0 * t.layer_len 1 := by
      rw [h2.2.2.2.2.2, hlen, hlen]; exact hw
    obtain ⟨g1, g2, _, g4⟩ := backpropagate_edge_loop 0 1 n t hnt hwt (t.layer_len 1)
      (Nat.le_refl _)
    rw [backpropagate_edge_fst] at g1 g2 g4
    generalize forLoop (t.layer_len 1)
        (fun j t => t.set_WEIGHT_AT 0 n j
          (t.WEIGHT_AT 0 n j -
            t.learn * t.delta 1 j * activation_derivative t.func_id (t.out 1 j) * t.out 0 n))
        t = u at g1 g2 g4
    have hWn : ∀ j, t.WEIGHT_AT 0 n j = s.WEIGHT_AT 0 n j := by
      intro j
      rw [h3 0 n j (by omega), if_neg (fun h => absurd h.2.1 (Nat.lt_irrefl _))]
    refine ⟨g1.trans h1, same_shape_trans h2 g2, ?_⟩
    intro p' i' j' hi'
    rw [g4 p' i' j' (by rw [hlen]; exact hi')]
    by_cases hc : p' = 0 ∧ i' = n ∧ j' < t.layer_len 1
    · obtain ⟨rfl, rfl, hj⟩ := hc
      rw [if_pos ⟨rfl, rfl, hj⟩, if_pos ⟨rfl, Nat.lt_succ_self _, by rw [← hlen]; exact hj⟩,
        hWn, h2.2.1, delta_of_layers h1, h2.1, out_of_layers h1, out_of_layers h1]
    · rw [if_neg hc, h3 p' i' j' hi']
      by_cases hd : p' = 0 ∧ i' < n ∧ j' < s.layer_len 1
      · rw [if_pos hd, if_pos ⟨hd.1, by omega, hd.2.2⟩]
      · rw [if_neg hd, if_neg]
        rintro ⟨e1, e2, e3⟩
        rcases Nat.lt_succ_iff_lt_or_eq.mp e2 with e | e
        · exact hd ⟨e1, e, e3⟩
        · exact hc ⟨e1, e, by rw [hlen]; exact e3⟩

theorem backpropagate_input_spec (s : neuralnet α)
    (hw : s.weights_len 0 = s.layer_len 0 * s.layer_len 1) :
    (backpropagate_input s).layers = s.layers ∧ same_shape s (backpropagate_input s) ∧
      ∀ p i j, i < s.layer_len p →
        (backpropagate_input s).WEIGHT_AT p i j =
          if p = 0 ∧ j < s.layer_len 1 then
            s.WEIGHT_AT 0 i j -
              s.learn * s.delta 1 j * activation_derivative s.func_id (s.out 1 j) * s.out 0 i
          else s.WEIGHT_AT p i j := by
  obtain ⟨h1, h2, h3⟩ := backpropagate_input_loop s hw (s.layer_len 0) (Nat.le_refl _)
  refine ⟨h1, h2, ?_⟩
  intro p i j hi
  unfold backpropagate_input
  rw [h3 p i j hi]
  by_cases hc : p = 0 ∧ j < s.layer_len 1
  · obtain ⟨rfl, hj⟩ := hc
    rw [if_pos ⟨rfl, hi, hj⟩, if_pos ⟨rfl, hj⟩]
  · rw [if_neg hc, if_neg (fun h => hc ⟨h.1, h.2.2⟩)]

theorem backpropagate_bias_layer_loop (l : Nat) (s : neuralnet α) (n : Nat)
    (hn : n ≤ s.layer_len l) :
    let t := forLoop n
      (fun j t => t.set_bias l j
        (t.bias l j - t.learn * t.delta l j * activation_derivative t.func_id (t.out l j))) s
    t.weights = s.weights ∧ same_shape s t ∧ (∀ l' j', t.out l' j' = s.out l' j') ∧
      (∀ l' j', t.delta l' j' = s.delta l' j') ∧
      ∀ l' j', t.bias l' j' =
        if l' = l ∧ j' < n then
          s.bias l j' - s.learn * s.delta l j' * activation_derivative s.func_id (s.out l j')
        else s.bias l' j' := by
  induction n with
  | zero =>
    refine ⟨rfl, same_shape_refl s, fun _ _ => rfl, fun _ _ => rfl, ?_⟩
    intro l' j'
    rw [if_neg (fun h => absurd h.2 (Nat.not_lt_zero _))]; rfl
  | succ n ih =>
    obtain ⟨h1, h2, h3, h4, h5⟩ := ih (Nat.le_of_succ_le hn)
    simp only [forLoop]
    generalize forLoop n
      (fun j t => t.set_bias l j
        (t.bias l j - t.learn * t.delta l j * activation_derivative t.func_id (t.out l j))) s = t
      at h1 h2 h3 h4 h5
    refine ⟨h1, same_shape_trans h2 (same_shape_set_bias _ _ _ _), ?_, ?_, ?_⟩
    · intro l' j'; rw [out_set_bias, h3]
    · intro l' j'; rw [delta_set_bias, h4]
    · intro l' j'
      rw [bias_set_bias, h2.2.2.2.1]
      by_cases hc : l' = l ∧ j' = n
      · obtain ⟨rfl, rfl⟩ := hc
        rw [if_pos ⟨rfl, rfl, by omega⟩, if_pos ⟨rfl, Nat.lt_succ_self _⟩, h5,
          if_neg (fun h => absurd h.2 (Nat.lt_irrefl _)), h2.2.1, h4, h2.1, h3]
      · rw [if_neg (fun h => hc ⟨h.1, h.2.1⟩), h5]
        by_cases hd : l' = l ∧ j' < n
        · rw [if_pos hd, if_pos ⟨hd.1, by omega⟩]
        · rw [if_neg hd, if_neg]
          rintro ⟨e1, e2⟩
          rcases Nat.lt_succ_iff_lt_or_eq.mp e2 with e | e
          · exact hd ⟨e1, e⟩
          · exact hc ⟨e1, e⟩

theorem backpropagate_bias_loop (s : neuralnet α) (n : Nat) :
    let t := forLoop n
      (fun k u => forLoop (u.layer_len (k + 1))
        (fun j t => t.set_bias (k + 1) j
          (t.bias (k + 1) j -
            t.learn * t.delta (k + 1) j * activation_derivative t.func_id (t.out (k + 1) j)))
        u) s
    t.weights = s.weights ∧ same_shape s t ∧ (∀ l' j', t.out l' j' = s.out l' j') ∧
      (∀ l' j', t.delta l' j' = s.delta l' j') ∧
      ∀ l' j', t.bias l' j' =
        if 1 ≤ l' ∧ l' ≤ n ∧ j' < s.layer_len l' then
          s.bias l' j' - s.learn * s.delta l' j' * activation_derivative s.func_id (s.out l' j')
        else s.bias l' j' := by
  induction n with
  | zero =>
    refine ⟨rfl, same_shape_refl s, fun _ _ => rfl, fun _ _ => rfl, ?_⟩
    intro l' j'
    rw [if_neg (fun h => by omega)]; rfl
  | succ n ih =>
    obtain ⟨h1, h2, h3, h4, h5⟩ := ih
    simp only [forLoop]
    generalize forLoop n
      (fun k u => forLoop (u.layer_len (k + 1))
        (fun j t => t.set_bias (k + 1) j
          (t.bias (k + 1) j -
            t.learn * t.delta (k + 1) j * activation_derivative t.func_id (t.out (k + 1) j)))
        u) s = t at h1 h2 h3 h4 h5
    obtain ⟨g1, g2, g3, g4, g5⟩ := backpropagate_bias_layer_loop (n + 1) t (t.layer_len (n + 1))
      (Nat.le_refl _)
    generalize forLoop (t.layer_len (n + 1))
        (fun j t => t.set_bias (n + 1) j
          (t.bias (n + 1) j -
            t.learn * t.delta (n + 1) j * activation_derivative t.func_id (t.out (n + 1) j)))
        t = u at g1 g2 g3 g4 g5
    have hlen : ∀ l, t.layer_len l = s.layer_len l := h2.2.2.2.1
    refine ⟨g1.trans h1, same_shape_trans h2 g2, fun l' j' => (g3 l' j').trans (h3 l' j'),
      fun l' j' => (g4 l' j').trans (h4 l' j'), ?_⟩
    intro l' j'
    rw [g5]
    by_cases hc : l' = n + 1 ∧ j' < t.layer_len (n + 1)
    · obtain ⟨rfl, hj⟩ := hc
      rw [if_pos ⟨rfl, hj⟩, if_pos ⟨by omega, Nat.le_refl _, by rw [← hlen]; exact hj⟩, h5,
        if_neg (fun h => by omega), h2.2.1, h4, h2.1, h3]
    · rw [if_neg hc, h5]
      by_cases hd : 1 ≤ l' ∧ l' ≤ n ∧ j' < s.layer_len l'
      · rw [if_pos hd, if_pos ⟨hd.1, by omega, hd.2.2⟩]
      · rw [if_neg hd, if_neg]
        rintro ⟨e1, e2, e3⟩
        rcases Nat.lt_succ_iff_lt_or_eq.mp (Nat.lt_succ_of_le e2) with e | e
        · exact hd ⟨e1, by omega, e3⟩
        · subst e
          exact hc ⟨rfl, by rw [hlen]; exact e3⟩



theorem ref_delta_congr (s t : neuralnet α) (o o' : Nat → α) (test : vecd α)
    (hL : t.nlayers = s.nlayers) (hlen : ∀ l, t.layer_len l = s.layer_len l)
    (hW : ∀ p i j, t.WEIGHT_AT p i j = s.WEIGHT_AT p i j)
    (ho : ∀ j, j < s.layer_len (s.nlayers - 1) → o' j = o j) (k i : Nat)
    (hi : k = 0 → i < s.layer_len (s.nlayers - 1)) :
    ref_delta t o' test k i = ref_delta s o test k i := by
  induction k generalizing i with
  | zero =>
    simp only [ref_delta]
    rw [ho i (hi rfl)]
  | succ k ih =>
    simp only [ref_delta]
    rw [hL, hlen]
    apply Finset.sum_congr rfl
    intro j hj
    rw [hW, ih j (fun h => by subst h; exact Finset.mem_range.mp hj)]

theorem ref_D_congr (s t : neuralnet α) (o o' : Nat → α) (test : vecd α)
    (hL : t.nlayers = s.nlayers) (hlen : ∀ l, t.layer_len l = s.layer_len l)
    (hW : ∀ p i j, t.WEIGHT_AT p i j = s.WEIGHT_AT p i j)
    (ho : ∀ j, j < s.layer_len (s.nlayers - 1) → o' j = o j) (l i : Nat)
    (hl : l < s.nlayers) (hi : i < s.layer_len l) :
    ref_D t o' test l i = ref_D s o test l i := by
  unfold ref_D
  rw [hL]
  apply ref_delta_congr s t o o' test hL hlen hW ho
  intro h
  have : l = s.nlayers - 1 := by omega
  rw [← this]; exact hi

/-- What `backpropagate` does to a well-formed network. -/
theorem backpropagate_spec (s : neuralnet α) (hwf : s.wf) (test : vecd α) :
    same_shape s (backpropagate s test) ∧
      (∀ l j, (backpropagate s test).out l j = s.out l j) ∧
      (∀ j, (backpropagate s test).delta 0 j = s.delta 0 j) ∧
      (∀ j, (backpropagate s test).bias 0 j = s.bias 0 j) ∧
      (∀ l j, 1 ≤ l → l < s.nlayers → j < s.layer_len l →
        (backpropagate s test).delta l j =
          ref_D s (fun x => s.out (s.nlayers - 1) x) test l j) ∧
      (∀ p i j, p + 1 < s.nlayers → i < s.layer_len p → j < s.layer_len (p + 1) →
        (backpropagate s test).WEIGHT_AT p i j =
          s.WEIGHT_AT p i j -
            s.learn * (backpropagate s test).delta (p + 1) j *
              activation_derivative s.func_id (s.out (p + 1) j) * s.out p i) ∧
      ∀ l j, 1 ≤ l → l < s.nlayers → j < s.layer_len l →
        (backpropagate s test).bias l j =
          s.bias l j -
            s.learn * (backpropagate s test).delta l j *
              activation_derivative s.func_id (s.out l j) := by
  have hL := hwf.nlayers_ge
  -- the output layer
  obtain ⟨a1, a2, a3, a4, a5⟩ := backpropagate_output_loop s test
    (s.layer_len (s.nlayers - 1)) (Nat.le_refl _)
  have e1 : backpropagate_output s test = forLoop (s.layer_len (s.nlayers - 1))
      (fun j u => u.set_delta (u.nlayers - 1) j (u.out (u.nlayers - 1) j - test.getD j 0)) s :=
    rfl
  rw [← e1] at a1 a2 a3 a4 a5
  unfold backpropagate
  generalize backpropagate_output s test = s1 at a1 a2 a3 a4 a5
  have hwf1 : s1.wf := wf_of_same_shape a2 hwf
  have hlen1 : ∀ l, s1.layer_len l = s.layer_len l := a2.2.2.2.1
  have hL1 : s1.nlayers = s.nlayers := a2.2.2.1
  have hW1 : ∀ p i j, s1.WEIGHT_AT p i j = s.WEIGHT_AT p i j :=
    fun p i j => WEIGHT_AT_congr s s1 a1 hlen1 p i j
  -- the hidden layers
  obtain ⟨b1, b2, b3, b4, b5, b6⟩ := backpropagate_hidden_spec s1 hwf1
    (fun x => s.out (s.nlayers - 1) x) test
    (by
      intro j hj
      rw [a5, hL1, if_pos ⟨rfl, by rw [← hlen1, ← hL1]; exact hj⟩])
  generalize backpropagate_hidden s1 = s2 at b1 b2 b3 b4 b5 b6
  have hwf2 : s2.wf := wf_of_same_shape b1 hwf1
  have hlen2 : ∀ l, s2.layer_len l = s.layer_len l := fun l => (b1.2.2.2.1 l).trans (hlen1 l)
  have hD : ∀ l j, l < s.nlayers → j < s.layer_len l →
      ref_D s1 (fun x => s.out (s.nlayers - 1) x) test l j =
        ref_D s (fun x => s.out (s.nlayers - 1) x) test l j :=
    fun l j hl hj => ref_D_congr s s1 _ _ test hL1 hlen1 hW1 (fun _ _ => rfl) l j hl hj
  -- the weights leaving the input layer
  obtain ⟨c1, c2, c3⟩ := backpropagate_input_spec s2
    (hwf2.weights_len_eq 0 (by rw [hwf2.nweights_eq]; have := hwf2.nlayers_ge; omega))
  generalize backpropagate_input s2 = s3 at c1 c2 c3
  have hlen3 : ∀ l, s3.layer_len l = s.layer_len l :=
    fun l => (layer_len_of_layers c1 l).trans (hlen2 l)
  -- the biases
  obtain ⟨d1, d2, d3, d4, d5⟩ := backpropagate_bias_loop s3 (s3.nlayers - 1)
  have e4 : backpropagate_bias s3 = forLoop (s3.nlayers - 1)
      (fun k u => forLoop (u.layer_len (k + 1))
        (fun j t => t.set_bias (k + 1) j
          (t.bias (k + 1) j -
            t.learn * t.delta (k + 1) j * activation_derivative t.func_id (t.out (k + 1) j)))
        u) s3 := rfl
  rw [← e4] at d1 d2 d3 d4 d5
  generalize backpropagate_bias s3 = s4 at d1 d2 d3 d4 d5
  have hL3 : s3.nlayers = s.nlayers := (nlayers_of_layers c1).trans (b1.2.2.1.trans hL1)
  have hout : ∀ l j, s4.out l j = s.out l j := fun l j =>
    (d3 l j).trans ((out_of_layers c1 l j).trans ((b2 l j).trans (a3 l j)))
  have hdelta : ∀ l j, s4.delta l j = s2.delta l j := fun l j =>
    (d4 l j).trans (delta_of_layers c1 l j)
  have hlearn : s2.learn = s.learn := b1.2.1.trans a2.2.1
  have hfunc : s2.func_id = s.func_id := b1.1.trans a2.1
  refine ⟨same_shape_trans a2 (same_shape_trans b1 (same_shape_trans c2 d2)), hout, ?_, ?_, ?_,
    ?_, ?_⟩
  · intro j
    rw [hdelta, b4, a5, if_neg (fun h => by omega)]
  · intro j
    rw [d5, if_neg (fun h => by omega), bias_of_layers c1, b3, a4]
  · intro l j hl hlL hj
    rw [hdelta, b5 l j hl (by rw [hL1]; exact hlL) (by rw [hlen1]; exact hj), hD l j hlL hj]
  · intro p i j hp hi hj
    have hW4 : s4.WEIGHT_AT p i j = s3.WEIGHT_AT p i j :=
      WEIGHT_AT_congr s3 s4 d1 d2.2.2.2.1 p i j
    rw [hW4, c3 p i j (by rw [hlen2]; exact hi), hdelta]
    by_cases h0 : p = 0
    · subst h0
      rw [if_pos ⟨rfl, by rw [hlen2]; exact hj⟩,
        b6 0 i j (by rw [hlen1]; exact hi), if_neg (fun h => by omega), hW1, hlearn, hfunc,
        b2, b2, a3, a3]
    · rw [if_neg (fun h => h0 h.1), b6 p i j (by rw [hlen1]; exact hi),
        if_pos ⟨by omega, by rw [hL1]; exact hp, by rw [hlen1]; exact hj⟩, hW1, a2.2.1, a2.1,
        a3, a3, b5 (p + 1) j (by omega) (by rw [hL1]; exact hp) (by rw [hlen1]; exact hj)]
  · intro l j hl hlL hj
    rw [d5, if_pos ⟨hl, by omega, by rw [hlen3]; exact hj⟩, bias_of_layers c1, b3, a4, c2.2.1,
      hlearn, delta_of_layers c1, ← hdelta, c2.1, hfunc, out_of_layers c1, b2, a3]



theorem neuralnet_train_success (m : libc α) (nn nn1 : neuralnet α) (feature label : vecd α)
    (h : neuralnet_train m (some nn) (some feature) (some label) = (0, some nn1)) :
    feature.length = nn.layer_len 0 ∧ label.length = nn.layer_len (nn.nlayers - 1) ∧
      nn1 = backpropagate (feedforward m nn feature) label := by
  simp only [neuralnet_train] at h
  by_cases hc : feature.length ≠ nn.layer_len 0 ∨ label.length ≠ nn.layer_len (nn.nlayers - 1)
  · rw [if_pos hc] at h
    simp at h
  · rw [if_neg hc] at h
    simp only [Prod.mk.injEq, Option.some.injEq, true_and] at h
    refine ⟨?_, ?_, h.symm⟩
    · by_contra hne; exact hc (Or.inl hne)
    · by_contra hne; exact hc (Or.inr hne)

theorem neuralnet_train_ok (m : libc α) (nn : neuralnet α) (feature label : vecd α)
    (hf : feature.length = nn.layer_len 0) (hl : label.length = nn.layer_len (nn.nlayers - 1)) :
    neuralnet_train m (some nn) (some feature) (some label) =
      (0, some (backpropagate (feedforward m nn feature) label)) := by
  simp only [neuralnet_train]
  rw [if_neg (by simp [hf, hl])]

/-- The forward pass followed by the backward pass, on a well-formed network. -/
theorem train_spec (m : libc α) (nn : neuralnet α) (feature label : vecd α) (hwf : nn.wf)
    (hf : feature.length = nn.layer_len 0) :
    (∀ l j, 1 ≤ l → l < nn.nlayers → j < nn.layer_len l →
        (backpropagate (feedforward m nn feature) label).delta l j =
          ref_D nn (ref_out m nn feature (nn.nlayers - 1)) label l j) ∧
      (∀ p i j, p + 1 < nn.nlayers → i < nn.layer_len p → j < nn.layer_len (p + 1) →
        (backpropagate (feedforward m nn feature) label).WEIGHT_AT p i j =
          nn.WEIGHT_AT p i j -
            nn.learn * (backpropagate (feedforward m nn feature) label).delta (p + 1) j *
              activation_derivative nn.func_id ((feedforward m nn feature).out (p + 1) j) *
              (feedforward m nn feature).out p i) ∧
      ∀ l j, 1 ≤ l → l < nn.nlayers → j < nn.layer_len l →
        (backpropagate (feedforward m nn feature) label).bias l j =
          nn.bias l j -
            nn.learn * (backpropagate (feedforward m nn feature) label).delta l j *
              activation_derivative nn.func_id ((feedforward m nn feature).out l j) := by
  obtain ⟨f1, f2⟩ := feedforward_spec m nn feature hf
  have hs := same_shape_of_only_out f1
  have hwf1 := wf_of_same_shape hs hwf
  obtain ⟨_, _, _, _, b5, b6, b7⟩ := backpropagate_spec (feedforward m nn feature) hwf1 label
  have hL : (feedforward m nn feature).nlayers = nn.nlayers := f1.2.2.2.1
  have hlen : ∀ l, (feedforward m nn feature).layer_len l = nn.layer_len l := f1.2.2.2.2.1
  have hL2 := hwf.nlayers_ge
  refine ⟨?_, ?_, ?_⟩
  · intro l j hl hlL hj
    rw [b5 l j hl (by rw [hL]; exact hlL) (by rw [hlen]; exact hj)]
    exact ref_D_congr nn (feedforward m nn feature) _ _ label hL hlen
      (fun p i j => only_out_WEIGHT_AT f1 p i j)
      (fun x hx => by rw [hL]; exact f2 (nn.nlayers - 1) (by omega) x hx) l j hlL hj
  · intro p i j hp hi hj
    rw [b6 p i j (by rw [hL]; exact hp) (by rw [hlen]; exact hi) (by rw [hlen]; exact hj),
      only_out_WEIGHT_AT f1, f1.2.2.1, f1.2.1]
  · intro l j hl hlL hj
    rw [b7 l j hl (by rw [hL]; exact hlL) (by rw [hlen]; exact hj), f1.2.2.2.2.2.2, f1.2.2.1,
      f1.2.1]

theorem wf_of_same_params {s t : neuralnet α} (h : same_params s t) (hs : s.wf) : t.wf :=
  wf_of_same_shape ⟨h.2.1, h.2.2.1, h.2.2.2.1, h.2.2.2.2.1, nweights_of_weights h.1,
    weights_len_of_weights h.1⟩ hs

theorem net_2_1_wf : net_2_1.wf := ⟨by decide, by decide, by decide, by decide⟩

theorem net_2_2_1_wf : net_2_2_1.wf := ⟨by decide, by decide, by decide, by decide⟩

/-! ### Construction -/

theorem wrap32_of_range (x : Int) (h0 : 0 ≤ x) (h1 : x ≤ INT_MAX) : wrap32 x = x := by
  unfold wrap32
  unfold INT_MAX at h1
  omega

theorem isspace_of_isdigit (c : Char) (h : isdigit c = true) : isspace c = false := by
  unfold isdigit at h
  unfold isspace
  simp only [Bool.and_eq_true, decide_eq_true_eq] at h
  simp only [Bool.or_eq_false_iff, Bool.and_eq_false_imp, decide_eq_false_iff_not,
    decide_eq_true_eq]
  omega

theorem semicolon_not_digit (c : Char) (h : isdigit c = true) : c ≠ ';' := by
  rintro rfl
  revert h
  decide

theorem sscanf_d_digits (t : List Char) (h : positive_int_token t) :
    sscanf_d t = some (decimal_value t : Int) := by
  obtain ⟨hne, hdig, _, hmax⟩ := h
  obtain ⟨c, cs, rfl⟩ := List.exists_cons_of_ne_nil hne
  have hc : isdigit c = true := hdig c (List.mem_cons_self _ _)
  have h1 : (c :: cs).dropWhile isspace = c :: cs := by
    rw [List.dropWhile_cons, isspace_of_isdigit c hc]; rfl
  have h2 : (c :: cs).takeWhile isdigit = c :: cs :=
    List.takeWhile_eq_self_iff.mpr hdig
  have hm : c ≠ '-' := by rintro rfl; revert hc; decide
  have hp : c ≠ '+' := by rintro rfl; revert hc; decide
  unfold sscanf_d
  simp only [h1, List.head?_cons, Option.some.injEq, hm, hp, or_self, if_false, h2,
    decide_False, Bool.false_eq_true]
  rw [if_neg (by simp)]
  have hclamp : strtol_value (decimal_value (c :: cs) : Int) =
      (decimal_value (c :: cs) : Int) := by
    have h0 : (0 : Int) ≤ (decimal_value (c :: cs) : Int) := Int.ofNat_nonneg _
    have h1 : ((decimal_value (c :: cs) : Nat) : Int) ≤ 2147483647 := hmax
    unfold strtol_value LONG_MAX LONG_MIN
    rw [if_neg (by omega), if_neg (by omega)]
  rw [hclamp, wrap32_of_range _ (Int.ofNat_nonneg _) hmax]

theorem strtok_all_run (t rest cur : List Char) (ht : ∀ c ∈ t, c ≠ ';') :
    strtok_all (t ++ rest) cur = strtok_all rest (cur ++ t) := by
  induction t generalizing cur with
  | nil => simp
  | cons c cs ih =>
    have hc : c ≠ ';' := ht c (List.mem_cons_self _ _)
    rw [List.cons_append, strtok_all, if_neg hc,
      ih (cur ++ [c]) (fun x hx => ht x (List.mem_cons_of_mem _ hx))]
    simp

theorem strtok_all_join (toks : List (List Char))
    (h : ∀ t ∈ toks, t ≠ [] ∧ ∀ c ∈ t, c ≠ ';') :
    strtok_all (join_layout toks) [] = toks := by
  induction toks with
  | nil => rfl
  | cons t rest ih =>
    obtain ⟨hne, hsc⟩ := h t (List.mem_cons_self _ _)
    cases rest with
    | nil =>
      have := strtok_all_run t [] [] hsc
      simp only [List.append_nil, List.nil_append] at this
      rw [join_layout, this, strtok_all, if_neg hne]
    | cons u rest =>
      rw [join_layout, strtok_all_run t _ [] hsc, List.nil_append, strtok_all, if_pos rfl,
        if_neg hne, ih (fun x hx => h x (List.mem_cons_of_mem _ hx))]

theorem count_join (toks : List (List Char)) (h : ∀ t ∈ toks, ∀ c ∈ t, c ≠ ';') :
    (join_layout toks).count ';' = toks.length - 1 := by
  induction toks with
  | nil => rfl
  | cons t rest ih =>
    have hsc := h t (List.mem_cons_self _ _)
    have h0 : t.count ';' = 0 := List.count_eq_zero.mpr (fun hm => hsc ';' hm rfl)
    cases rest with
    | nil => rw [join_layout, h0]; rfl
    | cons u rest =>
      rw [join_layout, List.count_append, h0, List.count_cons_self,
        ih (fun x hx => h x (List.mem_cons_of_mem _ hx))]
      simp

theorem bias_init_loop (m : libc α) (i : Nat) (s : neuralnet α × Nat) (n : Nat) :
    same_shape s.1
        (forLoop n
          (fun j (t : neuralnet α × Nat) =>
            (t.1.set_bias i j (INIT_VAL m t.2 (t.1.layer_len (i - 1))), t.2 + 1)) s).1 ∧
      (forLoop n
          (fun j (t : neuralnet α × Nat) =>
            (t.1.set_bias i j (INIT_VAL m t.2 (t.1.layer_len (i - 1))), t.2 + 1)) s).1.weights =
        s.1.weights := by
  induction n with
  | zero => exact ⟨same_shape_refl _, rfl⟩
  | succ n ih =>
    obtain ⟨h1, h2⟩ := ih
    simp only [forLoop]
    exact ⟨same_shape_trans h1 (same_shape_set_bias _ _ _ _), h2⟩

theorem layer_len_set_layer (nn : neuralnet α) (i : Nat) (nodes : List (node α)) (i' : Nat)
    (hi : i < nn.layers.length) :
    (nn.set_layer i nodes).layer_len i' =
      if i' = i then nodes.length else nn.layer_len i' := by
  unfold layer_len set_layer
  dsimp only
  rw [getD_set_list]
  by_cases h : i' = i
  · rw [if_pos ⟨h, hi⟩, if_pos h]
  · rw [if_neg (fun hh => h hh.1), if_neg h]

theorem nlayers_set_layer (nn : neuralnet α) (i : Nat) (nodes : List (node α)) :
    (nn.set_layer i nodes).nlayers = nn.nlayers := by
  unfold nlayers set_layer
  dsimp only
  rw [List.length_set]

theorem create_layers_token_ok (m : libc α) (k i : Nat) (t : List Char)
    (s : neuralnet α × Nat) (ht : positive_int_token t) (hi : i < k)
    (hlen : s.1.nlayers = k) (halloc : ∀ n, m.calloc n = true) :
    ∃ s1, create_layers_token m k i t s = some s1 ∧ s1.1.nlayers = k ∧
      s1.1.layer_len i = decimal_value t ∧
      (∀ i', i' ≠ i → s1.1.layer_len i' = s.1.layer_len i') ∧ s1.1.weights = s.1.weights := by
  unfold create_layers_token
  rw [sscanf_d_digits t ht]
  have h1 : ¬ ((decimal_value t : Int) < 1 ∨ i = k ∨
      m.calloc (decimal_value t : Int).toNat = false) := by
    rintro (h | h | h)
    · have := ht.2.2.1; omega
    · omega
    · rw [halloc] at h; exact Bool.noConfusion h
  simp only
  rw [if_neg h1]
  have hlen' : i < s.1.layers.length := by
    have : s.1.layers.length = k := hlen
    omega
  have hset : ∀ i', (s.1.set_layer i
      (List.replicate (decimal_value t : Int).toNat node.zero)).layer_len i' =
      if i' = i then decimal_value t else s.1.layer_len i' := by
    intro i'
    rw [layer_len_set_layer _ _ _ _ hlen']
    simp
  have hnl : (s.1.set_layer i
      (List.replicate (decimal_value t : Int).toNat node.zero)).nlayers = k := by
    rw [nlayers_set_layer]; exact hlen
  by_cases h0 : 0 < i
  · rw [if_pos h0]
    refine ⟨_, rfl, ?_, ?_, ?_, ?_⟩
    · rw [(bias_init_loop m i _ _).1.2.2.1]; exact hnl
    · rw [(bias_init_loop m i _ _).1.2.2.2.1, hset, if_pos rfl]
    · intro i' hi'
      rw [(bias_init_loop m i _ _).1.2.2.2.1, hset, if_neg hi']
    · rw [(bias_init_loop m i _ _).2]; rfl
  · rw [if_neg h0]
    refine ⟨_, rfl, hnl, ?_, ?_, rfl⟩
    · rw [hset, if_pos rfl]
    · intro i' hi'
      rw [hset, if_neg hi']

theorem create_layers_loop_ok (m : libc α) (k : Nat) (halloc : ∀ n, m.calloc n = true)
    (toks : List (List Char)) :
    ∀ (i : Nat) (s : neuralnet α × Nat), (∀ t ∈ toks, positive_int_token t) →
      i + toks.length ≤ k → s.1.nlayers = k →
      ∃ s1, create_layers_loop m k toks i s = some s1 ∧ s1.1.nlayers = k ∧
        (∀ j, j < toks.length → s1.1.layer_len (i + j) = decimal_value (toks.getD j [])) ∧
        (∀ i', i' < i → s1.1.layer_len i' = s.1.layer_len i') ∧ s1.1.weights = s.1.weights := by
  induction toks with
  | nil =>
    intro i s _ _ hs
    exact ⟨s, rfl, hs, fun j hj => absurd hj (Nat.not_lt_zero _), fun _ _ => rfl, rfl⟩
  | cons t rest ih =>
    intro i s htoks hik hs
    have hlen : (t :: rest).length = rest.length + 1 := rfl
    obtain ⟨s1, e1, a1, a2, a3, a4⟩ := create_layers_token_ok m k i t s
      (htoks t (List.mem_cons_self _ _)) (by omega) hs halloc
    obtain ⟨s2, e2, b1, b2, b3, b4⟩ := ih (i + 1) s1
      (fun x hx => htoks x (List.mem_cons_of_mem _ hx)) (by omega) a1
    refine ⟨s2, ?_, b1, ?_, ?_, b4.trans a4⟩
    · rw [create_layers_loop, e1]
      exact e2
    · intro j hj
      cases j with
      | zero =>
        rw [Nat.add_zero, b3 i (Nat.lt_succ_self _), a2]
        rfl
      | succ j =>
        have := b2 j (by omega)
        rw [show i + (j + 1) = i + 1 + j by omega, this]
        rfl
    · intro i' hi'
      rw [b3 i' (by omega), a3 i' (by omega)]

theorem weights_fill_loop (m : libc α) (i : Nat) (s : neuralnet α × Nat) (n : Nat) :
    (forLoop n
      (fun j (t : neuralnet α × Nat) =>
        (t.1.set_value i j (INIT_VAL m t.2 (t.1.layer_len i)), t.2 + 1)) s).1.layers =
      s.1.layers := by
  induction n with
  | zero => rfl
  | succ n ih =>
    simp only [forLoop]
    exact ih

theorem create_weights_matrix_ok (m : libc α) (i : Nat) (s : neuralnet α × Nat)
    (hprod : (s.1.layer_len i : Int) * (s.1.layer_len (i + 1) : Int) ≤ INT_MAX)
    (halloc : ∀ n, m.calloc n = true) :
    ∃ s1, create_weights_matrix m i s = some s1 ∧ s1.1.layers = s.1.layers := by
  unfold create_weights_matrix
  have h0 : (0 : Int) ≤ (s.1.layer_len i : Int) * (s.1.layer_len (i + 1) : Int) :=
    Int.mul_nonneg (Int.ofNat_nonneg _) (Int.ofNat_nonneg _)
  simp only
  rw [wrap32_of_range _ h0 hprod]
  rw [if_neg (by
    rintro (h | h)
    · omega
    · rw [halloc] at h; exact Bool.noConfusion h)]
  exact ⟨_, rfl, weights_fill_loop m i _ _⟩

theorem forLoopOpt_succ {σ : Type} (n : Nat) (body : Nat → σ → Option σ) (s : σ) :
    forLoopOpt (n + 1) body s = (forLoopOpt n body s).bind (body n) := rfl

theorem create_weights_loop_ok (m : libc α) (halloc : ∀ n, m.calloc n = true) (n : Nat)
    (s : neuralnet α × Nat)
    (hprod : ∀ i, i < n → (s.1.layer_len i : Int) * (s.1.layer_len (i + 1) : Int) ≤ INT_MAX) :
    ∃ s1, forLoopOpt n (create_weights_matrix m) s = some s1 ∧ s1.1.layers = s.1.layers := by
  induction n with
  | zero => exact ⟨s, rfl, rfl⟩
  | succ n ih =>
    obtain ⟨s1, e1, a1⟩ := ih (fun i hi => hprod i (Nat.lt_succ_of_lt hi))
    have hp := hprod n (Nat.lt_succ_self _)
    rw [← layer_len_of_layers a1, ← layer_len_of_layers a1] at hp
    obtain ⟨s2, e2, a2⟩ := create_weights_matrix_ok m n s1 hp halloc
    refine ⟨s2, ?_, a2.trans a1⟩
    rw [forLoopOpt_succ, e1, Option.some_bind, e2]

theorem isdigit_ne_semicolon (t : List Char) (h : ∀ c ∈ t, isdigit c = true) :
    ∀ c ∈ t, c ≠ ';' :=
  fun c hc => semicolon_not_digit c (h c hc)

/-- The layers built by `neuralnet_create` from a layout of positive decimal integers. -/
theorem neuralnet_create_ok (m : libc α) (toks : List (List Char)) (learn : α)
    (fid : activation_func_id) (hk : 2 ≤ toks.length)
    (htok : ∀ t ∈ toks, positive_int_token t)
    (hprod : ∀ i, i + 1 < toks.length →
      (decimal_value (toks.getD i []) : Int) * (decimal_value (toks.getD (i + 1) []) : Int) ≤
        INT_MAX)
    (halloc : ∀ n, m.calloc n = true) :
    ∃ nn, neuralnet_create m (some ⟨some (String.mk (join_layout toks)), learn, fid⟩) = some nn ∧
      nn.nlayers = toks.length ∧
      ∀ i, i < toks.length → nn.layer_len i = decimal_value (toks.getD i []) := by
  have hsc : ∀ t ∈ toks, ∀ c ∈ t, c ≠ ';' :=
    fun t ht => isdigit_ne_semicolon t (htok t ht).2.1
  have hcount : 1 + (join_layout toks).count ';' = toks.length := by
    rw [count_join toks hsc]; omega
  have htoks : strtok_all (join_layout toks) [] = toks :=
    strtok_all_join toks (fun t ht => ⟨(htok t ht).1, hsc t ht⟩)
  obtain ⟨s1, e1, a1, a2, _, _⟩ := create_layers_loop_ok m toks.length halloc toks 0
    ((⟨List.replicate toks.length [], [], .SIGMOID_LOGISTIC, 0⟩ : neuralnet α), 0) htok
    (by omega) (by simp [nlayers])
  have hlen1 : ∀ i, i < toks.length → s1.1.layer_len i = decimal_value (toks.getD i []) := by
    intro i hi
    have := a2 i hi
    rwa [Nat.zero_add] at this
  obtain ⟨s2, e2, b1⟩ := create_weights_loop_ok m halloc (s1.1.nlayers - 1)
    (((⟨s1.1.layers, List.replicate (s1.1.nlayers - 1) [], s1.1.func_id, s1.1.learn⟩ :
      neuralnet α)), s1.2)
    (by
      intro i hi
      have e : ∀ l, (⟨s1.1.layers, List.replicate (s1.1.nlayers - 1) [], s1.1.func_id,
          s1.1.learn⟩ : neuralnet α).layer_len l = s1.1.layer_len l := fun _ => rfl
      rw [e, e, hlen1 i (by omega), hlen1 (i + 1) (by omega)]
      exact hprod i (by omega))
  have hcl : create_layers m (⟨[], [], .SIGMOID_LOGISTIC, 0⟩ : neuralnet α)
      (String.mk (join_layout toks)) 0 = some s1 := by
    have htl : (String.mk (join_layout toks)).toList = join_layout toks := rfl
    simp only [create_layers, htl, hcount, htoks]
    rw [if_neg (by omega), if_neg (by rw [halloc]; simp), if_neg (by rw [halloc]; simp)]
    exact e1
  have hcw : create_weights m s1 = some s2 := by
    unfold create_weights
    rw [if_neg (by rw [halloc]; simp)]
    exact e2
  refine ⟨{ s2.1 with learn := learn, func_id := fid }, ?_, ?_, ?_⟩
  · simp only [neuralnet_create]
    rw [if_neg (by rw [halloc]; simp), hcl]
    simp only [hcw]
  · show s2.1.layers.length = toks.length
    rw [b1]; exact a1
  · intro i hi
    show (s2.1.layers.getD i []).length = _
    rw [b1]; exact hlen1 i hi

theorem create_layers_token_reject (m : libc α) (k i : Nat) (tok : List Char)
    (s : neuralnet α × Nat)
    (h : sscanf_d tok = none ∨ ∃ n, sscanf_d tok = some n ∧ n < 1) :
    create_layers_token m k i tok s = none := by
  unfold create_layers_token
  rcases h with h | ⟨n, h, hn⟩
  · rw [h]
  · rw [h]
    simp only
    rw [if_pos (Or.inl hn)]

theorem create_layers_loop_reject (m : libc α) (k : Nat) (toks : List (List Char)) :
    ∀ (i : Nat) (s : neuralnet α × Nat),
      (∃ tok ∈ toks, sscanf_d tok = none ∨ ∃ n, sscanf_d tok = some n ∧ n < 1) →
      create_layers_loop m k toks i s = none := by
  induction toks with
  | nil =>
    rintro i s ⟨tok, hmem, _⟩
    exact absurd hmem (List.not_mem_nil _)
  | cons t rest ih =>
    rintro i s ⟨tok, hmem, hbad⟩
    rw [create_layers_loop]
    rcases List.mem_cons.mp hmem with rfl | hrest
    · rw [create_layers_token_reject m k i tok s hbad]
    · cases hres : create_layers_token m k i t s with
      | none => rfl
      | some s1 => exact ih (i + 1) s1 ⟨tok, hrest, hbad⟩

theorem tokens_2_3_1_ok : ∀ t ∈ [['2'], ['3'], ['1']], positive_int_token t := by
  intro t ht
  simp only [List.mem_cons, List.mem_singleton, List.not_mem_nil, or_false] at ht
  unfold positive_int_token
  rcases ht with rfl | rfl | rfl <;> decide

theorem tokens_2_3_1_prod : ∀ i, i + 1 < [['2'], ['3'], ['1']].length →
    (decimal_value ([['2'], ['3'], ['1']].getD i []) : Int) *
      (decimal_value ([['2'], ['3'], ['1']].getD (i + 1) []) : Int) ≤ INT_MAX := by
  intro i hi
  have h : i = 0 ∨ i = 1 := by
    simp only [List.length_cons, List.length_nil] at hi
    omega
  rcases h with rfl | rfl <;> decide

/-! ### The gradient of the loss -/

theorem ref_out_set_WEIGHT_AT_low (m : libc α) (nn : neuralnet α) (feature : vecd α)
    (P i j : Nat) (w : α) (hi : i < nn.layer_len P)
    (hb : nn.weight_index P i j < nn.weights_len P) (l : Nat) (hl : l ≤ P) (k : Nat) :
    ref_out m (nn.set_WEIGHT_AT P i j w) feature l k = ref_out m nn feature l k := by
  induction l generalizing k with
  | zero => rfl
  | succ l ih =>
    simp only [ref_out]
    have hlen : (nn.set_WEIGHT_AT P i j w).layer_len l = nn.layer_len l := rfl
    have hbias : (nn.set_WEIGHT_AT P i j w).bias (l + 1) k = nn.bias (l + 1) k := rfl
    rw [hlen, hbias, set_WEIGHT_AT_func_id]
    congr 2
    apply Finset.sum_congr rfl
    intro x hx
    rw [ih (by omega), WEIGHT_AT_set_WEIGHT_AT nn P i j w l x k hi (Finset.mem_range.mp hx) hb,
      if_neg (fun h => by omega)]

theorem ref_out_set_WEIGHT_AT_top (m : libc α) (nn : neuralnet α) (feature : vecd α)
    (P i j : Nat) (w : α) (hi : i < nn.layer_len P)
    (hb : nn.weight_index P i j < nn.weights_len P) (k : Nat) :
    ref_out m (nn.set_WEIGHT_AT P i j w) feature (P + 1) k =
      activation_function m nn.func_id
        ((∑ x ∈ Finset.range (nn.layer_len P),
            ref_out m nn feature P x * (if x = i ∧ k = j then w else nn.WEIGHT_AT P x k)) +
          nn.bias (P + 1) k) := by
  simp only [ref_out]
  have hlen : (nn.set_WEIGHT_AT P i j w).layer_len P = nn.layer_len P := rfl
  have hbias : (nn.set_WEIGHT_AT P i j w).bias (P + 1) k = nn.bias (P + 1) k := rfl
  rw [hlen, hbias, set_WEIGHT_AT_func_id]
  congr 2
  apply Finset.sum_congr rfl
  intro x hx
  rw [ref_out_set_WEIGHT_AT_low m nn feature P i j w hi hb P (Nat.le_refl _),
    WEIGHT_AT_set_WEIGHT_AT nn P i j w P x k hi (Finset.mem_range.mp hx) hb]
  congr 1
  by_cases h : x = i ∧ k = j
  · rw [if_pos ⟨rfl, h.1, h.2⟩, if_pos h]
  · rw [if_neg (fun hh => h ⟨hh.2.1, hh.2.2⟩), if_neg h]

theorem ref_out_set_bias_low (m : libc α) (nn : neuralnet α) (feature : vecd α)
    (Q j : Nat) (b : α) (l : Nat) (hl : l < Q) (k : Nat) :
    ref_out m (nn.set_bias Q j b) feature l k = ref_out m nn feature l k := by
  induction l generalizing k with
  | zero => rfl
  | succ l ih =>
    simp only [ref_out]
    rw [set_bias_layer_len, set_bias_func_id, bias_set_bias, if_neg (fun h => by omega)]
    congr 2
    apply Finset.sum_congr rfl
    intro x _
    rw [ih (by omega), WEIGHT_AT_congr nn (nn.set_bias Q j b) rfl
      (fun l => set_bias_layer_len _ _ _ _ _)]

theorem ref_out_set_bias_top (m : libc α) (nn : neuralnet α) (feature : vecd α)
    (P j : Nat) (b : α) (hj : j < nn.layer_len (P + 1)) (k : Nat) :
    ref_out m (nn.set_bias (P + 1) j b) feature (P + 1) k =
      activation_function m nn.func_id
        ((∑ x ∈ Finset.range (nn.layer_len P), ref_out m nn feature P x * nn.WEIGHT_AT P x k) +
          (if k = j then b else nn.bias (P + 1) k)) := by
  simp only [ref_out]
  rw [set_bias_layer_len, set_bias_func_id, bias_set_bias]
  congr 2
  · apply Finset.sum_congr rfl
    intro x _
    rw [ref_out_set_bias_low m nn feature (P + 1) j b P (Nat.lt_succ_self _),
      WEIGHT_AT_congr nn (nn.set_bias (P + 1) j b) rfl (fun l => set_bias_layer_len _ _ _ _ _)]
  · by_cases h : k = j
    · rw [if_pos ⟨rfl, h, hj⟩, if_pos h]
    · rw [if_neg (fun hh => h hh.2.1), if_neg h]

/-- The loss of a query in terms of the reference forward function. -/
theorem query_loss_eq (m : libc α) (nn : neuralnet α) (feature target : vecd α)
    (hL : 1 ≤ nn.nlayers) (hf : feature.length = nn.layer_len 0) :
    query_loss m nn feature target =
      1 / 2 * ∑ k ∈ Finset.range (nn.layer_len (nn.nlayers - 1)),
        (target.getD k 0 - ref_out m nn feature (nn.nlayers - 1) k) ^ 2 := by
  unfold query_loss
  congr 1
  apply Finset.sum_congr rfl
  intro k hk
  rw [(feedforward_spec m nn feature hf).2 (nn.nlayers - 1) (by omega) k (Finset.mem_range.mp hk)]

theorem hasDerivAt_logistic (x : ℝ) :
    HasDerivAt (fun y : ℝ => 1 / (1 + Real.exp (-y)))
      ((1 / (1 + Real.exp (-x))) * (1 - 1 / (1 + Real.exp (-x)))) x := by
  have hpos : (1 + Real.exp (-x)) ≠ 0 := by positivity
  have h1 : HasDerivAt (fun y : ℝ => Real.exp (-y)) (Real.exp (-x) * (-1)) x :=
    (Real.hasDerivAt_exp (-x)).comp x (hasDerivAt_neg x)
  have h2 : HasDerivAt (fun y : ℝ => 1 + Real.exp (-y)) (Real.exp (-x) * (-1)) x :=
    h1.const_add 1
  have h3 := (hasDerivAt_const x (1 : ℝ)).div h2 hpos
  convert h3 using 1
  field_simp
  ring

theorem hasDerivAt_sq_residual (t : ℝ) (g : ℝ → ℝ) (g' w : ℝ) (hg : HasDerivAt g g' w) :
    HasDerivAt (fun y => (t - 1 / (1 + Real.exp (-(g y)))) ^ 2)
      (2 * (1 / (1 + Real.exp (-(g w))) - t) *
        ((1 / (1 + Real.exp (-(g w)))) * (1 - 1 / (1 + Real.exp (-(g w)))) * g')) w := by
  have h1 : HasDerivAt (fun y => 1 / (1 + Real.exp (-(g y))))
      ((1 / (1 + Real.exp (-(g w)))) * (1 - 1 / (1 + Real.exp (-(g w)))) * g') w :=
    (hasDerivAt_logistic (g w)).comp w hg
  have h2 := (h1.const_sub t).pow 2
  convert h2 using 1
  simp only [Nat.cast_ofNat, Nat.add_one_sub_one, pow_one]
  ring

/-- The derivative of the loss of one layer of logistic nodes with respect to the inputs
`g k` of the nodes, when only node `j` depends on the parameter. -/
theorem hasDerivAt_layer_loss (n : Nat) (t : Nat → ℝ) (g : Nat → ℝ → ℝ) (j : Nat) (c w : ℝ)
    (hj : j < n) (hg : ∀ k, HasDerivAt (g k) (if k = j then c else 0) w) :
    HasDerivAt (fun y => 1 / 2 * ∑ k ∈ Finset.range n, (t k - 1 / (1 + Real.exp (-(g k y)))) ^ 2)
      ((1 / (1 + Real.exp (-(g j w))) - t j) *
        ((1 / (1 + Real.exp (-(g j w)))) * (1 - 1 / (1 + Real.exp (-(g j w))))) * c) w := by
  have h1 := HasDerivAt.sum (u := Finset.range n)
    (fun k _ => hasDerivAt_sq_residual (t k) (g k) _ w (hg k))
  have h2 := h1.const_mul (1 / 2 : ℝ)
  convert h2 using 1
  have e : ∀ k ∈ Finset.range n,
      2 * (1 / (1 + Real.exp (-(g k w))) - t k) *
        ((1 / (1 + Real.exp (-(g k w)))) * (1 - 1 / (1 + Real.exp (-(g k w)))) *
          (if k = j then c else 0)) =
      if j = k then
        2 * (1 / (1 + Real.exp (-(g k w))) - t k) *
          ((1 / (1 + Real.exp (-(g k w)))) * (1 - 1 / (1 + Real.exp (-(g k w)))) * c)
      else 0 := by
    intro k _
    by_cases h : k = j
    · rw [if_pos h, if_pos h.symm]
    · rw [if_neg h, if_neg (fun hh => h hh.symm)]; ring
  rw [Finset.sum_congr rfl e, Finset.sum_ite_eq, if_pos (Finset.mem_range.mpr hj)]
  ring

theorem hasDerivAt_weighted_sum (N : Nat) (a : Nat → ℝ) (W : Nat → ℝ) (b : ℝ) (i : Nat)
    (hit : Prop) [Decidable hit] (hi : i < N) (w : ℝ) :
    HasDerivAt (fun y => (∑ x ∈ Finset.range N, a x * (if x = i ∧ hit then y else W x)) + b)
      (if hit then a i else 0) w := by
  have h1 : HasDerivAt (fun y => ∑ x ∈ Finset.range N, a x * (if x = i ∧ hit then y else W x))
      (∑ x ∈ Finset.range N, if i = x then (if hit then a x else 0) else 0) w :=
    HasDerivAt.sum
    (by
      intro x _
      by_cases h : x = i ∧ hit
      · simp only [if_pos h, if_pos h.1.symm, if_pos h.2]
        simpa using (hasDerivAt_id w).const_mul (a x)
      · simp only [if_neg h]
        have : (if i = x then (if hit then a x else 0) else 0) = (0 : ℝ) := by
          by_cases h1 : i = x
          · rw [if_pos h1, if_neg (fun hh => h ⟨h1.symm, hh⟩)]
          · rw [if_neg h1]
        rw [this]
        exact hasDerivAt_const w _)
  have h2 := h1.add_const b
  convert h2 using 1
  rw [Finset.sum_ite_eq, if_pos (Finset.mem_range.mpr hi)]

theorem f_logistic_real (m : libc ℝ) (hexp : m.exp = Real.exp) (x : ℝ) :
    f_logistic m x = 1 / (1 + Real.exp (-x)) := by
  unfold f_logistic; rw [hexp]

/-- The loss as a function of one weight of the last matrix. -/
theorem query_loss_last_weight (m : libc ℝ) (hexp : m.exp = Real.exp) (nn : neuralnet ℝ)
    (feature target : vecd ℝ) (P : Nat) (hP : nn.nlayers = P + 2) (hwf : nn.wf)
    (hfun : nn.func_id = .SIGMOID_LOGISTIC) (hf : feature.length = nn.layer_len 0)
    (i j : Nat) (hi : i < nn.layer_len P) (hj : j < nn.layer_len (P + 1)) :
    HasDerivAt (fun w => query_loss m (nn.set_WEIGHT_AT P i j w) feature target)
      ((ref_out m nn feature (P + 1) j - target.getD j 0) *
        (ref_out m nn feature (P + 1) j * (1 - ref_out m nn feature (P + 1) j)) *
        ref_out m nn feature P i) (nn.WEIGHT_AT P i j) := by
  have hb : nn.weight_index P i j < nn.weights_len P := by
    unfold weight_index
    rw [hwf.weights_len_eq P (by rw [hwf.nweights_eq]; omega)]
    exact weight_index_lt hi hj
  have hF : (fun w => query_loss m (nn.set_WEIGHT_AT P i j w) feature target) =
      fun w => 1 / 2 * ∑ k ∈ Finset.range (nn.layer_len (P + 1)),
        (target.getD k 0 - 1 / (1 + Real.exp (-((∑ x ∈ Finset.range (nn.layer_len P),
          ref_out m nn feature P x * (if x = i ∧ k = j then w else nn.WEIGHT_AT P x k)) +
            nn.bias (P + 1) k)))) ^ 2 := by
    funext w
    have hL : (nn.set_WEIGHT_AT P i j w).nlayers = P + 2 := hP
    rw [query_loss_eq m (nn.set_WEIGHT_AT P i j w) feature target (by omega) hf, hL]
    have hlen : (nn.set_WEIGHT_AT P i j w).layer_len (P + 2 - 1) = nn.layer_len (P + 1) := rfl
    rw [hlen]
    congr 1
    apply Finset.sum_congr rfl
    intro k _
    have e : P + 2 - 1 = P + 1 := rfl
    rw [e, ref_out_set_WEIGHT_AT_top m nn feature P i j w hi hb k, hfun]
    simp only [activation_function]
    rw [f_logistic_real m hexp]
  rw [hF]
  have hval : ∀ k, (∑ x ∈ Finset.range (nn.layer_len P),
      ref_out m nn feature P x *
        (if x = i ∧ k = j then nn.WEIGHT_AT P i j else nn.WEIGHT_AT P x k)) =
      ∑ x ∈ Finset.range (nn.layer_len P), ref_out m nn feature P x * nn.WEIGHT_AT P x k := by
    intro k
    apply Finset.sum_congr rfl
    intro x _
    by_cases h : x = i ∧ k = j
    · rw [if_pos h, h.1, h.2]
    · rw [if_neg h]
  have hout : ref_out m nn feature (P + 1) j =
      1 / (1 + Real.exp (-((∑ x ∈ Finset.range (nn.layer_len P),
        ref_out m nn feature P x *
          (if x = i ∧ j = j then nn.WEIGHT_AT P i j else nn.WEIGHT_AT P x j)) +
          nn.bias (P + 1) j))) := by
    rw [hval j]
    simp only [ref_out]
    rw [hfun]
    simp only [activation_function]
    rw [f_logistic_real m hexp]
  rw [hout]
  exact hasDerivAt_layer_loss (nn.layer_len (P + 1)) (fun k => target.getD k 0)
    (fun k w => (∑ x ∈ Finset.range (nn.layer_len P),
      ref_out m nn feature P x * (if x = i ∧ k = j then w else nn.WEIGHT_AT P x k)) +
        nn.bias (P + 1) k) j (ref_out m nn feature P i) (nn.WEIGHT_AT P i j) hj
    (fun k => hasDerivAt_weighted_sum (nn.layer_len P) (fun x => ref_out m nn feature P x)
      (fun x => nn.WEIGHT_AT P x k) (nn.bias (P + 1) k) i (k = j) hi (nn.WEIGHT_AT P i j))

/-- The loss as a function of the bias of one output node. -/
theorem query_loss_last_bias (m : libc ℝ) (hexp : m.exp = Real.exp) (nn : neuralnet ℝ)
    (feature target : vecd ℝ) (P : Nat) (hP : nn.nlayers = P + 2)
    (hfun : nn.func_id = .SIGMOID_LOGISTIC) (hf : feature.length = nn.layer_len 0)
    (j : Nat) (hj : j < nn.layer_len (P + 1)) :
    HasDerivAt (fun b => query_loss m (nn.set_bias (P + 1) j b) feature target)
      ((ref_out m nn feature (P + 1) j - target.getD j 0) *
        (ref_out m nn feature (P + 1) j * (1 - ref_out m nn feature (P + 1) j)))
      (nn.bias (P + 1) j) := by
  have hF : (fun b => query_loss m (nn.set_bias (P + 1) j b) feature target) =
      fun b => 1 / 2 * ∑ k ∈ Finset.range (nn.layer_len (P + 1)),
        (target.getD k 0 - 1 / (1 + Real.exp (-((∑ x ∈ Finset.range (nn.layer_len P),
          ref_out m nn feature P x * nn.WEIGHT_AT P x k) +
            (if k = j then b else nn.bias (P + 1) k))))) ^ 2 := by
    funext b
    have hL : (nn.set_bias (P + 1) j b).nlayers = P + 2 := by rw [set_bias_nlayers]; exact hP
    rw [query_loss_eq m (nn.set_bias (P + 1) j b) feature target (by omega)
      (by rw [set_bias_layer_len]; exact hf), hL, set_bias_layer_len]
    have e : P + 2 - 1 = P + 1 := rfl
    rw [e]
    congr 1
    apply Finset.sum_congr rfl
    intro k _
    rw [ref_out_set_bias_top m nn feature P j b hj k, hfun]
    simp only [activation_function]
    rw [f_logistic_real m hexp]
  rw [hF]
  have hout : ref_out m nn feature (P + 1) j =
      1 / (1 + Real.exp (-((∑ x ∈ Finset.range (nn.layer_len P),
        ref_out m nn feature P x * nn.WEIGHT_AT P x j) +
          (if j = j then nn.bias (P + 1) j else nn.bias (P + 1) j)))) := by
    rw [if_pos rfl]
    simp only [ref_out]
    rw [hfun]
    simp only [activation_function]
    rw [f_logistic_real m hexp]
  rw [hout]
  have key := hasDerivAt_layer_loss (nn.layer_len (P + 1)) (fun k => target.getD k 0)
    (fun k b => (∑ x ∈ Finset.range (nn.layer_len P),
      ref_out m nn feature P x * nn.WEIGHT_AT P x k) +
        (if k = j then b else nn.bias (P + 1) k)) j 1 (nn.bias (P + 1) j) hj
    (by
      intro k
      by_cases h : k = j
      · simp only [if_pos h]
        exact (hasDerivAt_id _).const_add _
      · simp only [if_neg h]
        exact hasDerivAt_const _ _)
  simpa using key

theorem net_1_1_1_wf : (net_1_1_1 ℝ).wf := ⟨by decide, by decide, by decide, by decide⟩

theorem neuralnet_query_ok (m : libc α) (nn : neuralnet α) (feature output : vecd α)
    (hf : feature.length = nn.layer_len 0)
    (ho : output.length = nn.layer_len (nn.nlayers - 1)) :
    neuralnet_query m (some nn) (some feature) (some output) =
      (0, some (feedforward m nn feature), some (copy_output (feedforward m nn feature) output)) := by
  simp only [neuralnet_query]
  rw [if_neg (by simp [hf, ho])]

theorem neuralnet_query_success (m : libc α) (nn nn1 : neuralnet α)
    (feature output output1 : vecd α)
    (h : neuralnet_query m (some nn) (some feature) (some output) =
      (0, some nn1, some output1)) :
    feature.length = nn.layer_len 0 ∧ output.length = nn.layer_len (nn.nlayers - 1) ∧
      nn1 = feedforward m nn feature ∧ output1 = copy_output (feedforward m nn feature) output := by
  simp only [neuralnet_query] at h
  by_cases hc : feature.length ≠ nn.layer_len 0 ∨ output.length ≠ nn.layer_len (nn.nlayers - 1)
  · rw [if_pos hc] at h
    simp at h
  · rw [if_neg hc] at h
    simp only [Prod.mk.injEq, Option.some.injEq, true_and] at h
    refine ⟨?_, ?_, h.1.symm, h.2.symm⟩
    · by_contra hne; exact hc (Or.inl hne)
    · by_contra hne; exact hc (Or.inr hne)

/-- The output vector written by a query: the reference outputs of the last layer. -/
theorem copy_output_eq (m : libc α) (nn : neuralnet α) (feature output : vecd α)
    (hf : feature.length = nn.layer_len 0)
    (ho : output.length = nn.layer_len (nn.nlayers - 1)) :
    copy_output (feedforward m nn feature) output =
      (List.range (nn.layer_len (nn.nlayers - 1))).map
        (fun j => ref_out m nn feature (nn.nlayers - 1) j) := by
  obtain ⟨h1, h2⟩ := feedforward_spec m nn feature hf
  obtain ⟨c1, c2, _⟩ := copy_output_loop (feedforward m nn feature) output output.length
    (Nat.le_refl _)
  have hL : (feedforward m nn feature).nlayers = nn.nlayers := h1.2.2.2.1
  apply List.ext_getElem?
  intro j
  unfold copy_output
  by_cases hj : j < nn.layer_len (nn.nlayers - 1)
  · have hpos : nn.nlayers - 1 < nn.nlayers := by
      by_contra hcon
      have h0 : nn.nlayers = 0 := by omega
      have : nn.layers = [] := List.length_eq_zero.mp h0
      unfold layer_len at hj
      rw [this] at hj
      simp at hj
    rw [c2 j (by omega), hL, h2 (nn.nlayers - 1) hpos j hj]
    simp [hj]
  · have e1 : (forLoop output.length
        (fun i (l : vecd α) => l.set i ((feedforward m nn feature).out
          ((feedforward m nn feature).nlayers - 1) i)) output)[j]? = none := by
      rw [List.getElem?_eq_none_iff, c1]; omega
    rw [e1, List.getElem?_map]
    have e2 : (List.range (nn.layer_len (nn.nlayers - 1)))[j]? = none := by
      rw [List.getElem?_eq_none_iff, List.length_range]; omega
    rw [e2]
    rfl

theorem ref_out_ext (m : libc α) (s t : neuralnet α) (feature : vecd α)
    (hw : t.weights = s.weights) (hfun : t.func_id = s.func_id)
    (hlen : ∀ l, t.layer_len l = s.layer_len l) (hbias : ∀ l j, t.bias l j = s.bias l j)
    (l j : Nat) : ref_out m t feature l j = ref_out m s feature l j := by
  induction l generalizing j with
  | zero => rfl
  | succ l ih =>
    simp only [ref_out]
    rw [hfun, hlen, hbias]
    congr 2
    apply Finset.sum_congr rfl
    intro i _
    rw [ih, WEIGHT_AT_congr s t hw hlen]

theorem d_tanh_of_ne_zero (y : α) (hy : y ≠ 0) : d_tanh y = 1 - y * y := by
  unfold d_tanh
  field_simp

theorem weight_index_surj {n m k : Nat} (hk : k < n * m) :
    k % n < n ∧ k / n < m ∧ n * (k / n) + k % n = k := by
  have hn : 0 < n := by
    rcases Nat.eq_zero_or_pos n with h | h
    · subst h; simp at hk
    · exact h
  refine ⟨Nat.mod_lt _ hn, ?_, Nat.div_add_mod k n⟩
  rw [Nat.div_lt_iff_lt_mul hn]
  rw [Nat.mul_comm] at hk
  exact hk

theorem forLoop_rel {σ : Type} (R : σ → σ → Prop) (hrefl : ∀ s, R s s)
    (htrans : ∀ s t u, R s t → R t u → R s u) (body : Nat → σ → σ)
    (hbody : ∀ k u, R u (body k u)) (n : Nat) (s : σ) : R s (forLoop n body s) := by
  induction n with
  | zero => exact hrefl s
  | succ n ih => exact htrans _ _ _ ih (hbody n _)

theorem downLoop_rel {σ : Type} (R : σ → σ → Prop) (hrefl : ∀ s, R s s)
    (htrans : ∀ s t u, R s t → R t u → R s u) (body : Nat → σ → σ)
    (hbody : ∀ k u, R u (body (k + 1) u)) (n : Nat) (s : σ) : R s (downLoop n body s) := by
  induction n generalizing s with
  | zero => exact hrefl s
  | succ n ih => exact htrans _ _ _ (hbody n s) (ih _)

theorem input_frame_refl (s : neuralnet α) : input_frame s s :=
  ⟨rfl, fun _ => rfl, fun _ _ => rfl, fun _ => rfl, fun _ => rfl⟩

theorem input_frame_trans (s t u : neuralnet α) (hst : input_frame s t)
    (htu : input_frame t u) : input_frame s u := by
  obtain ⟨sn, slen, sout, sdelta, sbias⟩ := hst
  obtain ⟨tn, tlen, tout, tdelta, tbias⟩ := htu
  exact ⟨tn.trans sn, fun l => (tlen l).trans (slen l), fun l j => (tout l j).trans (sout l j),
    fun j => (tdelta j).trans (sdelta j), fun j => (tbias j).trans (sbias j)⟩

theorem input_frame_of_layers {s t : neuralnet α} (h : t.layers = s.layers) :
    input_frame s t :=
  ⟨nlayers_of_layers h, layer_len_of_layers h, out_of_layers h, fun j => delta_of_layers h 0 j,
    fun j => bias_of_layers h 0 j⟩

theorem input_frame_set_delta (s : neuralnet α) (l j : Nat) (v : α) (hl : l ≠ 0) :
    input_frame s (s.set_delta l j v) := by
  refine ⟨set_delta_nlayers _ _ _ _, set_delta_layer_len _ _ _ _, out_set_delta _ _ _ _, ?_,
    fun x => bias_set_delta _ _ _ _ _ _⟩
  intro x
  rw [delta_set_delta, if_neg (fun h => hl h.1.symm)]

theorem input_frame_set_bias (s : neuralnet α) (l j : Nat) (v : α) (hl : l ≠ 0) :
    input_frame s (s.set_bias l j v) := by
  refine ⟨set_bias_nlayers _ _ _ _, set_bias_layer_len _ _ _ _, out_set_bias _ _ _ _,
    fun x => delta_set_bias _ _ _ _ _ _, ?_⟩
  intro x
  rw [bias_set_bias, if_neg (fun h => hl h.1.symm)]

theorem backpropagate_edge_layers (p q i : Nat) (s : neuralnet α × α) (n : Nat) :
    (forLoop n (backpropagate_edge p q i) s).1.layers = s.1.layers := by
  induction n with
  | zero => rfl
  | succ n ih =>
    simp only [forLoop, backpropagate_edge]
    exact ih

theorem input_frame_backpropagate_node (p q i : Nat) (s : neuralnet α) (hp : p ≠ 0) :
    input_frame s (backpropagate_node p q i s) := by
  unfold backpropagate_node
  exact input_frame_trans _ _ _
    (input_frame_of_layers (backpropagate_edge_layers p q i (s, 0) (s.layer_len q)))
    (input_frame_set_delta _ _ _ _ hp)

theorem input_frame_backpropagate_output (s : neuralnet α) (test : vecd α)
    (hL : 2 ≤ s.nlayers) : input_frame s (backpropagate_output s test) := by
  unfold backpropagate_output
  have key := forLoop_inv (fun _ (u : neuralnet α) => input_frame s u)
    (s.layer_len (s.nlayers - 1))
    (fun j u => u.set_delta (u.nlayers - 1) j (u.out (u.nlayers - 1) j - test.getD j 0)) s
    (input_frame_refl s)
    (by
      intro k _ u hu
      exact input_frame_trans _ _ _ hu
        (input_frame_set_delta _ _ _ _ (by have := hu.1; omega)))
  exact key

theorem input_frame_backpropagate_hidden (s : neuralnet α) :
    input_frame s (backpropagate_hidden s) := by
  unfold backpropagate_hidden
  apply downLoop_rel input_frame input_frame_refl input_frame_trans
  intro k u
  apply forLoop_rel input_frame input_frame_refl input_frame_trans
  intro i v
  exact input_frame_backpropagate_node _ _ _ _ (Nat.succ_ne_zero k)

theorem input_frame_backpropagate_input (s : neuralnet α) :
    input_frame s (backpropagate_input s) := by
  unfold backpropagate_input
  apply forLoop_rel input_frame input_frame_refl input_frame_trans
  intro i u
  apply forLoop_rel input_frame input_frame_refl input_frame_trans
  intro j v
  exact input_frame_of_layers rfl

theorem input_frame_backpropagate_bias (s : neuralnet α) :
    input_frame s (backpropagate_bias s) := by
  unfold backpropagate_bias
  apply forLoop_rel input_frame input_frame_refl input_frame_trans
  intro k u
  apply forLoop_rel input_frame input_frame_refl input_frame_trans
  intro j v
  exact input_frame_set_bias _ _ _ _ (Nat.succ_ne_zero k)

/-- The derivative of the loss of the output layer with respect to one of its weights. -/
theorem output_layer_loss_weight (m : libc ℝ) (hexp : m.exp = Real.exp) (N n : Nat)
    (o : Nat → ℝ) (w : Nat → Nat → ℝ) (b t : Nat → ℝ) (i j : Nat) (hi : i < N) (hj : j < n) :
    HasDerivAt
      (fun y => output_layer_loss m N n o (fun x k => if x = i ∧ k = j then y else w x k) b t)
      ((f_logistic m ((∑ x ∈ Finset.range N, o x * w x j) + b j) - t j) *
        (f_logistic m ((∑ x ∈ Finset.range N, o x * w x j) + b j) *
          (1 - f_logistic m ((∑ x ∈ Finset.range N, o x * w x j) + b j))) * o i) (w i j) := by
  have hF : (fun y => output_layer_loss m N n o
      (fun x k => if x = i ∧ k = j then y else w x k) b t) =
      fun y => 1 / 2 * ∑ k ∈ Finset.range n,
        (t k - 1 / (1 + Real.exp (-((∑ x ∈ Finset.range N,
          o x * (if x = i ∧ k = j then y else w x k)) + b k)))) ^ 2 := by
    funext y
    unfold output_layer_loss
    congr 1
    apply Finset.sum_congr rfl
    intro k _
    rw [f_logistic_real m hexp]
  have hval : (∑ x ∈ Finset.range N, o x * (if x = i ∧ j = j then w i j else w x j)) =
      ∑ x ∈ Finset.range N, o x * w x j := by
    apply Finset.sum_congr rfl
    intro x _
    by_cases h : x = i ∧ j = j
    · rw [if_pos h, h.1]
    · rw [if_neg h]
  rw [hF, f_logistic_real m hexp, ← hval]
  exact hasDerivAt_layer_loss n t
    (fun k y => (∑ x ∈ Finset.range N, o x * (if x = i ∧ k = j then y else w x k)) + b k)
    j (o i) (w i j) hj
    (fun k => hasDerivAt_weighted_sum N o (fun x => w x k) (b k) i (k = j) hi (w i j))

/-- The derivative of the loss of the output layer with respect to one of its biases. -/
theorem output_layer_loss_bias (m : libc ℝ) (hexp : m.exp = Real.exp) (N n : Nat)
    (o : Nat → ℝ) (w : Nat → Nat → ℝ) (b t : Nat → ℝ) (j : Nat) (hj : j < n) :
    HasDerivAt
      (fun y => output_layer_loss m N n o w (fun k => if k = j then y else b k) t)
      ((f_logistic m ((∑ x ∈ Finset.range N, o x * w x j) + b j) - t j) *
        (f_logistic m ((∑ x ∈ Finset.range N, o x * w x j) + b j) *
          (1 - f_logistic m ((∑ x ∈ Finset.range N, o x * w x j) + b j)))) (b j) := by
  have hF : (fun y => output_layer_loss m N n o w (fun k => if k = j then y else b k) t) =
      fun y => 1 / 2 * ∑ k ∈ Finset.range n,
        (t k - 1 / (1 + Real.exp (-((∑ x ∈ Finset.range N, o x * w x k) +
          (if k = j then y else b k))))) ^ 2 := by
    funext y
    unfold output_layer_loss
    congr 1
    apply Finset.sum_congr rfl
    intro k _
    rw [f_logistic_real m hexp]
  have hval : (∑ x ∈ Finset.range N, o x * w x j) + b j =
      (∑ x ∈ Finset.range N, o x * w x j) + (if j = j then b j else b j) := by
    rw [if_pos rfl]
  rw [hF, f_logistic_real m hexp, hval]
  have key := hasDerivAt_layer_loss n t
    (fun k y => (∑ x ∈ Finset.range N, o x * w x k) + (if k = j then y else b k))
    j 1 (b j) hj
    (by
      intro k
      by_cases h : k = j
      · simp only [if_pos h]
        exact (hasDerivAt_id _).const_add _
      · simp only [if_neg h]
        exact hasDerivAt_const _ _)
  simpa using key

/-- The value of `RESCALE` for the range `-1/s .. 1/s` at a point between 0 and `R`. -/
theorem RESCALE_range (r R s : ℝ) (hr0 : 0 ≤ r) (hrR : r ≤ R) (hR : 0 < R) (hs : 0 < s) :
    -(1 / s) ≤ RESCALE r 0 R (-1 / s) (1 / s) ∧ RESCALE r 0 R (-1 / s) (1 / s) ≤ 1 / s := by
  unfold RESCALE
  have hc : 0 < 1 / s := by positivity
  have e : -1 / s + (r - 0) * (1 / s - -1 / s) / (R - 0) = -(1 / s) + (r / R) * (2 * (1 / s)) := by
    field_simp
    ring
  rw [e]
  have h0 : 0 ≤ r / R := div_nonneg hr0 hR.le
  have h1 : r / R ≤ 1 := (div_le_one hR).mpr hrR
  constructor
  · nlinarith
  · nlinarith

/-- The value of `RESCALE` at the lower end of the source interval. -/
theorem RESCALE_lower (R s : ℝ) : RESCALE 0 0 R (-1 / s) (1 / s) = -(1 / s) := by
  unfold RESCALE
  simp
  ring

/-- The value of `RESCALE` at the upper end of the source interval. -/
theorem RESCALE_upper (R s : ℝ) (hR : 0 < R) : RESCALE R 0 R (-1 / s) (1 / s) = 1 / s := by
  unfold RESCALE
  field_simp

/-- The loop of `create_layers` that draws the biases of layer `i`. -/
theorem bias_init_loop_spec (m : libc α) (i : Nat) (nn1 : neuralnet α) (k0 : Nat) (n : Nat)
    (hn : n ≤ nn1.layer_len i) :
    same_shape nn1
        (forLoop n
          (fun j (t : neuralnet α × Nat) =>
            (t.1.set_bias i j (INIT_VAL m t.2 (t.1.layer_len (i - 1))), t.2 + 1)) (nn1, k0)).1 ∧
      (forLoop n
          (fun j (t : neuralnet α × Nat) =>
            (t.1.set_bias i j (INIT_VAL m t.2 (t.1.layer_len (i - 1))), t.2 + 1)) (nn1, k0)).2 =
        k0 + n ∧
      ∀ l j, (forLoop n
          (fun j (t : neuralnet α × Nat) =>
            (t.1.set_bias i j (INIT_VAL m t.2 (t.1.layer_len (i - 1))), t.2 + 1))
          (nn1, k0)).1.bias l j =
        if l = i ∧ j < n then INIT_VAL m (k0 + j) (nn1.layer_len (i - 1)) else nn1.bias l j := by
  induction n with
  | zero =>
    refine ⟨same_shape_refl _, rfl, ?_⟩
    intro l j
    rw [if_neg (fun h => absurd h.2 (Nat.not_lt_zero _))]
    rfl
  | succ n ih =>
    obtain ⟨h1, h2, h3⟩ := ih (Nat.le_of_succ_le hn)
    simp only [forLoop]
    generalize forLoop n
      (fun j (t : neuralnet α × Nat) =>
        (t.1.set_bias i j (INIT_VAL m t.2 (t.1.layer_len (i - 1))), t.2 + 1)) (nn1, k0) = r
      at h1 h2 h3
    obtain ⟨t, c⟩ := r
    simp only at h1 h2 h3
    have hlen : ∀ l, t.layer_len l = nn1.layer_len l := h1.2.2.2.1
    refine ⟨same_shape_trans h1 (same_shape_set_bias _ _ _ _), by simp only; omega, ?_⟩
    intro l j
    simp only
    rw [bias_set_bias, hlen, hlen, h2]
    by_cases hc : l = i ∧ j = n
    · obtain ⟨rfl, rfl⟩ := hc
      rw [if_pos ⟨rfl, rfl, by omega⟩, if_pos ⟨rfl, Nat.lt_succ_self _⟩]
    · rw [if_neg (fun h => hc ⟨h.1, h.2.1⟩), h3]
      by_cases hd : l = i ∧ j < n
      · rw [if_pos hd, if_pos ⟨hd.1, by omega⟩]
      · rw [if_neg hd, if_neg]
        rintro ⟨e1, e2⟩
        rcases Nat.lt_succ_iff_lt_or_eq.mp e2 with e | e
        · exact hd ⟨e1, e⟩
        · exact hc ⟨e1, e⟩

/-- The biases of a layer that `calloc` has just allocated are 0. -/
theorem bias_set_layer_zero (nn : neuralnet α) (i n l j : Nat) (hi : i < nn.layers.length) :
    (nn.set_layer i (List.replicate n node.zero)).bias l j =
      if l = i then 0 else nn.bias l j := by
  unfold bias node_at set_layer
  dsimp only
  rw [getD_set_list]
  by_cases h : l = i
  · rw [if_pos ⟨h, hi⟩, if_pos h, List.getD_eq_getElem?_getD, List.getElem?_replicate]
    by_cases hj : j < n
    · rw [if_pos hj]; rfl
    · rw [if_neg hj]; rfl
  · rw [if_neg (fun hh => h hh.1), if_neg h]

/-- One token of the layout: the biases of the layers built so far are initial values. -/
theorem create_layers_token_init (m : libc α) (K i : Nat) (p : List Char)
    (s s1 : neuralnet α × Nat) (h : create_layers_token m K i p s = some s1)
    (hi : i ≤ K) (hK : s.1.nlayers = K) (hb : init_biases m s.1)
    (hempty : ∀ l, i ≤ l → s.1.layer_len l = 0) :
    i < K ∧ s1.1.nlayers = K ∧ init_biases m s1.1 ∧
      (∀ l, i + 1 ≤ l → s1.1.layer_len l = 0) ∧ s1.1.weights = s.1.weights := by
  unfold create_layers_token at h
  cases hsc : sscanf_d p with
  | none => rw [hsc] at h; exact absurd h (by simp)
  | some z =>
    rw [hsc] at h
    simp only at h
    by_cases hc : z < 1 ∨ i = K ∨ m.calloc z.toNat = false
    · rw [if_pos hc] at h; exact absurd h (by simp)
    · rw [if_neg hc] at h
      have hiK : i < K := by
        have : i ≠ K := fun e => hc (Or.inr (Or.inl e))
        omega
      have hil : i < s.1.layers.length := by
        have : s.1.layers.length = K := hK
        omega
      have hlen1 : ∀ l, (s.1.set_layer i (List.replicate z.toNat node.zero)).layer_len l =
          if l = i then z.toNat else s.1.layer_len l := by
        intro l
        rw [layer_len_set_layer _ _ _ _ hil, List.length_replicate]
      have hn1 : (s.1.set_layer i (List.replicate z.toNat node.zero)).nlayers = K := by
        rw [nlayers_set_layer]; exact hK
      have hbias1 : ∀ l j, (s.1.set_layer i (List.replicate z.toNat node.zero)).bias l j =
          if l = i then 0 else s.1.bias l j := fun l j => bias_set_layer_zero _ _ _ _ _ hil
      by_cases h0 : 0 < i
      · rw [if_pos h0] at h
        obtain ⟨g1, _, g3⟩ := bias_init_loop_spec m i
          (s.1.set_layer i (List.replicate z.toNat node.zero)) s.2
          ((s.1.set_layer i (List.replicate z.toNat node.zero)).layer_len i) (Nat.le_refl _)
        simp only [Option.some.injEq] at h
        rw [h] at g1 g3
        have hlen : ∀ l, s1.1.layer_len l = if l = i then z.toNat else s.1.layer_len l :=
          fun l => (g1.2.2.2.1 l).trans (hlen1 l)
        refine ⟨hiK, g1.2.2.1.trans hn1, ⟨?_, ?_⟩, ?_, ?_⟩
        · intro j
          rw [g3, if_neg (fun hh => by omega), hbias1, if_neg (by omega)]
          exact hb.1 j
        · intro l j hj
          rw [g3]
          by_cases hl : l + 1 = i
          · rw [hlen, if_pos hl] at hj
            have hli : ¬ l = i := by omega
            have e : i - 1 = l := by omega
            rw [hlen1 i, if_pos rfl, if_pos ⟨hl, hj⟩, e, hlen1 l, if_neg hli, hlen l,
              if_neg hli]
            exact ⟨_, rfl⟩
          · rw [hlen, if_neg hl] at hj
            rw [if_neg (fun hh => hl hh.1), hbias1, if_neg hl]
            have hli : l ≠ i := by
              intro e
              have := hempty (l + 1) (by omega)
              omega
            rw [hlen l, if_neg hli]
            exact hb.2 l j hj
        · intro l hl
          rw [hlen, if_neg (by omega)]
          exact hempty l (by omega)
        · have := (same_shape_refl s.1)
          have hw := bias_init_loop m i
            ((s.1.set_layer i (List.replicate z.toNat node.zero)), s.2)
            ((s.1.set_layer i (List.replicate z.toNat node.zero)).layer_len i)
          rw [h] at hw
          exact hw.2
      · rw [if_neg h0] at h
        simp only [Option.some.injEq] at h
        have hi0 : i = 0 := by omega
        subst hi0
        rw [← h]
        refine ⟨hiK, hn1, ⟨?_, ?_⟩, ?_, rfl⟩
        · intro j
          rw [hbias1, if_pos rfl]
        · intro l j hj
          rw [hlen1, if_neg (by omega)] at hj
          have := hempty (l + 1) (by omega)
          omega
        · intro l hl
          rw [hlen1, if_neg (by omega)]
          exact hempty l (by omega)

/-- The token loop of `create_layers` keeps the biases initial values. -/
theorem create_layers_loop_init (m : libc α) (K : Nat) (toks : List (List Char)) :
    ∀ (i : Nat) (s s1 : neuralnet α × Nat), create_layers_loop m K toks i s = some s1 →
      i ≤ K → s.1.nlayers = K → init_biases m s.1 → (∀ l, i ≤ l → s.1.layer_len l = 0) →
      s1.1.nlayers = K ∧ init_biases m s1.1 ∧ s1.1.weights = s.1.weights := by
  induction toks with
  | nil =>
    intro i s s1 h _ hK hb _
    simp only [create_layers_loop, Option.some.injEq] at h
    rw [← h]
    exact ⟨hK, hb, rfl⟩
  | cons p rest ih =>
    intro i s s1 h hi hK hb hempty
    rw [create_layers_loop] at h
    cases htok : create_layers_token m K i p s with
    | none => rw [htok] at h; exact absurd h (by simp)
    | some s2 =>
      rw [htok] at h
      obtain ⟨a1, a2, a3, a4, a5⟩ := create_layers_token_init m K i p s s2 htok hi hK hb hempty
      obtain ⟨b1, b2, b3⟩ := ih (i + 1) s2 s1 h a1 a2 a3 a4
      exact ⟨b1, b2, b3.trans a5⟩

namespace neuralnet

/-- Reading a value of a weight matrix after one assignment. -/
theorem value_set_value (nn : neuralnet α) (i j : Nat) (v : α) (l x : Nat) :
    (nn.set_value i j v).value l x =
      if l = i ∧ x = j ∧ j < nn.weights_len i then v else nn.value l x := by
  unfold value set_value weights_len
  dsimp only
  rw [getD_set_list]
  by_cases hl : l = i
  · subst hl
    by_cases h2 : l < nn.weights.length
    · rw [if_pos ⟨rfl, h2⟩, getD_set_list]
      by_cases h3 : x = j ∧ j < (nn.weights.getD l []).length
      · rw [if_pos h3, if_pos ⟨rfl, h3⟩]
      · rw [if_neg h3, if_neg (fun h => h3 h.2)]
    · have h4 : nn.weights.getD l [] = [] := by
        rw [List.getD_eq_getElem?_getD]
        have : nn.weights[l]? = none := by simp; omega
        simp [this]
      rw [if_neg (fun h => h2 h.2), h4]
      simp
  · rw [if_neg (fun h => hl h.1), if_neg (fun h => hl h.1)]

/-- An assignment to a value keeps the length of every weight matrix. -/
theorem weights_len_set_value (nn : neuralnet α) (i j : Nat) (v : α) (l : Nat) :
    (nn.set_value i j v).weights_len l = nn.weights_len l := by
  simp only [weights_len, set_value, getD_set_list]
  split
  · rename_i h; rw [h.1]; simp
  · rfl

/-- Reading a value of a weight matrix after the matrix `i` has been replaced. -/
theorem value_set_matrix (nn : neuralnet α) (i : Nat) (vals : List α) (l x : Nat) :
    (nn.set_matrix i vals).value l x =
      if l = i ∧ i < nn.nweights then vals.getD x 0 else nn.value l x := by
  unfold value set_matrix nweights
  dsimp only
  rw [getD_set_list]
  by_cases h : l = i ∧ i < nn.weights.length
  · rw [if_pos h, if_pos h]
  · rw [if_neg h, if_neg h]

/-- The length of a weight matrix after the matrix `i` has been replaced. -/
theorem weights_len_set_matrix (nn : neuralnet α) (i : Nat) (vals : List α) (l : Nat) :
    (nn.set_matrix i vals).weights_len l =
      if l = i ∧ i < nn.nweights then vals.length else nn.weights_len l := by
  unfold weights_len set_matrix nweights
  dsimp only
  rw [getD_set_list]
  by_cases h : l = i ∧ i < nn.weights.length
  · rw [if_pos h, if_pos h]
  · rw [if_neg h, if_neg h]

end neuralnet

/-- The loop of `create_weights` that draws the values of the matrix `i`. -/
theorem weights_fill_loop_spec (m : libc α) (i : Nat) (nn1 : neuralnet α) (k0 : Nat) (n : Nat)
    (hn : n ≤ nn1.weights_len i) :
    (forLoop n
        (fun j (t : neuralnet α × Nat) =>
          (t.1.set_value i j (INIT_VAL m t.2 (t.1.layer_len i)), t.2 + 1)) (nn1, k0)).1.layers =
        nn1.layers ∧
      (∀ l, (forLoop n
        (fun j (t : neuralnet α × Nat) =>
          (t.1.set_value i j (INIT_VAL m t.2 (t.1.layer_len i)), t.2 + 1))
          (nn1, k0)).1.weights_len l = nn1.weights_len l) ∧
      (forLoop n
        (fun j (t : neuralnet α × Nat) =>
          (t.1.set_value i j (INIT_VAL m t.2 (t.1.layer_len i)), t.2 + 1)) (nn1, k0)).2 =
        k0 + n ∧
      ∀ l x, (forLoop n
        (fun j (t : neuralnet α × Nat) =>
          (t.1.set_value i j (INIT_VAL m t.2 (t.1.layer_len i)), t.2 + 1))
          (nn1, k0)).1.value l x =
        if l = i ∧ x < n then INIT_VAL m (k0 + x) (nn1.layer_len i) else nn1.value l x := by
  induction n with
  | zero =>
    refine ⟨rfl, fun _ => rfl, rfl, ?_⟩
    intro l x
    rw [if_neg (fun h => absurd h.2 (Nat.not_lt_zero _))]
    rfl
  | succ n ih =>
    obtain ⟨h1, h2, h3, h4⟩ := ih (Nat.le_of_succ_le hn)
    simp only [forLoop]
    generalize forLoop n
      (fun j (t : neuralnet α × Nat) =>
        (t.1.set_value i j (INIT_VAL m t.2 (t.1.layer_len i)), t.2 + 1)) (nn1, k0) = r
      at h1 h2 h3 h4
    obtain ⟨t, c⟩ := r
    simp only at h1 h2 h3 h4
    refine ⟨h1, fun l => (weights_len_set_value _ _ _ _ _).trans (h2 l), by simp only; omega, ?_⟩
    intro l x
    simp only
    rw [value_set_value, h2, layer_len_of_layers h1, h3]
    by_cases hc : l = i ∧ x = n
    · obtain ⟨rfl, rfl⟩ := hc
      rw [if_pos ⟨rfl, rfl, by omega⟩, if_pos ⟨rfl, Nat.lt_succ_self _⟩]
    · rw [if_neg (fun h => hc ⟨h.1, h.2.1⟩), h4]
      by_cases hd : l = i ∧ x < n
      · rw [if_pos hd, if_pos ⟨hd.1, by omega⟩]
      · rw [if_neg hd, if_neg]
        rintro ⟨e1, e2⟩
        rcases Nat.lt_succ_iff_lt_or_eq.mp e2 with e | e
        · exact hd ⟨e1, e⟩
        · exact hc ⟨e1, e⟩

/-- One matrix of `create_weights`: the values built so far are initial values. -/
theorem create_weights_matrix_init (m : libc α) (i : Nat) (s s1 : neuralnet α × Nat)
    (h : create_weights_matrix m i s = some s1) (hw : init_weights m s.1) :
    s1.1.layers = s.1.layers ∧ init_weights m s1.1 := by
  unfold create_weights_matrix at h
  simp only at h
  by_cases hc : wrap32 ((s.1.layer_len i : Int) * (s.1.layer_len (i + 1) : Int)) < 0 ∨
      m.calloc (wrap32 ((s.1.layer_len i : Int) * (s.1.layer_len (i + 1) : Int))).toNat = false
  · rw [if_pos hc] at h; exact absurd h (by simp)
  · rw [if_neg hc] at h
    simp only [Option.some.injEq] at h
    generalize (wrap32 ((s.1.layer_len i : Int) * (s.1.layer_len (i + 1) : Int))).toNat = len
      at h
    obtain ⟨g1, g2, _, g4⟩ := weights_fill_loop_spec m i
      (s.1.set_matrix i (List.replicate len 0)) s.2
      ((s.1.set_matrix i (List.replicate len 0)).weights_len i) (Nat.le_refl _)
    rw [h] at g1 g2 g4
    have hlay : s1.1.layers = s.1.layers := g1
    refine ⟨hlay, ?_⟩
    intro l x hx
    rw [g2] at hx
    rw [g4, layer_len_of_layers hlay]
    by_cases hli : l = i
    · subst hli
      rw [if_pos ⟨rfl, hx⟩]
      exact ⟨_, rfl⟩
    · rw [weights_len_set_matrix, if_neg (fun hh => hli hh.1)] at hx
      rw [if_neg (fun hh => hli hh.1), value_set_matrix, if_neg (fun hh => hli hh.1)]
      exact hw l x hx

/-- The matrix loop of `create_weights` keeps the values initial values. -/
theorem create_weights_loop_init (m : libc α) (n : Nat) :
    ∀ (s s1 : neuralnet α × Nat), forLoopOpt n (create_weights_matrix m) s = some s1 →
      init_weights m s.1 → s1.1.layers = s.1.layers ∧ init_weights m s1.1 := by
  induction n with
  | zero =>
    intro s s1 h hw
    simp only [forLoopOpt, Option.some.injEq] at h
    rw [← h]
    exact ⟨rfl, hw⟩
  | succ n ih =>
    intro s s1 h hw
    rw [forLoopOpt_succ] at h
    cases hprev : forLoopOpt n (create_weights_matrix m) s with
    | none => rw [hprev] at h; exact absurd h (by simp)
    | some s2 =>
      rw [hprev, Option.some_bind] at h
      obtain ⟨a1, a2⟩ := ih s s2 hprev hw
      obtain ⟨b1, b2⟩ := create_weights_matrix_init m n s2 s1 h a2
      exact ⟨b1.trans a1, b2⟩

/-- The predicate `init_biases` depends on the layers only. -/
theorem init_biases_of_layers (m : libc α) {s t : neuralnet α} (h : t.layers = s.layers)
    (hb : init_biases m s) : init_biases m t := by
  refine ⟨fun j => (bias_of_layers h 0 j).trans (hb.1 j), fun l j hj => ?_⟩
  rw [layer_len_of_layers h] at hj
  rw [bias_of_layers h, layer_len_of_layers h]
  exact hb.2 l j hj

/-- The predicate `init_weights` depends on the layers and the weights only. -/
theorem init_weights_of_eq (m : libc α) {s t : neuralnet α} (hl : t.layers = s.layers)
    (hw : t.weights = s.weights) (hi : init_weights m s) : init_weights m t := by
  intro l x hx
  rw [weights_len_of_weights hw] at hx
  have e : t.value l x = s.value l x := by unfold value; rw [hw]
  rw [e, layer_len_of_layers hl]
  exact hi l x hx

/-- Every layer of a freshly allocated layer array is empty. -/
theorem layer_len_replicate_nil (nn : neuralnet α) (K l : Nat) :
    ({ nn with layers := List.replicate K [] } : neuralnet α).layer_len l = 0 := by
  unfold layer_len
  dsimp only
  rw [List.getD_eq_getElem?_getD]
  cases h : (List.replicate K ([] : List (node α)))[l]? with
  | none => rfl
  | some v =>
    have := List.getElem?_replicate (a := ([] : List (node α))) (n := K) (m := l)
    rw [this] at h
    split at h
    · cases h; rfl
    · cases h

/-- Every matrix of a freshly allocated matrix array is empty. -/
theorem weights_len_replicate_nil (nn : neuralnet α) (K l : Nat) :
    ({ nn with weights := List.replicate K [] } : neuralnet α).weights_len l = 0 := by
  unfold weights_len
  dsimp only
  rw [List.getD_eq_getElem?_getD]
  cases h : (List.replicate K ([] : List α))[l]? with
  | none => rfl
  | some v =>
    have := List.getElem?_replicate (a := ([] : List α)) (n := K) (m := l)
    rw [this] at h
    split at h
    · cases h; rfl
    · cases h

/-- Reading a bias in a freshly allocated layer array gives 0. -/
theorem bias_replicate_nil (nn : neuralnet α) (K l j : Nat) :
    ({ nn with layers := List.replicate K [] } : neuralnet α).bias l j = 0 := by
  have h0 := layer_len_replicate_nil nn K l
  unfold layer_len at h0
  unfold bias node_at
  rw [List.length_eq_zero.mp h0]
  rfl

/-- The biases that `create_layers` leaves are initial values. -/
theorem create_layers_init (m : libc α) (nn : neuralnet α) (layout : String) (seed : Nat)
    (s1 : neuralnet α × Nat) (h : create_layers m nn layout seed = some s1) :
    init_biases m s1.1 := by
  unfold create_layers at h
  simp only at h
  split at h
  · exact absurd h (by simp)
  · split at h
    · exact absurd h (by simp)
    · split at h
      · exact absurd h (by simp)
      · refine (create_layers_loop_init m _ _ 0 _ s1 h (Nat.zero_le _) ?_ ?_ ?_).2.1
        · simp [nlayers]
        · exact ⟨fun j => bias_replicate_nil nn _ 0 j, fun l j hj => by
            rw [layer_len_replicate_nil] at hj; exact absurd hj (Nat.not_lt_zero _)⟩
        · intro l _
          exact layer_len_replicate_nil nn _ l

/-- The values that `create_weights` leaves are initial values. -/
theorem create_weights_init (m : libc α) (s s1 : neuralnet α × Nat)
    (h : create_weights m s = some s1) :
    s1.1.layers = s.1.layers ∧ init_weights m s1.1 := by
  unfold create_weights at h
  split at h
  · exact absurd h (by simp)
  · exact create_weights_loop_init m _
      (({ s.1 with weights := List.replicate (s.1.nlayers - 1) [] } : neuralnet α), s.2) s1 h
      (fun l x hx => by
        have h0 : ({ s.1 with weights := List.replicate (s.1.nlayers - 1) [] } :
            neuralnet α).weights_len l = 0 := weights_len_replicate_nil s.1 _ l
        have hx1 : x < ({ s.1 with weights := List.replicate (s.1.nlayers - 1) [] } :
            neuralnet α).weights_len l := hx
        rw [h0] at hx1
        exact absurd hx1 (Nat.not_lt_zero _))

/-- The biases and weights of a network returned by `neuralnet_create`. -/
theorem neuralnet_create_init (m : libc α) (params : Option (hyperparams α))
    (nn : neuralnet α) (h : neuralnet_create m params = some nn) :
    init_biases m nn ∧ init_weights m nn := by
  cases params with
  | none => exact absurd h (by simp [neuralnet_create])
  | some p =>
    simp only [neuralnet_create] at h
    cases hlay : p.layout with
    | none => rw [hlay] at h; exact absurd h (by simp)
    | some layout =>
      rw [hlay] at h
      simp only at h
      split at h
      · exact absurd h (by simp)
      · cases hcl : create_layers m (⟨[], [], .SIGMOID_LOGISTIC, 0⟩ : neuralnet α) layout 0 with
        | none => rw [hcl] at h; exact absurd h (by simp)
        | some s1 =>
          rw [hcl] at h
          simp only at h
          cases hcw : create_weights m s1 with
          | none => rw [hcw] at h; exact absurd h (by simp)
          | some s2 =>
            rw [hcw] at h
            simp only [Option.some.injEq] at h
            have hb := create_layers_init m _ layout 0 s1 hcl
            obtain ⟨hl, hw⟩ := create_weights_init m s1 s2 hcw
            rw [← h]
            exact ⟨init_biases_of_layers m (hl : _ = _) hb,
              init_weights_of_eq m rfl rfl hw⟩

/-- The derivative at 0 of a node whose inputs, weights and bias change with the parameter:
the weights and the bias change linearly, and the activation function `f` has the derivative
`c` at the weighted sum of the node. -/
theorem hasDerivAt_path_node (f : ℝ → ℝ) (c : ℝ) (N : Nat) (g : Nat → ℝ → ℝ) (d : Nat → ℝ)
    (W U : Nat → ℝ) (b V : ℝ) (hg : ∀ i, i < N → HasDerivAt (g i) (d i) 0)
    (hf : HasDerivAt f c ((∑ i ∈ Finset.range N, g i 0 * W i) + b)) :
    HasDerivAt
      (fun lr : ℝ =>
        f ((∑ i ∈ Finset.range N, g i lr * (W i - lr * U i)) + (b - lr * V)))
      (c * ((∑ i ∈ Finset.range N, (d i * W i - g i 0 * U i)) - V)) 0 := by
  have hw : ∀ i, HasDerivAt (fun lr : ℝ => W i - lr * U i) (-(U i)) 0 := fun i => by
    have h := ((hasDerivAt_id (0 : ℝ)).mul_const (U i)).const_sub (W i)
    simpa using h
  have hsum : HasDerivAt (fun lr : ℝ => ∑ i ∈ Finset.range N, g i lr * (W i - lr * U i))
      (∑ i ∈ Finset.range N, (d i * (W i - 0 * U i) + g i 0 * -(U i))) 0 :=
    HasDerivAt.sum (fun i hi => (hg i (Finset.mem_range.mp hi)).mul (hw i))
  have hb : HasDerivAt (fun lr : ℝ => b - lr * V) (-V) 0 := by
    have h := ((hasDerivAt_id (0 : ℝ)).mul_const V).const_sub b
    simpa using h
  have hin := hsum.add hb
  have e0 : (∑ i ∈ Finset.range N, g i 0 * (W i - 0 * U i)) + (b - 0 * V) =
      (∑ i ∈ Finset.range N, g i 0 * W i) + b := by
    simp
  have hout : HasDerivAt f c
      ((∑ i ∈ Finset.range N, g i 0 * (W i - 0 * U i)) + (b - 0 * V)) := by
    rw [e0]; exact hf
  have hcomp := HasDerivAt.comp (0 : ℝ) hout hin
  convert hcomp using 1
  congr 1
  rw [sub_eq_add_neg]
  congr 1
  apply Finset.sum_congr rfl
  intro i _
  ring

/-- The derivative of the hyperbolic tangent. -/
theorem hasDerivAt_tanh (x : ℝ) : HasDerivAt Real.tanh (1 - Real.tanh x * Real.tanh x) x := by
  have hc : Real.cosh x ≠ 0 := ne_of_gt (Real.cosh_pos x)
  have h := (Real.hasDerivAt_sinh x).div (Real.hasDerivAt_cosh x) hc
  have hv : 1 - Real.tanh x * Real.tanh x =
      (Real.cosh x * Real.cosh x - Real.sinh x * Real.sinh x) / Real.cosh x ^ 2 := by
    rw [Real.tanh_eq_sinh_div_cosh, eq_div_iff (pow_ne_zero 2 hc), sub_mul, one_mul,
      div_mul_div_comm, ← pow_two (Real.cosh x), div_mul_cancel₀ _ (pow_ne_zero 2 hc)]
  have e : Real.tanh = fun y => Real.sinh y / Real.cosh y :=
    funext (fun y => Real.tanh_eq_sinh_div_cosh y)
  rw [hv, e]
  exact h

/-- The square of the hyperbolic tangent is below 1. -/
theorem tanh_mul_self_lt_one (x : ℝ) : Real.tanh x * Real.tanh x < 1 := by
  have hc : 0 < Real.cosh x := Real.cosh_pos x
  rw [Real.tanh_eq_sinh_div_cosh, div_mul_div_comm, div_lt_one (mul_pos hc hc)]
  have := Real.cosh_sq x
  nlinarith

/-- The derivative of the loss of a layer whose outputs all change with the parameter. -/
theorem hasDerivAt_path_loss (n : Nat) (t : Nat → ℝ) (G : Nat → ℝ → ℝ) (d : Nat → ℝ) (w : ℝ)
    (hG : ∀ k, k < n → HasDerivAt (G k) (d k) w) :
    HasDerivAt (fun y => 1 / 2 * ∑ k ∈ Finset.range n, (t k - G k y) ^ 2)
      (∑ k ∈ Finset.range n, (G k w - t k) * d k) w := by
  have h1 : HasDerivAt (fun y => ∑ k ∈ Finset.range n, (t k - G k y) ^ 2)
      (∑ k ∈ Finset.range n, 2 * (t k - G k w) ^ 1 * -(d k)) w :=
    HasDerivAt.sum (fun k hk => by
      have h := ((hG k (Finset.mem_range.mp hk)).const_sub (t k)).pow 2
      simpa using h)
  have h2 := h1.const_mul (1 / 2 : ℝ)
  convert h2 using 1
  rw [Finset.mul_sum]
  apply Finset.sum_congr rfl
  intro k _
  ring

/-- A function with a negative derivative at 0 is smaller than at 0 for every small positive
argument. -/
theorem decrease_of_deriv_neg (φ : ℝ → ℝ) (c : ℝ) (h : HasDerivAt φ c 0) (hc : c < 0) :
    ∃ eps : ℝ, 0 < eps ∧ ∀ lr, 0 < lr → lr < eps → φ lr < φ 0 := by
  have h1 := hasDerivAt_iff_tendsto_slope.mp h
  have h2 : ∀ᶠ x in nhdsWithin (0 : ℝ) {0}ᶜ, slope φ 0 x < 0 :=
    h1.eventually (Iio_mem_nhds hc)
  rw [eventually_nhdsWithin_iff, Metric.eventually_nhds_iff] at h2
  obtain ⟨eps, heps, hball⟩ := h2
  refine ⟨eps, heps, fun lr h0 hlt => ?_⟩
  have hd : dist lr 0 < eps := by
    rw [Real.dist_eq, sub_zero, abs_of_pos h0]; exact hlt
  have hs := hball hd (ne_of_gt h0)
  rw [slope_def_field, sub_zero] at hs
  have := (div_neg_iff.mp hs)
  rcases this with ⟨_, h4⟩ | ⟨h3, _⟩
  · exact absurd h0 (not_lt.mpr h4.le)
  · linarith

/-- A function with a positive derivative at 0 is larger than at 0 for every small positive
argument. -/
theorem increase_of_deriv_pos (φ : ℝ → ℝ) (c : ℝ) (h : HasDerivAt φ c 0) (hc : 0 < c) :
    ∃ eps : ℝ, 0 < eps ∧ ∀ lr, 0 < lr → lr < eps → φ 0 < φ lr := by
  obtain ⟨eps, heps, hlt⟩ := decrease_of_deriv_neg (fun x => -φ x) (-c) h.neg (by linarith)
  exact ⟨eps, heps, fun lr h0 h1 => by have := hlt lr h0 h1; linarith⟩

/-- The parameters after the forward and the backward pass on a network `nl` that has the
layers, the weights and the activation function of `nn`, in terms of the reference functions
of `nn`. -/
theorem train_params_of (m : libc α) (nn nl : neuralnet α) (feature label : vecd α)
    (hwf : nn.wf) (hf : feature.length = nn.layer_len 0) (hlay : nl.layers = nn.layers)
    (hwts : nl.weights = nn.weights) (hfun : nl.func_id = nn.func_id) :
    (backpropagate (feedforward m nl feature) label).func_id = nn.func_id ∧
    (backpropagate (feedforward m nl feature) label).nlayers = nn.nlayers ∧
    (∀ l, (backpropagate (feedforward m nl feature) label).layer_len l = nn.layer_len l) ∧
    (∀ p i j, p + 1 < nn.nlayers → i < nn.layer_len p → j < nn.layer_len (p + 1) →
      (backpropagate (feedforward m nl feature) label).WEIGHT_AT p i j =
        nn.WEIGHT_AT p i j -
          nl.learn * (ref_D nn (ref_out m nn feature (nn.nlayers - 1)) label (p + 1) j *
            activation_derivative nn.func_id (ref_out m nn feature (p + 1) j) *
            ref_out m nn feature p i)) ∧
    ∀ l j, 1 ≤ l → l < nn.nlayers → j < nn.layer_len l →
      (backpropagate (feedforward m nl feature) label).bias l j =
        nn.bias l j -
          nl.learn * (ref_D nn (ref_out m nn feature (nn.nlayers - 1)) label l j *
            activation_derivative nn.func_id (ref_out m nn feature l j)) := by
  have hlen : ∀ l, nl.layer_len l = nn.layer_len l := layer_len_of_layers hlay
  have hnl : nl.nlayers = nn.nlayers := nlayers_of_layers hlay
  have hwfl : nl.wf :=
    ⟨by rw [hnl]; exact hwf.1, fun l hl => by rw [hlen]; exact hwf.2 l (by rw [← hnl]; exact hl),
      by rw [nweights_of_weights hwts, hnl]; exact hwf.3,
      fun p hp => by
        rw [weights_len_of_weights hwts, hlen, hlen]
        exact hwf.4 p (by rw [← nweights_of_weights hwts]; exact hp)⟩
  have hfl : feature.length = nl.layer_len 0 := by rw [hlen]; exact hf
  obtain ⟨t1, t2, t3⟩ := train_spec m nl feature label hwfl hfl
  obtain ⟨f1, f2⟩ := feedforward_spec m nl feature hfl
  have hs := same_shape_of_only_out f1
  obtain ⟨b1, _⟩ := backpropagate_spec (feedforward m nl feature)
    (wf_of_same_shape hs hwfl) label
  have hW : ∀ p i j, nl.WEIGHT_AT p i j = nn.WEIGHT_AT p i j := WEIGHT_AT_congr nn nl hwts hlen
  have hb : ∀ l j, nl.bias l j = nn.bias l j := bias_of_layers hlay
  have ho : ∀ l j, ref_out m nl feature l j = ref_out m nn feature l j :=
    fun l j => ref_out_ext m nn nl feature hwts hfun hlen hb l j
  have hD : ∀ l j, l < nn.nlayers → j < nn.layer_len l →
      ref_D nl (ref_out m nl feature (nl.nlayers - 1)) label l j =
      ref_D nn (ref_out m nn feature (nn.nlayers - 1)) label l j :=
    fun l j hl hj => ref_D_congr nn nl _ _ label hnl hlen hW
      (fun x _ => by rw [hnl]; exact ho _ x) l j hl hj
  have hL := hwf.nlayers_ge
  refine ⟨(b1.1.trans hs.1).trans hfun, (b1.2.2.1.trans hs.2.2.1).trans hnl,
    fun l => ((b1.2.2.2.1 l).trans (hs.2.2.2.1 l)).trans (hlen l), ?_, ?_⟩
  · intro p i j hp hi hj
    rw [t2 p i j (by rw [hnl]; exact hp) (by rw [hlen]; exact hi) (by rw [hlen]; exact hj),
      t1 (p + 1) j (by omega) (by rw [hnl]; exact hp) (by rw [hlen]; exact hj),
      f2 (p + 1) (by rw [hnl]; exact hp) j (by rw [hlen]; exact hj),
      f2 p (by rw [hnl]; omega) i (by rw [hlen]; exact hi), ho, ho, hD (p + 1) j hp hj, hW,
      hfun]
    ring
  · intro l j hl hlL hj
    rw [t3 l j hl (by rw [hnl]; exact hlL) (by rw [hlen]; exact hj),
      t1 l j hl (by rw [hnl]; exact hlL) (by rw [hlen]; exact hj),
      f2 l (by rw [hnl]; exact hlL) j (by rw [hlen]; exact hj), ho, hD l j hlL hj, hb, hfun]
    ring

/-- The parameters of the network after one training step with the learning rate `lr`, in
terms of the reference functions of the network before the step. -/
theorem train_result_params (m : libc α) (nn : neuralnet α) (feature label : vecd α)
    (hwf : nn.wf) (hf : feature.length = nn.layer_len 0) (lr : α) :
    (train_result m nn lr feature label).func_id = nn.func_id ∧
    (train_result m nn lr feature label).nlayers = nn.nlayers ∧
    (∀ l, (train_result m nn lr feature label).layer_len l = nn.layer_len l) ∧
    (∀ p i j, p + 1 < nn.nlayers → i < nn.layer_len p → j < nn.layer_len (p + 1) →
      (train_result m nn lr feature label).WEIGHT_AT p i j =
        nn.WEIGHT_AT p i j -
          lr * (ref_D nn (ref_out m nn feature (nn.nlayers - 1)) label (p + 1) j *
            activation_derivative nn.func_id (ref_out m nn feature (p + 1) j) *
            ref_out m nn feature p i)) ∧
    ∀ l j, 1 ≤ l → l < nn.nlayers → j < nn.layer_len l →
      (train_result m nn lr feature label).bias l j =
        nn.bias l j -
          lr * (ref_D nn (ref_out m nn feature (nn.nlayers - 1)) label l j *
            activation_derivative nn.func_id (ref_out m nn feature l j)) :=
  train_params_of m nn { nn with learn := lr } feature label hwf hf rfl rfl rfl

/-- The output of a node after one training step with the learning rate `lr`, as the
activation function of the weighted sum with the updated weights and bias. -/
theorem train_result_out_succ (m : libc α) (nn : neuralnet α)
    (feature label : vecd α) (hwf : nn.wf) (hf : feature.length = nn.layer_len 0)
    (p j : Nat) (hp : p + 1 < nn.nlayers) (hj : j < nn.layer_len (p + 1)) (lr : α) :
    ref_out m (train_result m nn lr feature label) feature (p + 1) j =
      activation_function m nn.func_id ((∑ i ∈ Finset.range (nn.layer_len p),
        ref_out m (train_result m nn lr feature label) feature p i *
          (nn.WEIGHT_AT p i j -
            lr * (ref_D nn (ref_out m nn feature (nn.nlayers - 1)) label (p + 1) j *
              activation_derivative nn.func_id (ref_out m nn feature (p + 1) j) *
              ref_out m nn feature p i))) +
        (nn.bias (p + 1) j -
          lr * (ref_D nn (ref_out m nn feature (nn.nlayers - 1)) label (p + 1) j *
            activation_derivative nn.func_id (ref_out m nn feature (p + 1) j)))) := by
  obtain ⟨r1, _, r3, r4, r5⟩ := train_result_params m nn feature label hwf hf lr
  have es : (∑ i ∈ Finset.range (nn.layer_len p),
      ref_out m (train_result m nn lr feature label) feature p i *
        (train_result m nn lr feature label).WEIGHT_AT p i j) =
      ∑ i ∈ Finset.range (nn.layer_len p),
        ref_out m (train_result m nn lr feature label) feature p i *
          (nn.WEIGHT_AT p i j -
            lr * (ref_D nn (ref_out m nn feature (nn.nlayers - 1)) label (p + 1) j *
              activation_derivative nn.func_id (ref_out m nn feature (p + 1) j) *
              ref_out m nn feature p i)) :=
    Finset.sum_congr rfl (fun i hi => by
      rw [r4 p i j hp (Finset.mem_range.mp hi) hj])
  have eb := r5 (p + 1) j (by omega) hp hj
  rw [show ref_out m (train_result m nn lr feature label) feature (p + 1) j =
    activation_function m (train_result m nn lr feature label).func_id
      ((∑ i ∈ Finset.range ((train_result m nn lr feature label).layer_len p),
        ref_out m (train_result m nn lr feature label) feature p i *
          (train_result m nn lr feature label).WEIGHT_AT p i j) +
        (train_result m nn lr feature label).bias (p + 1) j) from rfl,
    r1, r3, es, eb]

/-- With the learning rate 0 the training step leaves the outputs as they are. -/
theorem train_result_out_zero (m : libc α) (nn : neuralnet α)
    (feature label : vecd α) (hwf : nn.wf) (hf : feature.length = nn.layer_len 0) (l : Nat) :
    l < nn.nlayers → ∀ j, j < nn.layer_len l →
      ref_out m (train_result m nn 0 feature label) feature l j = ref_out m nn feature l j := by
  induction l with
  | zero => intro _ j _; rfl
  | succ p ih =>
    intro hp j hj
    rw [train_result_out_succ m nn feature label hwf hf p j hp hj 0]
    have es : ∀ i ∈ Finset.range (nn.layer_len p),
        ref_out m (train_result m nn 0 feature label) feature p i *
          (nn.WEIGHT_AT p i j -
            0 * (ref_D nn (ref_out m nn feature (nn.nlayers - 1)) label (p + 1) j *
              activation_derivative nn.func_id (ref_out m nn feature (p + 1) j) *
              ref_out m nn feature p i)) =
          ref_out m nn feature p i * nn.WEIGHT_AT p i j := fun i hi => by
      rw [ih (by omega) i (Finset.mem_range.mp hi), zero_mul, sub_zero]
    rw [Finset.sum_congr rfl es, zero_mul, sub_zero]
    rfl

/-- The output of a logistic node as the logistic function of its weighted sum. -/
theorem ref_out_succ_logistic (m : libc ℝ) (hexp : m.exp = Real.exp) (nn : neuralnet ℝ)
    (feature : vecd ℝ) (hlog : nn.func_id = .SIGMOID_LOGISTIC) (p j : Nat) :
    ref_out m nn feature (p + 1) j =
      1 / (1 + Real.exp (-((∑ i ∈ Finset.range (nn.layer_len p),
        ref_out m nn feature p i * nn.WEIGHT_AT p i j) + nn.bias (p + 1) j))) := by
  rw [show ref_out m nn feature (p + 1) j =
    activation_function m nn.func_id
      ((∑ i ∈ Finset.range (nn.layer_len p),
        ref_out m nn feature p i * nn.WEIGHT_AT p i j) + nn.bias (p + 1) j) from rfl, hlog]
  exact f_logistic_real m hexp _

/-- The function `d_logistic` is positive at every value of the logistic function. -/
theorem d_logistic_pos (a : ℝ) : 0 < d_logistic (1 / (1 + Real.exp (-a))) := by
  unfold d_logistic
  have hE : 0 < Real.exp (-a) := Real.exp_pos _
  have h1 : 0 < 1 / (1 + Real.exp (-a)) := by positivity
  have h2 : 1 / (1 + Real.exp (-a)) < 1 := by
    rw [div_lt_one (by positivity)]; linarith
  exact mul_pos h1 (by linarith)

/-- The function `d_logistic` is positive at the output of every logistic node. -/
theorem d_logistic_out_pos (m : libc ℝ) (hexp : m.exp = Real.exp) (nn : neuralnet ℝ)
    (feature : vecd ℝ) (hlog : nn.func_id = .SIGMOID_LOGISTIC) (p j : Nat) :
    0 < d_logistic (ref_out m nn feature (p + 1) j) := by
  rw [ref_out_succ_logistic m hexp nn feature hlog p j]
  exact d_logistic_pos _

/-- The nodes of a network with logistic activation are regular. -/
theorem nodes_regular_logistic (m : libc ℝ) (hexp : m.exp = Real.exp) (nn : neuralnet ℝ)
    (feature : vecd ℝ) (hlog : nn.func_id = .SIGMOID_LOGISTIC) :
    nodes_regular m nn feature := by
  intro p j _ _
  refine ⟨?_, ?_⟩
  · rw [ref_out_succ_logistic m hexp nn feature hlog p j, hlog]
    have e : activation_function m .SIGMOID_LOGISTIC = fun y : ℝ => 1 / (1 + Real.exp (-y)) :=
      funext (fun y => f_logistic_real m hexp y)
    rw [e]
    exact hasDerivAt_logistic _
  · rw [hlog]
    exact d_logistic_out_pos m hexp nn feature hlog p j

/-- The nodes of a network with tanh activation are regular when no node after the input
layer has the output 0. -/
theorem nodes_regular_tanh (m : libc ℝ) (htanh : m.tanh = Real.tanh) (nn : neuralnet ℝ)
    (feature : vecd ℝ) (hfun : nn.func_id = .SIGMOID_TANH)
    (hne : ∀ p j, p + 1 < nn.nlayers → j < nn.layer_len (p + 1) →
      ref_out m nn feature (p + 1) j ≠ 0) :
    nodes_regular m nn feature := by
  intro p j hp hj
  have hout : ref_out m nn feature (p + 1) j =
      Real.tanh ((∑ i ∈ Finset.range (nn.layer_len p),
        ref_out m nn feature p i * nn.WEIGHT_AT p i j) + nn.bias (p + 1) j) := by
    rw [show ref_out m nn feature (p + 1) j =
      activation_function m nn.func_id
        ((∑ i ∈ Finset.range (nn.layer_len p),
          ref_out m nn feature p i * nn.WEIGHT_AT p i j) + nn.bias (p + 1) j) from rfl, hfun]
    show m.tanh _ = _
    rw [htanh]
  have hd : activation_derivative nn.func_id (ref_out m nn feature (p + 1) j) =
      1 - ref_out m nn feature (p + 1) j * ref_out m nn feature (p + 1) j := by
    rw [hfun]
    exact d_tanh_of_ne_zero _ (hne p j hp hj)
  have hact : activation_function m nn.func_id = Real.tanh := by
    rw [hfun]
    show f_tanh m = _
    funext y
    show m.tanh y = _
    rw [htanh]
  rw [hd, hact]
  refine ⟨?_, ?_⟩
  · rw [hout]
    exact hasDerivAt_tanh _
  · rw [hout]
    have := tanh_mul_self_lt_one ((∑ i ∈ Finset.range (nn.layer_len p),
      ref_out m nn feature p i * nn.WEIGHT_AT p i j) + nn.bias (p + 1) j)
    linarith

/-- The derivative at 0, with respect to the learning rate, of the output of a node after
one training step, from the derivatives of the outputs of the preceding layer. -/
theorem hasDerivAt_train_result_out (m : libc ℝ) (nn : neuralnet ℝ)
    (feature label : vecd ℝ) (hwf : nn.wf) (hf : feature.length = nn.layer_len 0)
    (hreg : nodes_regular m nn feature) (p : Nat) (hp : p + 1 < nn.nlayers)
    (d : Nat → ℝ)
    (hd : ∀ i, i < nn.layer_len p →
      HasDerivAt (fun lr => ref_out m (train_result m nn lr feature label) feature p i)
        (d i) 0)
    (j : Nat) (hj : j < nn.layer_len (p + 1)) :
    HasDerivAt (fun lr => ref_out m (train_result m nn lr feature label) feature (p + 1) j)
      (activation_derivative nn.func_id (ref_out m nn feature (p + 1) j) *
        ((∑ i ∈ Finset.range (nn.layer_len p),
            (d i * nn.WEIGHT_AT p i j -
              ref_out m nn feature p i *
                (ref_D nn (ref_out m nn feature (nn.nlayers - 1)) label (p + 1) j *
                  activation_derivative nn.func_id (ref_out m nn feature (p + 1) j) *
                  ref_out m nn feature p i))) -
          ref_D nn (ref_out m nn feature (nn.nlayers - 1)) label (p + 1) j *
            activation_derivative nn.func_id (ref_out m nn feature (p + 1) j))) 0 := by
  have hzero : ∀ i ∈ Finset.range (nn.layer_len p),
      ref_out m (train_result m nn 0 feature label) feature p i = ref_out m nn feature p i :=
    fun i hi => train_result_out_zero m nn feature label hwf hf p (by omega) i
      (Finset.mem_range.mp hi)
  have e1 : (∑ i ∈ Finset.range (nn.layer_len p),
      ref_out m (train_result m nn 0 feature label) feature p i * nn.WEIGHT_AT p i j) =
      ∑ i ∈ Finset.range (nn.layer_len p), ref_out m nn feature p i * nn.WEIGHT_AT p i j :=
    Finset.sum_congr rfl (fun i hi => by rw [hzero i hi])
  have hact : HasDerivAt (activation_function m nn.func_id)
      (activation_derivative nn.func_id (ref_out m nn feature (p + 1) j))
      ((∑ i ∈ Finset.range (nn.layer_len p),
        ref_out m (train_result m nn 0 feature label) feature p i * nn.WEIGHT_AT p i j) +
          nn.bias (p + 1) j) := by
    rw [e1]
    exact (hreg p j hp hj).1
  have h := hasDerivAt_path_node (activation_function m nn.func_id)
    (activation_derivative nn.func_id (ref_out m nn feature (p + 1) j)) (nn.layer_len p)
    (fun i lr => ref_out m (train_result m nn lr feature label) feature p i) d
    (fun i => nn.WEIGHT_AT p i j)
    (fun i => ref_D nn (ref_out m nn feature (nn.nlayers - 1)) label (p + 1) j *
      activation_derivative nn.func_id (ref_out m nn feature (p + 1) j) *
      ref_out m nn feature p i)
    (nn.bias (p + 1) j)
    (ref_D nn (ref_out m nn feature (nn.nlayers - 1)) label (p + 1) j *
      activation_derivative nn.func_id (ref_out m nn feature (p + 1) j)) hd hact
  have e2 : ∀ i ∈ Finset.range (nn.layer_len p),
      d i * nn.WEIGHT_AT p i j -
        ref_out m (train_result m nn 0 feature label) feature p i *
          (ref_D nn (ref_out m nn feature (nn.nlayers - 1)) label (p + 1) j *
            activation_derivative nn.func_id (ref_out m nn feature (p + 1) j) *
            ref_out m nn feature p i) =
      d i * nn.WEIGHT_AT p i j -
        ref_out m nn feature p i *
          (ref_D nn (ref_out m nn feature (nn.nlayers - 1)) label (p + 1) j *
            activation_derivative nn.func_id (ref_out m nn feature (p + 1) j) *
            ref_out m nn feature p i) :=
    fun i hi => by rw [hzero i hi]
  simp only [] at h
  rw [Finset.sum_congr rfl e2] at h
  have e3 : (fun lr => ref_out m (train_result m nn lr feature label) feature (p + 1) j) =
      fun lr => activation_function m nn.func_id ((∑ i ∈ Finset.range (nn.layer_len p),
        ref_out m (train_result m nn lr feature label) feature p i *
          (nn.WEIGHT_AT p i j -
            lr * (ref_D nn (ref_out m nn feature (nn.nlayers - 1)) label (p + 1) j *
              activation_derivative nn.func_id (ref_out m nn feature (p + 1) j) *
              ref_out m nn feature p i))) +
        (nn.bias (p + 1) j -
          lr * (ref_D nn (ref_out m nn feature (nn.nlayers - 1)) label (p + 1) j *
            activation_derivative nn.func_id (ref_out m nn feature (p + 1) j)))) :=
    funext (fun lr => train_result_out_succ m nn feature label hwf hf p j hp hj lr)
  rw [e3]
  exact h

/-- The loss of a query after one training step, in terms of the reference forward
function of the trained network. -/
theorem train_result_loss (m : libc α) (nn : neuralnet α) (feature target : vecd α)
    (hwf : nn.wf) (hf : feature.length = nn.layer_len 0) (lr : α) :
    query_loss m (train_result m nn lr feature target) feature target =
      1 / 2 * ∑ k ∈ Finset.range (nn.layer_len (nn.nlayers - 1)),
        (target.getD k 0 -
          ref_out m (train_result m nn lr feature target) feature (nn.nlayers - 1) k) ^ 2 := by
  obtain ⟨_, r2, r3, _, _⟩ := train_result_params m nn feature target hwf hf lr
  have hL := hwf.nlayers_ge
  rw [query_loss_eq m _ feature target (by rw [r2]; omega) (by rw [r3]; exact hf), r2, r3]

/-- The derivative at 0, with respect to the learning rate, of the loss after one training
step, from the derivatives of the outputs of the output layer. -/
theorem hasDerivAt_train_loss (m : libc ℝ) (nn : neuralnet ℝ)
    (feature target : vecd ℝ) (hwf : nn.wf) (hf : feature.length = nn.layer_len 0)
    (P : Nat) (hP : nn.nlayers = P + 1)
    (d : Nat → ℝ)
    (hd : ∀ k, k < nn.layer_len P →
      HasDerivAt (fun lr => ref_out m (train_result m nn lr feature target) feature P k)
        (d k) 0) :
    HasDerivAt (fun lr => query_loss m (train_result m nn lr feature target) feature target)
      (∑ k ∈ Finset.range (nn.layer_len P),
        (ref_out m nn feature P k - target.getD k 0) * d k) 0 := by
  have e1 : nn.nlayers - 1 = P := by omega
  have hloss : (fun lr => query_loss m (train_result m nn lr feature target) feature target) =
      fun lr => 1 / 2 * ∑ k ∈ Finset.range (nn.layer_len P),
        (target.getD k 0 - ref_out m (train_result m nn lr feature target) feature P k) ^ 2 :=
    funext (fun lr => by rw [train_result_loss m nn feature target hwf hf lr, e1])
  rw [hloss]
  have h := hasDerivAt_path_loss (nn.layer_len P) (fun k => target.getD k 0)
    (fun k lr => ref_out m (train_result m nn lr feature target) feature P k) d 0 hd
  have e2 : ∀ k ∈ Finset.range (nn.layer_len P),
      (ref_out m (train_result m nn 0 feature target) feature P k - target.getD k 0) * d k =
        (ref_out m nn feature P k - target.getD k 0) * d k := fun k hk => by
    rw [train_result_out_zero m nn feature target hwf hf P (by omega) k
      (Finset.mem_range.mp hk)]
  simp only [] at h
  rw [Finset.sum_congr rfl e2] at h
  exact h

/-- With the learning rate 0 the training step leaves the loss as it is. -/
theorem train_result_loss_zero (m : libc α) (nn : neuralnet α)
    (feature target : vecd α) (hwf : nn.wf) (hf : feature.length = nn.layer_len 0) :
    query_loss m (train_result m nn 0 feature target) feature target =
      query_loss m nn feature target := by
  have hL := hwf.nlayers_ge
  rw [train_result_loss m nn feature target hwf hf 0,
    query_loss_eq m nn feature target (by omega) hf]
  congr 1
  apply Finset.sum_congr rfl
  intro k hk
  rw [train_result_out_zero m nn feature target hwf hf _ (by omega) k
    (Finset.mem_range.mp hk)]

/-- The loss of a query does not read the learning rate. -/
theorem query_loss_with_learn (m : libc α) (nn : neuralnet α) (feature target : vecd α)
    (hL : 1 ≤ nn.nlayers) (hf : feature.length = nn.layer_len 0) (lr : α) :
    query_loss m { nn with learn := lr } feature target = query_loss m nn feature target := by
  rw [query_loss_eq m nn feature target hL hf,
    query_loss_eq m { nn with learn := lr } feature target hL hf]
  congr 1
  apply Finset.sum_congr rfl
  intro k _
  rw [ref_out_ext m nn { nn with learn := lr } feature rfl rfl (fun _ => rfl) (fun _ _ => rfl)]
  rfl

/-- The reference error value of a node of the layer before the output layer. -/
theorem ref_D_before_last (nn : neuralnet α) (o : Nat → α) (test : vecd α) (P i : Nat)
    (hP : nn.nlayers = P + 2) :
    ref_D nn o test P i =
      ∑ j ∈ Finset.range (nn.layer_len (P + 1)),
        nn.WEIGHT_AT P i j * (o j - test.getD j 0) := by
  unfold ref_D
  have e : nn.nlayers - 1 - P = 1 := by omega
  rw [e]
  simp only [ref_delta]
  have e1 : nn.nlayers - 1 - 0 = P + 1 := by omega
  have e2 : nn.nlayers - 2 - 0 = P := by omega
  rw [e1, e2]

/-- The output of every node after one training step, as a function of the learning rate,
has at 0 the derivative `train_out_slope`. -/
theorem hasDerivAt_train_out (m : libc ℝ) (nn : neuralnet ℝ)
    (feature target : vecd ℝ) (hwf : nn.wf) (hf : feature.length = nn.layer_len 0)
    (hreg : nodes_regular m nn feature) (l : Nat) :
    l < nn.nlayers → ∀ j, j < nn.layer_len l →
      HasDerivAt (fun lr => ref_out m (train_result m nn lr feature target) feature l j)
        (train_out_slope m nn feature target l j) 0 := by
  induction l with
  | zero =>
    intro _ j _
    exact hasDerivAt_const (0 : ℝ) (feature.getD j 0)
  | succ p ih =>
    intro hp j hj
    exact hasDerivAt_train_result_out m nn feature target hwf hf hreg p hp
      (train_out_slope m nn feature target p) (ih (by omega)) j hj

/-- The loss of a query after one training step, as a function of the learning rate, has at
0 the derivative `train_loss_slope`. -/
theorem hasDerivAt_train_query_loss (m : libc ℝ) (nn : neuralnet ℝ)
    (feature target : vecd ℝ) (hwf : nn.wf) (hf : feature.length = nn.layer_len 0)
    (hreg : nodes_regular m nn feature) :
    HasDerivAt (fun lr => query_loss m (train_result m nn lr feature target) feature target)
      (train_loss_slope m nn feature target) 0 := by
  have hL := hwf.nlayers_ge
  exact hasDerivAt_train_loss m nn feature target hwf hf (nn.nlayers - 1) (by omega)
    (train_out_slope m nn feature target (nn.nlayers - 1))
    (hasDerivAt_train_out m nn feature target hwf hf hreg (nn.nlayers - 1) (by omega))

/-- A negative slope of the loss: the loss after one training step is smaller than before
for every small positive learning rate. -/
theorem train_decreases_of_slope_neg (m : libc ℝ) (nn : neuralnet ℝ)
    (feature target : vecd ℝ) (hwf : nn.wf) (hf : feature.length = nn.layer_len 0)
    (hreg : nodes_regular m nn feature) (hneg : train_loss_slope m nn feature target < 0) :
    ∃ eps : ℝ, 0 < eps ∧ ∀ lr, 0 < lr → lr < eps →
      query_loss m (train_result m nn lr feature target) feature target <
        query_loss m nn feature target := by
  obtain ⟨eps, heps, hlt⟩ := decrease_of_deriv_neg _ _
    (hasDerivAt_train_query_loss m nn feature target hwf hf hreg) hneg
  refine ⟨eps, heps, fun lr h0 h1 => ?_⟩
  have h := hlt lr h0 h1
  simp only [] at h
  rw [train_result_loss_zero m nn feature target hwf hf] at h
  exact h

/-- A positive slope of the loss: the loss after one training step is larger than before
for every small positive learning rate. -/
theorem train_increases_of_slope_pos (m : libc ℝ) (nn : neuralnet ℝ)
    (feature target : vecd ℝ) (hwf : nn.wf) (hf : feature.length = nn.layer_len 0)
    (hreg : nodes_regular m nn feature) (hpos : 0 < train_loss_slope m nn feature target) :
    ∃ eps : ℝ, 0 < eps ∧ ∀ lr, 0 < lr → lr < eps →
      query_loss m nn feature target <
        query_loss m (train_result m nn lr feature target) feature target := by
  obtain ⟨eps, heps, hlt⟩ := increase_of_deriv_pos _ _
    (hasDerivAt_train_query_loss m nn feature target hwf hf hreg) hpos
  refine ⟨eps, heps, fun lr h0 h1 => ?_⟩
  have h := hlt lr h0 h1
  simp only [] at h
  rw [train_result_loss_zero m nn feature target hwf hf] at h
  exact h

/-- The sum in `train_out_slope`, split into the part of the preceding outputs and the part
of the weights. -/
theorem node_step_sum (N : Nat) (d W x : Nat → α) (c : α) :
    (∑ i ∈ Finset.range N, (d i * W i - x i * (c * x i))) =
      (∑ i ∈ Finset.range N, d i * W i) - c * ∑ i ∈ Finset.range N, x i * x i := by
  rw [Finset.sum_sub_distrib, Finset.mul_sum]
  congr 1
  apply Finset.sum_congr rfl
  intro i _
  ring

/-- The slope of the output of a node of layer 1. -/
theorem train_out_slope_one (m : libc α) (nn : neuralnet α) (feature target : vecd α)
    (j : Nat) :
    train_out_slope m nn feature target 1 j =
      -(activation_derivative nn.func_id (ref_out m nn feature 1 j) *
          activation_derivative nn.func_id (ref_out m nn feature 1 j) *
          ref_D nn (ref_out m nn feature (nn.nlayers - 1)) target 1 j *
          ((∑ i ∈ Finset.range (nn.layer_len 0),
            ref_out m nn feature 0 i * ref_out m nn feature 0 i) + 1)) := by
  rw [show train_out_slope m nn feature target 1 j =
    activation_derivative nn.func_id (ref_out m nn feature 1 j) *
      ((∑ i ∈ Finset.range (nn.layer_len 0),
          ((fun _ => (0 : α)) i * nn.WEIGHT_AT 0 i j -
            ref_out m nn feature 0 i *
              (ref_D nn (ref_out m nn feature (nn.nlayers - 1)) target 1 j *
                activation_derivative nn.func_id (ref_out m nn feature 1 j) *
                ref_out m nn feature 0 i))) -
        ref_D nn (ref_out m nn feature (nn.nlayers - 1)) target 1 j *
          activation_derivative nn.func_id (ref_out m nn feature 1 j)) from rfl,
    node_step_sum]
  simp only [zero_mul, Finset.sum_const_zero]
  ring

/-- The slope of the output of a node of a layer after layer 1. -/
theorem train_out_slope_succ (m : libc α) (nn : neuralnet α) (feature target : vecd α)
    (p j : Nat) :
    train_out_slope m nn feature target (p + 1) j =
      activation_derivative nn.func_id (ref_out m nn feature (p + 1) j) *
        ((∑ i ∈ Finset.range (nn.layer_len p),
            train_out_slope m nn feature target p i * nn.WEIGHT_AT p i j) -
          ref_D nn (ref_out m nn feature (nn.nlayers - 1)) target (p + 1) j *
            activation_derivative nn.func_id (ref_out m nn feature (p + 1) j) *
            ((∑ i ∈ Finset.range (nn.layer_len p),
              ref_out m nn feature p i * ref_out m nn feature p i) + 1)) := by
  rw [show train_out_slope m nn feature target (p + 1) j =
    activation_derivative nn.func_id (ref_out m nn feature (p + 1) j) *
      ((∑ i ∈ Finset.range (nn.layer_len p),
          (train_out_slope m nn feature target p i * nn.WEIGHT_AT p i j -
            ref_out m nn feature p i *
              (ref_D nn (ref_out m nn feature (nn.nlayers - 1)) target (p + 1) j *
                activation_derivative nn.func_id (ref_out m nn feature (p + 1) j) *
                ref_out m nn feature p i))) -
        ref_D nn (ref_out m nn feature (nn.nlayers - 1)) target (p + 1) j *
          activation_derivative nn.func_id (ref_out m nn feature (p + 1) j)) from rfl,
    node_step_sum]
  ring

/-- A sum of squares plus one is positive. -/
theorem sum_sq_add_one_pos (N : Nat) (x : Nat → ℝ) :
    0 < (∑ i ∈ Finset.range N, x i * x i) + 1 := by
  have h : 0 ≤ ∑ i ∈ Finset.range N, x i * x i :=
    Finset.sum_nonneg (fun i _ => mul_self_nonneg (x i))
  linarith

/-- The slope of the loss of a network without a hidden layer is negative when an output
differs from its target. -/
theorem train_loss_slope_two (m : libc ℝ) (nn : neuralnet ℝ)
    (feature target : vecd ℝ) (hreg : nodes_regular m nn feature) (h2 : nn.nlayers = 2)
    (hne : ∃ j, j < nn.layer_len 1 ∧ ref_out m nn feature 1 j ≠ target.getD j 0) :
    train_loss_slope m nn feature target < 0 := by
  have e1 : nn.nlayers - 1 = 1 := by omega
  unfold train_loss_slope
  rw [e1]
  have hD : ∀ k, ref_D nn (ref_out m nn feature 1) target 1 k =
      ref_out m nn feature 1 k - target.getD k 0 := fun k => by
    have h := ref_D_last nn (ref_out m nn feature 1) target k
    rw [e1] at h
    exact h
  have hX := sum_sq_add_one_pos (nn.layer_len 0) (fun i => ref_out m nn feature 0 i)
  have hterm : ∀ k, (ref_out m nn feature 1 k - target.getD k 0) *
      train_out_slope m nn feature target 1 k =
      -(((ref_out m nn feature 1 k - target.getD k 0) *
          activation_derivative nn.func_id (ref_out m nn feature 1 k)) ^ 2 *
        ((∑ i ∈ Finset.range (nn.layer_len 0),
          ref_out m nn feature 0 i * ref_out m nn feature 0 i) + 1)) := fun k => by
    rw [train_out_slope_one, e1, hD]
    ring
  obtain ⟨j0, hj0, hne0⟩ := hne
  have hle : ∀ k ∈ Finset.range (nn.layer_len 1),
      (ref_out m nn feature 1 k - target.getD k 0) *
        train_out_slope m nn feature target 1 k ≤ 0 := fun k _ => by
    rw [hterm k]
    have := mul_nonneg (sq_nonneg ((ref_out m nn feature 1 k - target.getD k 0) *
      activation_derivative nn.func_id (ref_out m nn feature 1 k))) hX.le
    linarith
  have hlt : (ref_out m nn feature 1 j0 - target.getD j0 0) *
      train_out_slope m nn feature target 1 j0 < 0 := by
    rw [hterm j0]
    have hd := (hreg 0 j0 (by omega) hj0).2
    have hne1 : (ref_out m nn feature 1 j0 - target.getD j0 0) *
        activation_derivative nn.func_id (ref_out m nn feature 1 j0) ≠ 0 :=
      mul_ne_zero (sub_ne_zero.mpr hne0) (ne_of_gt hd)
    have := mul_pos (pow_pos (abs_pos.mpr hne1) 2) hX
    rw [sq_abs] at this
    linarith
  calc ∑ k ∈ Finset.range (nn.layer_len 1),
        (ref_out m nn feature 1 k - target.getD k 0) * train_out_slope m nn feature target 1 k
      < ∑ _k ∈ Finset.range (nn.layer_len 1), (0 : ℝ) :=
        Finset.sum_lt_sum hle ⟨j0, Finset.mem_range.mpr hj0, hlt⟩
    _ = 0 := Finset.sum_const_zero

/-- The slope of the loss of a network with one hidden layer and a single output node is
negative when the output differs from its target. -/
theorem train_loss_slope_three (m : libc ℝ) (nn : neuralnet ℝ)
    (feature target : vecd ℝ) (hreg : nodes_regular m nn feature) (h3 : nn.nlayers = 3)
    (hone : nn.layer_len 2 = 1) (hne : ref_out m nn feature 2 0 ≠ target.getD 0 0) :
    train_loss_slope m nn feature target < 0 := by
  have e1 : nn.nlayers - 1 = 2 := by omega
  unfold train_loss_slope
  rw [e1, hone, Finset.sum_range_one, train_out_slope_succ, e1]
  have hD2 : ref_D nn (ref_out m nn feature 2) target 2 0 =
      ref_out m nn feature 2 0 - target.getD 0 0 := by
    have h := ref_D_last nn (ref_out m nn feature 2) target 0
    rw [e1] at h
    exact h
  have hD1 : ∀ i, ref_D nn (ref_out m nn feature 2) target 1 i =
      nn.WEIGHT_AT 1 i 0 * (ref_out m nn feature 2 0 - target.getD 0 0) := fun i => by
    rw [ref_D_before_last nn _ target 1 i (by omega), hone, Finset.sum_range_one]
  have hs1 : (∑ i ∈ Finset.range (nn.layer_len 1),
      train_out_slope m nn feature target 1 i * nn.WEIGHT_AT 1 i 0) =
      -((ref_out m nn feature 2 0 - target.getD 0 0) *
        ((∑ i ∈ Finset.range (nn.layer_len 0),
          ref_out m nn feature 0 i * ref_out m nn feature 0 i) + 1) *
        ∑ i ∈ Finset.range (nn.layer_len 1),
          (activation_derivative nn.func_id (ref_out m nn feature 1 i) * nn.WEIGHT_AT 1 i 0) *
            (activation_derivative nn.func_id (ref_out m nn feature 1 i) *
              nn.WEIGHT_AT 1 i 0)) := by
    rw [Finset.mul_sum, ← Finset.sum_neg_distrib]
    apply Finset.sum_congr rfl
    intro i _
    rw [train_out_slope_one, e1, hD1]
    ring
  rw [hs1, hD2]
  have hX := sum_sq_add_one_pos (nn.layer_len 0) (fun i => ref_out m nn feature 0 i)
  have hH := sum_sq_add_one_pos (nn.layer_len 1) (fun i => ref_out m nn feature 1 i)
  have hS : 0 ≤ ∑ i ∈ Finset.range (nn.layer_len 1),
      (activation_derivative nn.func_id (ref_out m nn feature 1 i) * nn.WEIGHT_AT 1 i 0) *
        (activation_derivative nn.func_id (ref_out m nn feature 1 i) * nn.WEIGHT_AT 1 i 0) :=
    Finset.sum_nonneg (fun i _ => mul_self_nonneg _)
  have hd := (hreg 1 0 (by omega) (by rw [hone]; exact Nat.zero_lt_one)).2
  have he : 0 < (ref_out m nn feature 2 0 - target.getD 0 0) ^ 2 := by
    have := pow_pos (abs_pos.mpr (sub_ne_zero.mpr hne)) 2
    rwa [sq_abs] at this
  generalize (∑ i ∈ Finset.range (nn.layer_len 1),
      (activation_derivative nn.func_id (ref_out m nn feature 1 i) * nn.WEIGHT_AT 1 i 0) *
        (activation_derivative nn.func_id (ref_out m nn feature 1 i) *
          nn.WEIGHT_AT 1 i 0)) = S at hS
  generalize (∑ i ∈ Finset.range (nn.layer_len 0),
      ref_out m nn feature 0 i * ref_out m nn feature 0 i) + 1 = X at hX
  generalize (∑ i ∈ Finset.range (nn.layer_len 1),
      ref_out m nn feature 1 i * ref_out m nn feature 1 i) + 1 = H at hH
  generalize activation_derivative nn.func_id (ref_out m nn feature 2 0) = f at hd
  generalize ref_out m nn feature 2 0 - target.getD 0 0 = e at he
  have key : e * (f * (-(e * X * S) - e * f * H)) =
      -(e ^ 2 * f * (X * S)) - e ^ 2 * (f * f * H) := by
    ring
  rw [key]
  have t1 : 0 ≤ e ^ 2 * f * (X * S) :=
    mul_nonneg (mul_nonneg he.le hd.le) (mul_nonneg hX.le hS)
  have t2 : 0 < e ^ 2 * (f * f * H) := mul_pos he (mul_pos (mul_pos hd hd) hH)
  linarith

/-- The network of layout 1;1;2 is well-formed. -/
theorem net_1_1_2_wf : (net_1_1_2 ℝ).wf := ⟨by decide, by decide, by decide, by decide⟩

/-- The outputs of the network of layout 1;1;2 for the feature 10. -/
theorem net_1_1_2_out :
    ref_out (libc_of Real.exp Real.tanh Real.sqrt) (net_1_1_2 ℝ) [10] 0 0 = 10 ∧
    ref_out (libc_of Real.exp Real.tanh Real.sqrt) (net_1_1_2 ℝ) [10] 1 0 = 1 / 2 ∧
    ref_out (libc_of Real.exp Real.tanh Real.sqrt) (net_1_1_2 ℝ) [10] 2 0 = 1 / 2 ∧
    ref_out (libc_of Real.exp Real.tanh Real.sqrt) (net_1_1_2 ℝ) [10] 2 1 =
      1 / (1 + Real.exp (-3)) := by
  have h1 : ref_out (libc_of Real.exp Real.tanh Real.sqrt) (net_1_1_2 ℝ) [10] 1 0 = 1 / 2 := by
    simp [ref_out, net_1_1_2, WEIGHT_AT, weight_index, layer_len, bias, node_at,
      Finset.sum_range_one, activation_function, f_logistic, libc_of]
    norm_num
  refine ⟨rfl, h1, ?_, ?_⟩
  · rw [ref_out_succ_logistic _ rfl _ _ rfl 1 0]
    have hl : (net_1_1_2 ℝ).layer_len 1 = 1 := by decide
    rw [hl, Finset.sum_range_one, h1]
    simp [net_1_1_2, WEIGHT_AT, weight_index, layer_len, bias, node_at]
    norm_num
  · rw [ref_out_succ_logistic _ rfl _ _ rfl 1 1]
    have hl : (net_1_1_2 ℝ).layer_len 1 = 1 := by decide
    rw [hl, Finset.sum_range_one, h1]
    simp [net_1_1_2, WEIGHT_AT, weight_index, layer_len, bias, node_at]
    norm_num

/-- A bound of `exp (-3)`. -/
theorem exp_neg_three_lt : Real.exp (-3) < 1 / 16 := by
  have h1 : (2.7182818283 : ℝ) < Real.exp 1 := Real.exp_one_gt_d9
  have h2 : Real.exp 1 ^ 3 = Real.exp ((3 : ℕ) : ℝ) := Real.exp_one_pow 3
  have h3 : (16 : ℝ) < Real.exp 1 ^ 3 := by
    have h4 : (2 : ℝ) ^ 3 * 2 ≤ 2.7182818283 ^ 3 := by norm_num
    have h5 : (2.7182818283 : ℝ) ^ 3 < Real.exp 1 ^ 3 :=
      pow_lt_pow_left₀ h1 (by norm_num) (by norm_num)
    linarith
  have h6 : (16 : ℝ) < Real.exp 3 := by
    rw [h2] at h3
    exact_mod_cast h3
  rw [Real.exp_neg, one_div]
  exact inv_strictAnti₀ (by norm_num) h6

/-- The slope of the loss of the network of layout 1;1;2, trained on the feature 10 with the
target (0, 0), is positive. -/
theorem net_1_1_2_slope_pos :
    0 < train_loss_slope (libc_of Real.exp Real.tanh Real.sqrt) (net_1_1_2 ℝ) [10] [0, 0] := by
  obtain ⟨o0, o1, o20, o21⟩ := net_1_1_2_out
  have hE := exp_neg_three_lt
  have hE0 : 0 < Real.exp (-3) := Real.exp_pos _
  have hs1 : 16 / 17 < 1 / (1 + Real.exp (-3)) := by
    rw [div_lt_div_iff₀ (by norm_num) (by positivity)]
    linarith
  have hs2 : 1 / (1 + Real.exp (-3)) < 1 := by
    rw [div_lt_one (by positivity)]
    linarith
  generalize 1 / (1 + Real.exp (-3)) = s at o21 hs1 hs2
  have e1 : (net_1_1_2 ℝ).nlayers - 1 = 2 := by decide
  have l0 : (net_1_1_2 ℝ).layer_len 0 = 1 := by decide
  have l1 : (net_1_1_2 ℝ).layer_len 1 = 1 := by decide
  have l2 : (net_1_1_2 ℝ).layer_len 2 = 2 := by decide
  have hfun : (net_1_1_2 ℝ).func_id = .SIGMOID_LOGISTIC := rfl
  have w0 : (net_1_1_2 ℝ).WEIGHT_AT 1 0 0 = 1 := by
    simp [net_1_1_2, WEIGHT_AT, weight_index, layer_len]
  have w1 : (net_1_1_2 ℝ).WEIGHT_AT 1 0 1 = -1 := by
    simp [net_1_1_2, WEIGHT_AT, weight_index, layer_len]
  have t0 : ([0, 0] : vecd ℝ).getD 0 0 = 0 := rfl
  have t1 : ([0, 0] : vecd ℝ).getD 1 0 = 0 := rfl
  have hD2 : ∀ k, ref_D (net_1_1_2 ℝ)
      (ref_out (libc_of Real.exp Real.tanh Real.sqrt) (net_1_1_2 ℝ) [10] 2) [0, 0] 2 k =
      ref_out (libc_of Real.exp Real.tanh Real.sqrt) (net_1_1_2 ℝ) [10] 2 k -
        ([0, 0] : vecd ℝ).getD k 0 := fun k => by
    have h := ref_D_last (net_1_1_2 ℝ)
      (ref_out (libc_of Real.exp Real.tanh Real.sqrt) (net_1_1_2 ℝ) [10] 2) [0, 0] k
    rw [e1] at h
    exact h
  have hD1 : ref_D (net_1_1_2 ℝ)
      (ref_out (libc_of Real.exp Real.tanh Real.sqrt) (net_1_1_2 ℝ) [10] 2) [0, 0] 1 0 =
      1 / 2 - s := by
    rw [ref_D_before_last _ _ _ 1 0 (by decide), l2, Finset.sum_range_succ,
      Finset.sum_range_one, w0, w1, o20, o21, t0, t1]
    ring
  have hsl1 : train_out_slope (libc_of Real.exp Real.tanh Real.sqrt) (net_1_1_2 ℝ) [10] [0, 0]
      1 0 = 101 / 16 * (s - 1 / 2) := by
    rw [train_out_slope_one, e1, hD1, l0, Finset.sum_range_one, o0, o1, hfun]
    simp only [activation_derivative, d_logistic]
    ring
  unfold train_loss_slope
  rw [e1, l2, Finset.sum_range_succ, Finset.sum_range_one, train_out_slope_succ,
    train_out_slope_succ, e1, l1, Finset.sum_range_one, Finset.sum_range_one,
    Finset.sum_range_one, hD2, hD2, hsl1, w0, w1, o1, o20, o21, t0, t1, hfun]
  simp only [activation_derivative, d_logistic]
  have hr0 : 0 < s * (s * (1 - s)) := by
    have : 0 < s := by linarith
    exact mul_pos this (mul_pos this (by linarith))
  have hr1 : s * (s * (1 - s)) < 1 / 17 := by
    have h1 : 0 < s := by linarith
    have h2 : 0 < 1 - s := by linarith
    nlinarith [mul_pos h1 h2, mul_pos (mul_pos h1 h2) h2]
  have ha : 2 < 101 / 16 * (s - 1 / 2) := by linarith
  generalize hr : s * (s * (1 - s)) = r at hr0 hr1
  generalize 101 / 16 * (s - 1 / 2) = a at ha
  have key : (1 / 2 - 0) * (1 / 2 * (1 - 1 / 2) *
      (a * 1 - (1 / 2 - 0) * (1 / 2 * (1 - 1 / 2)) * (1 / 2 * (1 / 2) + 1))) +
      (s - 0) * (s * (1 - s) * (a * -1 - (s - 0) * (s * (1 - s)) * (1 / 2 * (1 / 2) + 1))) =
      a * (1 / 8 - r) - 5 / 256 - 5 / 4 * r ^ 2 := by
    rw [← hr]; ring
  rw [key]
  nlinarith [mul_pos (sub_pos.mpr ha) (show 0 < 1 / 8 - r by linarith),
    mul_pos hr0 (show 0 < 1 / 17 - r by linarith)]

/-- The loss of a query is not negative. -/
theorem query_loss_nonneg (m : libc ℝ) (nn : neuralnet ℝ) (feature target : vecd ℝ) :
    0 ≤ query_loss m nn feature target := by
  unfold query_loss
  exact mul_nonneg (by norm_num) (Finset.sum_nonneg (fun j _ => sq_nonneg _))

/-- A loss other than 0: some output differs from its target. -/
theorem exists_residual_of_loss_ne_zero (m : libc ℝ) (nn : neuralnet ℝ)
    (feature target : vecd ℝ) (hL : 1 ≤ nn.nlayers) (hf : feature.length = nn.layer_len 0)
    (hE : query_loss m nn feature target ≠ 0) :
    ∃ j, j < nn.layer_len (nn.nlayers - 1) ∧
      ref_out m nn feature (nn.nlayers - 1) j ≠ target.getD j 0 := by
  by_contra hall
  apply hE
  rw [query_loss_eq m nn feature target hL hf]
  have hz : ∀ k ∈ Finset.range (nn.layer_len (nn.nlayers - 1)),
      (target.getD k 0 - ref_out m nn feature (nn.nlayers - 1) k) ^ 2 = 0 := fun k hk => by
    have : ref_out m nn feature (nn.nlayers - 1) k = target.getD k 0 := by
      by_contra hne
      exact hall ⟨k, Finset.mem_range.mp hk, hne⟩
    rw [this, sub_self]
    norm_num
  rw [Finset.sum_congr rfl hz, Finset.sum_const_zero, mul_zero]

/-- The call of `neuralnet_train` on a network with the learning rate `lr` returns 0 and
leaves the network `train_result`. -/
theorem neuralnet_train_with_learn (m : libc α) (nn : neuralnet α) (feature target : vecd α)
    (hf : feature.length = nn.layer_len 0)
    (ht : target.length = nn.layer_len (nn.nlayers - 1)) (lr : α) :
    neuralnet_train m (some { nn with learn := lr }) (some feature) (some target) =
      (0, some (train_result m nn lr feature target)) :=
  neuralnet_train_ok m { nn with learn := lr } feature target hf ht

/-- At a loss of 0 no learning rate makes the loss smaller. -/
theorem train_at_target_no_decrease (m : libc ℝ) (nn : neuralnet ℝ) (feature target : vecd ℝ)
    (hE : query_loss m nn feature target = 0) (lr : ℝ) :
    ¬ query_loss m (train_result m nn lr feature target) feature target <
      query_loss m nn feature target := by
  rw [hE]
  exact not_lt.mpr (query_loss_nonneg m _ feature target)

/-- The loss of the network of layout 1;1;1 for the feature 1 and the target 0. -/
theorem net_1_1_1_loss :
    query_loss (libc_of Real.exp Real.tanh Real.sqrt) (net_1_1_1 ℝ) [1] [0] = 1 / 8 := by
  rw [query_loss_eq (libc_of Real.exp Real.tanh Real.sqrt) (net_1_1_1 ℝ) [1] [0]
    (show 1 ≤ 3 by omega) (show 1 = 1 from rfl)]
  simp [ref_out, net_1_1_1, WEIGHT_AT, weight_index, layer_len, nlayers, bias,
    node_at, Finset.sum_range_one, activation_function, f_logistic, libc_of]
  norm_num

/-- The network of layout 1;1 with tanh activation is well-formed. -/
theorem net_tanh_1_1_wf : (net_tanh_1_1 ℝ).wf := ⟨by decide, by decide, by decide, by decide⟩

/-- The output of the network of layout 1;1 with tanh activation for the feature 1. -/
theorem net_tanh_1_1_out :
    ref_out (libc_of Real.exp Real.tanh Real.sqrt) (net_tanh_1_1 ℝ) [1] 1 0 = Real.tanh 1 := by
  simp [ref_out, net_tanh_1_1, WEIGHT_AT, weight_index, layer_len, bias, node_at,
    Finset.sum_range_one, activation_function, f_tanh, libc_of]

/-- The hyperbolic tangent of 1 is not 0. -/
theorem tanh_one_ne_zero : Real.tanh 1 ≠ 0 := by
  rw [Real.tanh_eq_sinh_div_cosh]
  exact div_ne_zero (ne_of_gt (Real.sinh_pos_iff.mpr one_pos)) (ne_of_gt (Real.cosh_pos 1))

/-- No node after the input layer of the network of layout 1;1 with tanh activation has the
output 0 for the feature 1. -/
theorem net_tanh_1_1_out_ne_zero (l j : Nat) (hl : 1 ≤ l) (hL : l < (net_tanh_1_1 ℝ).nlayers)
    (hj : j < (net_tanh_1_1 ℝ).layer_len l) :
    (feedforward (libc_of Real.exp Real.tanh Real.sqrt) (net_tanh_1_1 ℝ) [1]).out l j ≠ 0 := by
  have hL2 : (net_tanh_1_1 ℝ).nlayers = 2 := by decide
  have hl1 : l = 1 := by omega
  subst hl1
  have hj0 : j = 0 := by
    have : (net_tanh_1_1 ℝ).layer_len 1 = 1 := by decide
    omega
  subst hj0
  rw [(feedforward_spec (libc_of Real.exp Real.tanh Real.sqrt) (net_tanh_1_1 ℝ) [1]
    (by decide)).2 1 hL 0 hj, net_tanh_1_1_out]
  exact tanh_one_ne_zero

/-- The loss of the network of layout 1;1 with tanh activation for the feature 1 and the
target 0 is not 0. -/
theorem net_tanh_1_1_loss :
    query_loss (libc_of Real.exp Real.tanh Real.sqrt) (net_tanh_1_1 ℝ) [1] [0] ≠ 0 := by
  rw [query_loss_eq (libc_of Real.exp Real.tanh Real.sqrt) (net_tanh_1_1 ℝ) [1] [0]
    (show 1 ≤ 2 by omega) (show 1 = 1 from rfl)]
  have hL : (net_tanh_1_1 ℝ).nlayers - 1 = 1 := by decide
  have hl : (net_tanh_1_1 ℝ).layer_len 1 = 1 := by decide
  rw [hL, hl, Finset.sum_range_one, net_tanh_1_1_out]
  have h := tanh_one_ne_zero
  have e : (([0] : vecd ℝ).getD 0 0) = 0 := rfl
  rw [e]
  have hpos : 0 < (0 - Real.tanh 1) ^ 2 := by
    have := pow_pos (abs_pos.mpr h) 2
    rw [sq_abs] at this
    nlinarith
  exact ne_of_gt (by linarith)

/-- The conversion of a token of decimal digits. -/
theorem sscanf_d_of_digits (ds : List Char) (hne : ds ≠ [])
    (hdig : ∀ c ∈ ds, isdigit c = true) :
    sscanf_d ds = some (wrap32 (strtol_value (decimal_value ds : Int))) := by
  obtain ⟨c, cs, rfl⟩ := List.exists_cons_of_ne_nil hne
  have hc : isdigit c = true := hdig c (List.mem_cons_self _ _)
  have h1 : (c :: cs).dropWhile isspace = c :: cs := by
    rw [List.dropWhile_cons, isspace_of_isdigit c hc]; rfl
  have h2 : (c :: cs).takeWhile isdigit = c :: cs :=
    List.takeWhile_eq_self_iff.mpr hdig
  have hm : c ≠ '-' := by rintro rfl; revert hc; decide
  have hp : c ≠ '+' := by rintro rfl; revert hc; decide
  unfold sscanf_d
  simp only [h1, List.head?_cons, Option.some.injEq, hm, hp, or_self, if_false, h2,
    decide_False, Bool.false_eq_true]
  rw [if_neg (by simp)]

/-- The conversion of a token that is a minus sign followed by decimal digits. -/
theorem sscanf_d_minus (ds : List Char) (hne : ds ≠ [])
    (hdig : ∀ c ∈ ds, isdigit c = true) :
    sscanf_d ('-' :: ds) = some (wrap32 (strtol_value (-(decimal_value ds : Int)))) := by
  have h1 : ('-' :: ds).dropWhile isspace = '-' :: ds := by
    rw [List.dropWhile_cons, show isspace '-' = false by decide]; rfl
  have h2 : ds.takeWhile isdigit = ds := List.takeWhile_eq_self_iff.mpr hdig
  unfold sscanf_d
  simp only [h1, List.head?_cons, true_or, if_true, List.tail_cons, h2, decide_True]
  rw [if_neg hne]

/-- A token whose first character is neither white space, nor a sign, nor a digit is not
converted. -/
theorem sscanf_d_no_digit (c : Char) (rest : List Char) (hs : isspace c = false)
    (hd : isdigit c = false) (hp : c ≠ '+') (hm : c ≠ '-') :
    sscanf_d (c :: rest) = none := by
  have h1 : (c :: rest).dropWhile isspace = c :: rest := by
    rw [List.dropWhile_cons, hs]; rfl
  have h2 : (c :: rest).takeWhile isdigit = [] := by
    rw [List.takeWhile_cons, hd]; rfl
  unfold sscanf_d
  simp only [h1, List.head?_cons, Option.some.injEq, hm, hp, or_self, if_false, h2,
    decide_False, Bool.false_eq_true]
  rfl

/-- A token whose first character is neither white space, nor a sign, nor a digit, a token
of digits of the value 0 and a token that is a minus sign followed by digits of a value of at
most `2 ^ 31`: each is refused by `sscanf` or converted to a value below 1. -/
theorem token_refused (tok : List Char)
    (h : sscanf_d tok = none ∨ (∃ n, sscanf_d tok = some n ∧ n < 1) ∨
      (∃ c rest, tok = c :: rest ∧ isspace c = false ∧ isdigit c = false ∧ c ≠ '+' ∧ c ≠ '-') ∨
      ∃ ds, ds ≠ [] ∧ (∀ c ∈ ds, isdigit c = true) ∧
        ((tok = ds ∧ decimal_value ds = 0) ∨
          (tok = '-' :: ds ∧ (decimal_value ds : Int) ≤ 2147483648))) :
    sscanf_d tok = none ∨ ∃ n, sscanf_d tok = some n ∧ n < 1 := by
  rcases h with h | h | ⟨c, rest, rfl, hs, hd, hp, hm⟩ | ⟨ds, hne, hdig, h⟩
  · exact Or.inl h
  · exact Or.inr h
  · exact Or.inl (sscanf_d_no_digit c rest hs hd hp hm)
  · rcases h with ⟨rfl, hval⟩ | ⟨rfl, hval⟩
    · refine Or.inr ⟨_, sscanf_d_of_digits tok hne hdig, ?_⟩
      rw [hval]
      decide
    · refine Or.inr ⟨_, sscanf_d_minus ds hne hdig, ?_⟩
      have h0 : (0 : Int) ≤ (decimal_value ds : Int) := Int.ofNat_nonneg _
      unfold strtol_value LONG_MAX LONG_MIN
      rw [if_neg (by omega), if_neg (by omega)]
      unfold wrap32
      omega

/-! ## The claims -/

/-- Claim C1: on a network that satisfies the construction invariants, with a feature vector
as long as the input layer and an output vector as long as the output layer,
`neuralnet_query` returns 0 and stores in `output[j]`, for every output node `j`, the value
of the reference forward function `ref_out`: layer 0 holds the feature values, and node `j`
of a later layer holds the activation function applied to the sum over all nodes `i` of the
preceding layer of `out(p, i) * weight(p, i, j)` plus the bias of the node. -/
theorem neuralnet_query_forward (m : libc α) (nn : neuralnet α) (feature output : vecd α)
    (hwf : nn.wf) (hf : feature.length = nn.layer_len 0)
    (ho : output.length = nn.layer_len (nn.nlayers - 1)) :
    (∀ j, ref_out m nn feature 0 j = feature.getD j 0) ∧
    (∀ p j, ref_out m nn feature (p + 1) j =
      activation_function m nn.func_id
        ((∑ i ∈ Finset.range (nn.layer_len p), ref_out m nn feature p i * nn.WEIGHT_AT p i j) +
          nn.bias (p + 1) j)) ∧
    ∃ nn1 output1,
      neuralnet_query m (some nn) (some feature) (some output) = (0, some nn1, some output1) ∧
        output1.length = output.length ∧
        ∀ j, j < nn.layer_len (nn.nlayers - 1) →
          output1[j]? = some (ref_out m nn feature (nn.nlayers - 1) j) := by
  refine ⟨fun _ => rfl, fun _ _ => rfl, feedforward m nn feature,
    copy_output (feedforward m nn feature) output, ?_, ?_, ?_⟩
  · simp only [neuralnet_query]
    rw [if_neg (by simp [hf, ho])]
  · exact (copy_output_loop _ output output.length (Nat.le_refl _)).1
  · intro j hj
    obtain ⟨h1, h2⟩ := feedforward_spec m nn feature hf
    have hL := hwf.nlayers_ge
    have h3 := (copy_output_loop (feedforward m nn feature) output output.length
      (Nat.le_refl _)).2.1 j (by omega)
    unfold copy_output
    rw [h3, h1.2.2.2.1, h2 (nn.nlayers - 1) (by omega) j hj]

/-- Instance of claim C1 on the network of layout 2;2;1. -/
theorem neuralnet_query_forward_witness :
    ∃ nn1 output1,
      neuralnet_query libc_Q (some net_2_2_1) (some [1, 0]) (some [0]) =
          (0, some nn1, some output1) ∧
        output1.length = 1 ∧
        ∀ j, j < net_2_2_1.layer_len (net_2_2_1.nlayers - 1) →
          output1[j]? = some (ref_out libc_Q net_2_2_1 [1, 0] (net_2_2_1.nlayers - 1) j) :=
  (neuralnet_query_forward libc_Q net_2_2_1 [1, 0] [0] net_2_2_1_wf (by decide)
    (by decide)).2.2

/-- Claim C2: after a successful `neuralnet_train` call on a well-formed network, for every
pair of adjacent layers `p`, `p + 1` (the pair leaving the input layer and the pair feeding
the output layer included), every node `i` of `p` and every node `j` of `p + 1`, the weight
equals the weight before the call minus
`learning_rate * delta_j * activation_derivative(out_j) * out_i`, where the `out` values are
those of the forward pass and `delta_j` is the error value of node `j` after the call. -/
theorem neuralnet_train_weight_update (m : libc α) (nn nn1 : neuralnet α)
    (feature label : vecd α) (hwf : nn.wf)
    (h : neuralnet_train m (some nn) (some feature) (some label) = (0, some nn1))
    (p i j : Nat) (hp : p + 1 < nn.nlayers) (hi : i < nn.layer_len p)
    (hj : j < nn.layer_len (p + 1)) :
    nn1.WEIGHT_AT p i j =
      nn.WEIGHT_AT p i j -
        nn.learn * nn1.delta (p + 1) j *
          activation_derivative nn.func_id ((feedforward m nn feature).out (p + 1) j) *
          (feedforward m nn feature).out p i := by
  obtain ⟨hf, _, rfl⟩ := neuralnet_train_success m nn nn1 feature label h
  exact (train_spec m nn feature label hwf hf).2.1 p i j hp hi hj

/-- Instance of claim C2: the weight between input node 1 and hidden node 0 of the network
of layout 2;2;1. -/
theorem neuralnet_train_weight_update_witness :
    (backpropagate (feedforward libc_Q net_2_2_1 [1, 0]) [1]).WEIGHT_AT 0 1 0 =
      net_2_2_1.WEIGHT_AT 0 1 0 -
        net_2_2_1.learn * (backpropagate (feedforward libc_Q net_2_2_1 [1, 0]) [1]).delta 1 0 *
          activation_derivative net_2_2_1.func_id
            ((feedforward libc_Q net_2_2_1 [1, 0]).out 1 0) *
          (feedforward libc_Q net_2_2_1 [1, 0]).out 0 1 :=
  neuralnet_train_weight_update libc_Q net_2_2_1 _ [1, 0] [1] net_2_2_1_wf
    (neuralnet_train_ok libc_Q net_2_2_1 [1, 0] [1] (by decide) (by decide)) 0 1 0
    (by decide) (by decide) (by decide)

/-- Claim C3: after a successful `neuralnet_train` call on a well-formed network, the error
value of every node outside the input layer equals the reference `ref_D`, computed from the
weights before the call: `D(output, j) = out_j - target_j`, and for a hidden layer `p`,
`D(p, i)` is the sum over the nodes `j` of layer `p + 1` of
`weight_before(p, i, j) * D(p + 1, j)`.  A network with the same weights and biases and
other stored `out` and `delta` values gets the same error values. -/
theorem neuralnet_train_delta (m : libc α) (nn nn1 : neuralnet α) (feature label : vecd α)
    (hwf : nn.wf)
    (h : neuralnet_train m (some nn) (some feature) (some label) = (0, some nn1)) :
    (∀ j, ref_D nn (ref_out m nn feature (nn.nlayers - 1)) label (nn.nlayers - 1) j =
      ref_out m nn feature (nn.nlayers - 1) j - label.getD j 0) ∧
    (∀ p i, p + 1 < nn.nlayers →
      ref_D nn (ref_out m nn feature (nn.nlayers - 1)) label p i =
        ∑ j ∈ Finset.range (nn.layer_len (p + 1)),
          nn.WEIGHT_AT p i j * ref_D nn (ref_out m nn feature (nn.nlayers - 1)) label (p + 1) j) ∧
    (∀ l j, 1 ≤ l → l < nn.nlayers → j < nn.layer_len l →
      nn1.delta l j = ref_D nn (ref_out m nn feature (nn.nlayers - 1)) label l j) ∧
    ∀ nn2 nn3, same_params nn nn2 →
      neuralnet_train m (some nn2) (some feature) (some label) = (0, some nn3) →
      ∀ l j, 1 ≤ l → l < nn.nlayers → j < nn.layer_len l → nn3.delta l j = nn1.delta l j := by
  obtain ⟨hf, _, rfl⟩ := neuralnet_train_success m nn nn1 feature label h
  have key := (train_spec m nn feature label hwf hf).1
  refine ⟨fun j => ref_D_last nn _ label j, fun p i hp => ref_D_succ nn _ label p i hp, key, ?_⟩
  intro nn2 nn3 hsp h2 l j hl hlL hj
  obtain ⟨hf2, _, rfl⟩ := neuralnet_train_success m nn2 nn3 feature label h2
  have hwf2 : nn2.wf := wf_of_same_params hsp hwf
  have hL : nn2.nlayers = nn.nlayers := hsp.2.2.2.1
  have hlen : ∀ l, nn2.layer_len l = nn.layer_len l := hsp.2.2.2.2.1
  rw [(train_spec m nn2 feature label hwf2 hf2).1 l j hl (by rw [hL]; exact hlL)
    (by rw [hlen]; exact hj), key l j hl hlL hj]
  exact ref_D_congr nn nn2 _ _ label hL hlen (fun p i j => same_params_WEIGHT_AT hsp p i j)
    (fun x _ => by rw [hL]; exact ref_out_congr m hsp feature _ x) l j hlL hj

/-- Instance of claim C3: the error value of hidden node 1 of the network of layout 2;2;1. -/
theorem neuralnet_train_delta_witness :
    (backpropagate (feedforward libc_Q net_2_2_1 [1, 0]) [1]).delta 1 1 =
      ref_D net_2_2_1 (ref_out libc_Q net_2_2_1 [1, 0] (net_2_2_1.nlayers - 1)) [1] 1 1 :=
  (neuralnet_train_delta libc_Q net_2_2_1 _ [1, 0] [1] net_2_2_1_wf
    (neuralnet_train_ok libc_Q net_2_2_1 [1, 0] [1] (by decide) (by decide))).2.2.1 1 1
    (by decide) (by decide) (by decide)

/-- Claim C4: after a successful `neuralnet_train` call on a well-formed network, for every
node `j` of every layer but the input layer, the bias equals the bias before the call minus
`learning_rate * delta_j * activation_derivative(out_j)`, where `delta_j` is the error value
of the node after the call and `out_j` its output in the forward pass. -/
theorem neuralnet_train_bias_update (m : libc α) (nn nn1 : neuralnet α)
    (feature label : vecd α) (hwf : nn.wf)
    (h : neuralnet_train m (some nn) (some feature) (some label) = (0, some nn1))
    (l j : Nat) (hl : 1 ≤ l) (hlL : l < nn.nlayers) (hj : j < nn.layer_len l) :
    nn1.bias l j =
      nn.bias l j -
        nn.learn * nn1.delta l j *
          activation_derivative nn.func_id ((feedforward m nn feature).out l j) := by
  obtain ⟨hf, _, rfl⟩ := neuralnet_train_success m nn nn1 feature label h
  exact (train_spec m nn feature label hwf hf).2.2 l j hl hlL hj

/-- Instance of claim C4: the bias of the output node of the network of layout 2;2;1. -/
theorem neuralnet_train_bias_update_witness :
    (backpropagate (feedforward libc_Q net_2_2_1 [1, 0]) [1]).bias 2 0 =
      net_2_2_1.bias 2 0 -
        net_2_2_1.learn * (backpropagate (feedforward libc_Q net_2_2_1 [1, 0]) [1]).delta 2 0 *
          activation_derivative net_2_2_1.func_id
            ((feedforward libc_Q net_2_2_1 [1, 0]).out 2 0) :=
  neuralnet_train_bias_update libc_Q net_2_2_1 _ [1, 0] [1] net_2_2_1_wf
    (neuralnet_train_ok libc_Q net_2_2_1 [1, 0] [1] (by decide) (by decide)) 2 0
    (by decide) (by decide) (by decide)

/-- Claim C5, amended: on a well-formed network with logistic activation, over the real
numbers, one successful `neuralnet_train` call changes every weight of the last weight
matrix (the one feeding the output layer) and the bias of every output node by exactly
`-learning_rate` times the partial derivative of `E = 1/2 * sum_j (t_j - o_j)^2` with respect
to that parameter, `E` being a function of the parameter through the forward pass and the
derivative being taken at the value before the call.  In a network of two layers these are
all the weights and biases that training changes. -/
theorem neuralnet_train_output_gradient (m : libc ℝ) (hexp : m.exp = Real.exp)
    (nn nn1 : neuralnet ℝ) (feature target : vecd ℝ) (hwf : nn.wf)
    (hfun : nn.func_id = .SIGMOID_LOGISTIC)
    (h : neuralnet_train m (some nn) (some feature) (some target) = (0, some nn1)) :
    (∀ i j, i < nn.layer_len (nn.nlayers - 2) → j < nn.layer_len (nn.nlayers - 1) →
      ∃ g, HasDerivAt
          (fun w => query_loss m (nn.set_WEIGHT_AT (nn.nlayers - 2) i j w) feature target) g
          (nn.WEIGHT_AT (nn.nlayers - 2) i j) ∧
        nn1.WEIGHT_AT (nn.nlayers - 2) i j - nn.WEIGHT_AT (nn.nlayers - 2) i j =
          -(nn.learn * g)) ∧
    ∀ j, j < nn.layer_len (nn.nlayers - 1) →
      ∃ g, HasDerivAt
          (fun b => query_loss m (nn.set_bias (nn.nlayers - 1) j b) feature target) g
          (nn.bias (nn.nlayers - 1) j) ∧
        nn1.bias (nn.nlayers - 1) j - nn.bias (nn.nlayers - 1) j = -(nn.learn * g) := by
  obtain ⟨hf, _, rfl⟩ := neuralnet_train_success m nn nn1 feature target h
  obtain ⟨P, hP⟩ : ∃ P, nn.nlayers = P + 2 := ⟨nn.nlayers - 2, by have := hwf.nlayers_ge; omega⟩
  have e2 : nn.nlayers - 2 = P := by omega
  have e1 : nn.nlayers - 1 = P + 1 := by omega
  obtain ⟨t1, t2, t3⟩ := train_spec m nn feature target hwf hf
  obtain ⟨_, f2⟩ := feedforward_spec m nn feature hf
  rw [e1, e2]
  rw [e1] at t1
  have hdelta : ∀ j, j < nn.layer_len (P + 1) →
      (backpropagate (feedforward m nn feature) target).delta (P + 1) j =
        ref_out m nn feature (P + 1) j - target.getD j 0 := by
    intro j hj
    rw [t1 (P + 1) j (by omega) (by omega) hj]
    have := ref_D_last nn (ref_out m nn feature (P + 1)) target j
    rw [e1] at this
    exact this
  constructor
  · intro i j hi hj
    refine ⟨_, query_loss_last_weight m hexp nn feature target P hP hwf hfun hf i j hi hj, ?_⟩
    rw [t2 P i j (by omega) hi hj, hdelta j hj, f2 (P + 1) (by omega) j hj,
      f2 P (by omega) i hi, hfun]
    simp only [activation_derivative, d_logistic]
    ring
  · intro j hj
    refine ⟨_, query_loss_last_bias m hexp nn feature target P hP hfun hf j hj, ?_⟩
    rw [t3 (P + 1) j (by omega) (by omega) hj, hdelta j hj, f2 (P + 1) (by omega) j hj, hfun]
    simp only [activation_derivative, d_logistic]
    ring

/-- Instance of claim C5 (amended): the bias of the output node of the network of layout
1;1;1. -/
theorem neuralnet_train_output_gradient_witness :
    ∃ g, HasDerivAt
        (fun b => query_loss (libc_of Real.exp Real.tanh Real.sqrt)
          ((net_1_1_1 ℝ).set_bias 2 0 b) [1] [0]) g ((net_1_1_1 ℝ).bias 2 0) ∧
      (backpropagate (feedforward (libc_of Real.exp Real.tanh Real.sqrt) (net_1_1_1 ℝ) [1])
          [0]).bias 2 0 - (net_1_1_1 ℝ).bias 2 0 = -((net_1_1_1 ℝ).learn * g) :=
  (neuralnet_train_output_gradient (libc_of Real.exp Real.tanh Real.sqrt) rfl (net_1_1_1 ℝ) _
    [1] [0] net_1_1_1_wf rfl
    (neuralnet_train_ok (libc_of Real.exp Real.tanh Real.sqrt) (net_1_1_1 ℝ) [1] [0]
      (by decide) (by decide))).2 0 (by decide)

/-- Claim C5 fails as stated: in the network of layout 1;1;1 with weights 0 and 2, biases 0
and -1 and learning rate 1, trained on the feature 1 with the target 0, the partial
derivative of `E` with respect to the weight leaving the input node is 1/16, while
`neuralnet_train` changes that weight by -1/4: the change is not `-learning_rate` times a
derivative of `E`. -/
theorem hidden_weight_not_gradient :
    HasDerivAt
        (fun w => query_loss (libc_of Real.exp Real.tanh Real.sqrt)
          ((net_1_1_1 ℝ).set_WEIGHT_AT 0 0 0 w) [1] [0]) (1 / 16)
        ((net_1_1_1 ℝ).WEIGHT_AT 0 0 0) ∧
    (backpropagate (feedforward (libc_of Real.exp Real.tanh Real.sqrt) (net_1_1_1 ℝ) [1])
        [0]).WEIGHT_AT 0 0 0 - (net_1_1_1 ℝ).WEIGHT_AT 0 0 0 = -1 / 4 ∧
    (net_1_1_1 ℝ).learn = 1 ∧
    ¬ ∃ g, HasDerivAt
        (fun w => query_loss (libc_of Real.exp Real.tanh Real.sqrt)
          ((net_1_1_1 ℝ).set_WEIGHT_AT 0 0 0 w) [1] [0]) g ((net_1_1_1 ℝ).WEIGHT_AT 0 0 0) ∧
      (backpropagate (feedforward (libc_of Real.exp Real.tanh Real.sqrt) (net_1_1_1 ℝ) [1])
          [0]).WEIGHT_AT 0 0 0 - (net_1_1_1 ℝ).WEIGHT_AT 0 0 0 = -((net_1_1_1 ℝ).learn * g) := by
  have hF : (fun w => query_loss (libc_of Real.exp Real.tanh Real.sqrt)
      ((net_1_1_1 ℝ).set_WEIGHT_AT 0 0 0 w) [1] [0]) =
      fun w => (1 / 2 : ℝ) *
        (0 - 1 / (1 + Real.exp (-(1 / (1 + Real.exp (-w)) * 2 + -1)))) ^ 2 := by
    funext w
    have e := query_loss_eq (libc_of Real.exp Real.tanh Real.sqrt)
      ((net_1_1_1 ℝ).set_WEIGHT_AT 0 0 0 w) [1] [0] (show 1 ≤ 3 by omega) (show 1 = 1 from rfl)
    rw [e]
    simp [ref_out, net_1_1_1, set_WEIGHT_AT, WEIGHT_AT, weight_index, layer_len, nlayers, bias,
      node_at, Finset.sum_range_one, activation_function, f_logistic, libc_of]
  have hW0 : (net_1_1_1 ℝ).WEIGHT_AT 0 0 0 = 0 := by
    simp [net_1_1_1, WEIGHT_AT, weight_index, layer_len]
  have hd : HasDerivAt (fun w : ℝ => (1 / 2 : ℝ) *
      (0 - 1 / (1 + Real.exp (-(1 / (1 + Real.exp (-w)) * 2 + -1)))) ^ 2) (1 / 16) 0 := by
    have h1 := ((hasDerivAt_logistic 0).mul_const 2).add_const (-1)
    have h2 := (hasDerivAt_sq_residual 0 _ _ 0 h1).const_mul (1 / 2)
    convert h2 using 1
    norm_num [Real.exp_zero]
  have hder : HasDerivAt
      (fun w => query_loss (libc_of Real.exp Real.tanh Real.sqrt)
        ((net_1_1_1 ℝ).set_WEIGHT_AT 0 0 0 w) [1] [0]) (1 / 16)
      ((net_1_1_1 ℝ).WEIGHT_AT 0 0 0) := by
    rw [hF, hW0]; exact hd
  have hf : ([1] : vecd ℝ).length = (net_1_1_1 ℝ).layer_len 0 := by decide
  obtain ⟨t1, t2, _⟩ := train_spec (libc_of Real.exp Real.tanh Real.sqrt) (net_1_1_1 ℝ) [1] [0]
    net_1_1_1_wf hf
  obtain ⟨_, f2⟩ := feedforward_spec (libc_of Real.exp Real.tanh Real.sqrt) (net_1_1_1 ℝ) [1] hf
  have hchg : (backpropagate
      (feedforward (libc_of Real.exp Real.tanh Real.sqrt) (net_1_1_1 ℝ) [1]) [0]).WEIGHT_AT 0 0 0 -
      (net_1_1_1 ℝ).WEIGHT_AT 0 0 0 = -1 / 4 := by
    rw [t2 0 0 0 (by decide) (by decide) (by decide), t1 1 0 (by decide) (by decide) (by decide),
      f2 1 (by decide) 0 (by decide), f2 0 (by decide) 0 (by decide)]
    simp [ref_D, ref_delta, ref_out, net_1_1_1, WEIGHT_AT, weight_index, layer_len, nlayers,
      bias, node_at, Finset.sum_range_one, activation_function, f_logistic, libc_of,
      activation_derivative, d_logistic]
    norm_num
  refine ⟨hder, hchg, rfl, ?_⟩
  rintro ⟨g, hg, hchange⟩
  have hg16 : g = 1 / 16 := hg.unique hder
  have hlearn : (net_1_1_1 ℝ).learn = 1 := rfl
  rw [hchg, hg16, hlearn] at hchange
  norm_num at hchange

/-- Claim C6, amended: for a layout string of `k ≥ 2` entries separated by single `;`
characters, each entry a positive decimal integer of at most `INT_MAX` and each product of
two neighbouring entries at most `INT_MAX`, `neuralnet_create` (every allocation
succeeding) returns a network with `nlayers = k` and `layers[i].len` equal to entry `i` for
every `i`; the input layer has the length of the first entry and the output layer the
length of the last. -/
theorem neuralnet_create_layout (m : libc α) (toks : List (List Char)) (learn : α)
    (fid : activation_func_id) (hk : 2 ≤ toks.length)
    (htok : ∀ t ∈ toks, positive_int_token t)
    (hprod : ∀ i, i + 1 < toks.length →
      (decimal_value (toks.getD i []) : Int) * (decimal_value (toks.getD (i + 1) []) : Int) ≤
        INT_MAX)
    (halloc : ∀ n, m.calloc n = true) :
    ∃ nn, neuralnet_create m (some ⟨some (String.mk (join_layout toks)), learn, fid⟩) = some nn ∧
      nn.nlayers = toks.length ∧
      (∀ i, i < toks.length → nn.layer_len i = decimal_value (toks.getD i [])) ∧
      nn.layer_len 0 = decimal_value (toks.getD 0 []) ∧
      nn.layer_len (nn.nlayers - 1) = decimal_value (toks.getD (toks.length - 1) []) := by
  obtain ⟨nn, h1, h2, h3⟩ := neuralnet_create_ok m toks learn fid hk htok hprod halloc
  refine ⟨nn, h1, h2, h3, h3 0 (by omega), ?_⟩
  rw [h2]
  exact h3 (toks.length - 1) (by omega)

/-- Instance of claim C6 (amended) for the layout `2;3;1`. -/
theorem neuralnet_create_layout_witness :
    String.mk (join_layout [['2'], ['3'], ['1']]) = "2;3;1" ∧
    ∃ nn, neuralnet_create libc_Q
        (some ⟨some (String.mk (join_layout [['2'], ['3'], ['1']])), 1 / 10,
          .SIGMOID_LOGISTIC⟩) = some nn ∧
      nn.nlayers = 3 ∧
      (∀ i, i < 3 → nn.layer_len i = decimal_value ([['2'], ['3'], ['1']].getD i [])) ∧
      nn.layer_len 0 = 2 ∧ nn.layer_len (nn.nlayers - 1) = 1 :=
  ⟨by decide,
    neuralnet_create_layout libc_Q [['2'], ['3'], ['1']] (1 / 10) .SIGMOID_LOGISTIC (by decide)
      tokens_2_3_1_ok tokens_2_3_1_prod (fun _ => rfl)⟩

/-- Claim C6 fails as stated: the first entry of the layout `4294967298;3` is the positive
decimal integer 4294967298, which no `int` holds; the network returned has an input layer
of 2 nodes. -/
theorem neuralnet_create_int_overflow :
    decimal_value "4294967298".toList = 4294967298 ∧
      (neuralnet_create libc_Q (some ⟨some "4294967298;3", 1 / 10, .SIGMOID_LOGISTIC⟩)).map
        (fun nn => (nn.nlayers, nn.layer_len 0, nn.layer_len 1)) = some (2, 2, 3) := by
  decide

/-- Claim C7, amended: `neuralnet_create` returns the null pointer for every layout string
without a `;` (the empty string and the single entry) and for every layout string with a
token, as `strtok` returns it, that `sscanf` with `%d` does not convert or converts to a
value below 1.  Such a token is every token whose first character is neither white space,
nor a sign, nor a decimal digit; every token of decimal digits of the value 0; and every
token that is a minus sign followed by decimal digits of a value of at most `2 ^ 31`. -/
theorem neuralnet_create_rejects (m : libc α) (layout : String) (learn : α)
    (fid : activation_func_id)
    (h : layout.toList.count ';' = 0 ∨
      ∃ tok ∈ strtok_all layout.toList [],
        sscanf_d tok = none ∨ (∃ n, sscanf_d tok = some n ∧ n < 1) ∨
        (∃ c rest, tok = c :: rest ∧ isspace c = false ∧ isdigit c = false ∧
          c ≠ '+' ∧ c ≠ '-') ∨
        ∃ ds, ds ≠ [] ∧ (∀ c ∈ ds, isdigit c = true) ∧
          ((tok = ds ∧ decimal_value ds = 0) ∨
            (tok = '-' :: ds ∧ (decimal_value ds : Int) ≤ 2147483648))) :
    neuralnet_create m (some ⟨some layout, learn, fid⟩) = none := by
  have hcl : create_layers m (⟨[], [], .SIGMOID_LOGISTIC, 0⟩ : neuralnet α) layout 0 = none := by
    simp only [create_layers]
    rcases h with h | ⟨tok, hmem, hbad⟩
    · rw [h, if_pos (by omega)]
    · rw [create_layers_loop_reject m _ _ 0 _ ⟨tok, hmem, token_refused tok hbad⟩]
      simp
  simp only [neuralnet_create]
  rw [hcl]
  simp

/-- Instances of claim C7 (amended): the empty layout, a single entry, an entry 0, a negative
entry, a token without a digit, a sign without a digit, an entry above the range of `long`
and an entry with trailing characters whose digits are converted to 0. -/
theorem neuralnet_create_rejects_witness :
    neuralnet_create libc_Q (some ⟨some "", 1 / 10, .SIGMOID_LOGISTIC⟩) = none ∧
    neuralnet_create libc_Q (some ⟨some "5", 1 / 10, .SIGMOID_LOGISTIC⟩) = none ∧
    neuralnet_create libc_Q (some ⟨some "2;0;1", 1 / 10, .SIGMOID_LOGISTIC⟩) = none ∧
    neuralnet_create libc_Q (some ⟨some "2;-3;1", 1 / 10, .SIGMOID_LOGISTIC⟩) = none ∧
    neuralnet_create libc_Q (some ⟨some "2;abc", 1 / 10, .SIGMOID_LOGISTIC⟩) = none ∧
    neuralnet_create libc_Q (some ⟨some "2;+", 1 / 10, .SIGMOID_LOGISTIC⟩) = none ∧
    neuralnet_create libc_Q
      (some ⟨some "18446744073709551621;3", 1 / 10, .SIGMOID_LOGISTIC⟩) = none ∧
    neuralnet_create libc_Q (some ⟨some "2;4294967296x", 1 / 10, .SIGMOID_LOGISTIC⟩) = none :=
  ⟨neuralnet_create_rejects libc_Q "" (1 / 10) .SIGMOID_LOGISTIC (Or.inl (by decide)),
    neuralnet_create_rejects libc_Q "5" (1 / 10) .SIGMOID_LOGISTIC (Or.inl (by decide)),
    neuralnet_create_rejects libc_Q "2;0;1" (1 / 10) .SIGMOID_LOGISTIC
      (Or.inr ⟨['0'], by decide,
        Or.inr (Or.inr (Or.inr ⟨['0'], by decide, by decide, Or.inl ⟨rfl, by decide⟩⟩))⟩),
    neuralnet_create_rejects libc_Q "2;-3;1" (1 / 10) .SIGMOID_LOGISTIC
      (Or.inr ⟨['-', '3'], by decide,
        Or.inr (Or.inr (Or.inr ⟨['3'], by decide, by decide, Or.inr ⟨rfl, by decide⟩⟩))⟩),
    neuralnet_create_rejects libc_Q "2;abc" (1 / 10) .SIGMOID_LOGISTIC
      (Or.inr ⟨['a', 'b', 'c'], by decide,
        Or.inr (Or.inr (Or.inl ⟨'a', ['b', 'c'], rfl, by decide, by decide, by decide,
          by decide⟩))⟩),
    neuralnet_create_rejects libc_Q "2;+" (1 / 10) .SIGMOID_LOGISTIC
      (Or.inr ⟨['+'], by decide, Or.inl (by decide)⟩),
    neuralnet_create_rejects libc_Q "18446744073709551621;3" (1 / 10) .SIGMOID_LOGISTIC
      (Or.inr ⟨"18446744073709551621".toList, by decide, Or.inr (Or.inl ⟨-1, by decide,
        by decide⟩)⟩),
    neuralnet_create_rejects libc_Q "2;4294967296x" (1 / 10) .SIGMOID_LOGISTIC
      (Or.inr ⟨"4294967296x".toList, by decide, Or.inr (Or.inl ⟨0, by decide, by decide⟩)⟩)⟩

/-- Claim C7 fails as stated: the token `3x` of the layout `2;3x` has a character after its
digits, and `neuralnet_create` returns a network, with layers of 2 and 3 nodes. -/
theorem neuralnet_create_trailing_characters :
    (neuralnet_create libc_Q (some ⟨some "2;3x", 1 / 10, .SIGMOID_LOGISTIC⟩)).map
      neuralnet.shape = some ([2, 3], [6]) := by
  decide

/-- Claim C8 at the layout `2;3;`: where `calloc` of zero elements returns a pointer,
`neuralnet_create` returns a network of three layers whose last layer has no node. -/
theorem neuralnet_create_empty_layer :
    (neuralnet_create libc_Q (some ⟨some "2;3;", 1 / 10, .SIGMOID_LOGISTIC⟩)).map
      neuralnet.shape = some ([2, 3, 0], [6, 0]) := by
  decide

/-- Claim C9: for a non-null network, feature vector and label vector, `neuralnet_train` and
`neuralnet_query` return 0 exactly when the feature vector is as long as the input layer and
the label vector as long as the output layer, and return -1 otherwise. -/
theorem train_query_return_value (m : libc α) (nn : neuralnet α) (feature label : vecd α) :
    ((neuralnet_train m (some nn) (some feature) (some label)).1 = 0 ↔
      (feature.length = nn.layer_len 0 ∧ label.length = nn.layer_len (nn.nlayers - 1))) ∧
    (¬ (feature.length = nn.layer_len 0 ∧ label.length = nn.layer_len (nn.nlayers - 1)) →
      (neuralnet_train m (some nn) (some feature) (some label)).1 = -1) ∧
    ((neuralnet_query m (some nn) (some feature) (some label)).1 = 0 ↔
      (feature.length = nn.layer_len 0 ∧ label.length = nn.layer_len (nn.nlayers - 1))) ∧
    (¬ (feature.length = nn.layer_len 0 ∧ label.length = nn.layer_len (nn.nlayers - 1)) →
      (neuralnet_query m (some nn) (some feature) (some label)).1 = -1) := by
  simp only [neuralnet_train, neuralnet_query]
  by_cases hc : feature.length ≠ nn.layer_len 0 ∨ label.length ≠ nn.layer_len (nn.nlayers - 1)
  · have hn : ¬ (feature.length = nn.layer_len 0 ∧
        label.length = nn.layer_len (nn.nlayers - 1)) := by
      rintro ⟨h1, h2⟩
      rcases hc with h | h
      · exact h h1
      · exact h h2
    rw [if_pos hc, if_pos hc]
    simp [hn]
  · have hy : feature.length = nn.layer_len 0 ∧
        label.length = nn.layer_len (nn.nlayers - 1) := by
      constructor
      · by_contra h; exact hc (Or.inl h)
      · by_contra h; exact hc (Or.inr h)
    rw [if_neg hc, if_neg hc]
    simp [hy]

/-- Claim C10: when `neuralnet_train` or `neuralnet_query` is called with a feature vector or
a label vector of the wrong length, it returns -1, the network is the network before the
call (every weight, bias, `out` and `delta`), and for `neuralnet_query` the output vector of
the caller is unchanged. -/
theorem shape_mismatch_keeps_state (m : libc α) (nn : neuralnet α) (feature label : vecd α)
    (h : feature.length ≠ nn.layer_len 0 ∨ label.length ≠ nn.layer_len (nn.nlayers - 1)) :
    neuralnet_train m (some nn) (some feature) (some label) = (-1, some nn) ∧
      neuralnet_query m (some nn) (some feature) (some label) = (-1, some nn, some label) := by
  simp only [neuralnet_train, neuralnet_query]
  rw [if_pos h, if_pos h]
  exact ⟨rfl, rfl⟩

/-- Instance of claim C10: a feature vector of length 3 for the network of layout 2;2;1. -/
theorem shape_mismatch_keeps_state_witness :
    neuralnet_train libc_Q (some net_2_2_1) (some [1, 0, 1]) (some [1]) =
        (-1, some net_2_2_1) ∧
      neuralnet_query libc_Q (some net_2_2_1) (some [1, 0, 1]) (some [1]) =
        (-1, some net_2_2_1, some [1]) :=
  shape_mismatch_keeps_state libc_Q net_2_2_1 [1, 0, 1] [1] (Or.inl (by decide))

/-- Claim C11: a query is deterministic.  On a network and a feature vector of matching
length, `neuralnet_query` returns 0 and writes an output vector `output1` such that a second
call with the same feature on the network left by the first call writes the same vector,
and so does a call on any network with the same weights, biases, layer lengths and
activation selector, whatever `out` and `delta` values (and learning rate) its nodes hold. -/
theorem neuralnet_query_deterministic (m : libc α) (nn : neuralnet α) (feature output : vecd α)
    (hf : feature.length = nn.layer_len 0)
    (ho : output.length = nn.layer_len (nn.nlayers - 1)) :
    ∃ nn1 output1,
      neuralnet_query m (some nn) (some feature) (some output) = (0, some nn1, some output1) ∧
      (∀ buffer : vecd α, buffer.length = output.length →
        ∃ nn2, neuralnet_query m (some nn1) (some feature) (some buffer) =
          (0, some nn2, some output1)) ∧
      ∀ (nn' : neuralnet α) (buffer : vecd α), nn'.weights = nn.weights →
        nn'.func_id = nn.func_id → nn'.nlayers = nn.nlayers →
        (∀ l, nn'.layer_len l = nn.layer_len l) → (∀ l j, nn'.bias l j = nn.bias l j) →
        buffer.length = output.length →
        ∃ nn2, neuralnet_query m (some nn') (some feature) (some buffer) =
          (0, some nn2, some output1) := by
  have key : ∀ (nn' : neuralnet α) (buffer : vecd α), nn'.weights = nn.weights →
      nn'.func_id = nn.func_id → nn'.nlayers = nn.nlayers →
      (∀ l, nn'.layer_len l = nn.layer_len l) → (∀ l j, nn'.bias l j = nn.bias l j) →
      buffer.length = output.length →
      neuralnet_query m (some nn') (some feature) (some buffer) =
        (0, some (feedforward m nn' feature),
          some (copy_output (feedforward m nn feature) output)) := by
    intro nn' buffer hw hfun hL hlen hbias hb
    have hf' : feature.length = nn'.layer_len 0 := by rw [hlen]; exact hf
    have hb' : buffer.length = nn'.layer_len (nn'.nlayers - 1) := by
      rw [hlen, hL, hb]; exact ho
    rw [neuralnet_query_ok m nn' feature buffer hf' hb', copy_output_eq m nn' feature buffer hf' hb',
      copy_output_eq m nn feature output hf ho, hL, hlen]
    have e : (fun j => ref_out m nn' feature (nn.nlayers - 1) j) =
        fun j => ref_out m nn feature (nn.nlayers - 1) j :=
      funext (fun j => ref_out_ext m nn nn' feature hw hfun hlen hbias _ j)
    rw [e]
  refine ⟨feedforward m nn feature, copy_output (feedforward m nn feature) output,
    neuralnet_query_ok m nn feature output hf ho, ?_, ?_⟩
  · intro buffer hb
    obtain ⟨h1, _⟩ := feedforward_spec m nn feature hf
    exact ⟨_, key (feedforward m nn feature) buffer h1.1 h1.2.1 h1.2.2.2.1 h1.2.2.2.2.1
      h1.2.2.2.2.2.2 hb⟩
  · intro nn' buffer hw hfun hL hlen hbias hb
    exact ⟨_, key nn' buffer hw hfun hL hlen hbias hb⟩

/-- Instance of claim C11 on the network of layout 2;2;1. -/
theorem neuralnet_query_deterministic_witness :
    ∃ nn1 output1,
      neuralnet_query libc_Q (some net_2_2_1) (some [1, 0]) (some [0]) =
        (0, some nn1, some output1) ∧
      ∃ nn2, neuralnet_query libc_Q (some nn1) (some [1, 0]) (some [5]) =
        (0, some nn2, some output1) := by
  obtain ⟨nn1, output1, h1, h2, _⟩ :=
    neuralnet_query_deterministic libc_Q net_2_2_1 [1, 0] [0] (by decide) (by decide)
  exact ⟨nn1, output1, h1, h2 [5] rfl⟩

/-- Claim C12 at `y = 0`: for every `y` other than 0 the expression `y * (1 / y - y)` of
`d_tanh` equals `1 - y * y`, and at `y = 0` it does not.  In the source the quotient `1 / y`
is infinite there and the product is not a number; in a field the quotient is 0 and the
product is 0.  Neither is the value 1 of `1 - y * y`. -/
theorem d_tanh_zero (α : Type) [Field α] :
    (∀ y : α, y ≠ 0 → d_tanh y = 1 - y * y) ∧ d_tanh (0 : α) ≠ 1 - 0 * 0 := by
  refine ⟨d_tanh_of_ne_zero, ?_⟩
  unfold d_tanh
  simp

/-- Claim C13: over the real numbers, `d_logistic` evaluated at the output
`f_logistic(x) = 1 / (1 + e^(-x))` of a node is `f_logistic(x) * (1 - f_logistic(x))`, and
this is the derivative of `f_logistic` at `x`. -/
theorem d_logistic_is_derivative (m : libc ℝ) (hexp : m.exp = Real.exp) (x : ℝ) :
    f_logistic m x = 1 / (1 + Real.exp (-x)) ∧
    d_logistic (f_logistic m x) = f_logistic m x * (1 - f_logistic m x) ∧
    HasDerivAt (f_logistic m) (d_logistic (f_logistic m x)) x := by
  refine ⟨f_logistic_real m hexp x, rfl, ?_⟩
  have e : f_logistic m = fun y : ℝ => 1 / (1 + Real.exp (-y)) :=
    funext (fun y => f_logistic_real m hexp y)
  rw [e]
  exact hasDerivAt_logistic x

/-- Instance of claim C13 at `x = 1`. -/
theorem d_logistic_is_derivative_witness :
    HasDerivAt (f_logistic (libc_of Real.exp Real.tanh Real.sqrt))
      (d_logistic (f_logistic (libc_of Real.exp Real.tanh Real.sqrt) 1)) 1 :=
  (d_logistic_is_derivative (libc_of Real.exp Real.tanh Real.sqrt) rfl 1).2.2

/-- Claim C14, amended: over the real numbers, for a well-formed network that has no hidden
layer, or one hidden layer and a single output node, with logistic activation, or with tanh
activation when no node after the input layer has the output 0 in the forward pass on the
feature, and for a feature and a target of matching lengths for which the loss
`E = 1/2 * sum_j (target_j - output_j)^2` of a query is not 0, there is a threshold
`eps > 0` such that for every learning rate in `(0, eps)` the call of `neuralnet_train`
returns 0 and the loss of a query of the same feature after the call is strictly smaller
than before the call. -/
theorem neuralnet_train_reduces_loss (m : libc ℝ) (hexp : m.exp = Real.exp)
    (htanh : m.tanh = Real.tanh) (nn : neuralnet ℝ) (feature target : vecd ℝ) (hwf : nn.wf)
    (hf : feature.length = nn.layer_len 0)
    (ht : target.length = nn.layer_len (nn.nlayers - 1))
    (hzero : nn.func_id = .SIGMOID_TANH →
      ∀ l j, 1 ≤ l → l < nn.nlayers → j < nn.layer_len l →
        (feedforward m nn feature).out l j ≠ 0)
    (hshape : nn.nlayers = 2 ∨ (nn.nlayers = 3 ∧ nn.layer_len 2 = 1))
    (hE : query_loss m nn feature target ≠ 0) :
    ∃ eps : ℝ, 0 < eps ∧ ∀ lr, 0 < lr → lr < eps →
      ∃ nn1, neuralnet_train m (some { nn with learn := lr }) (some feature) (some target) =
          (0, some nn1) ∧
        query_loss m nn1 feature target <
          query_loss m { nn with learn := lr } feature target := by
  have hL := hwf.nlayers_ge
  have hreg : nodes_regular m nn feature := by
    cases hfun : nn.func_id with
    | SIGMOID_LOGISTIC => exact nodes_regular_logistic m hexp nn feature hfun
    | SIGMOID_TANH =>
      refine nodes_regular_tanh m htanh nn feature hfun (fun p j hp hj => ?_)
      rw [← (feedforward_spec m nn feature hf).2 (p + 1) hp j hj]
      exact hzero hfun (p + 1) j (by omega) hp hj
  obtain ⟨j, hj, hne⟩ := exists_residual_of_loss_ne_zero m nn feature target (by omega) hf hE
  have hneg : train_loss_slope m nn feature target < 0 := by
    rcases hshape with h2 | ⟨h3, hone⟩
    · have e1 : nn.nlayers - 1 = 1 := by omega
      rw [e1] at hj hne
      exact train_loss_slope_two m nn feature target hreg h2 ⟨j, hj, hne⟩
    · have e1 : nn.nlayers - 1 = 2 := by omega
      rw [e1] at hj hne
      rw [hone] at hj
      have hj0 : j = 0 := by omega
      rw [hj0] at hne
      exact train_loss_slope_three m nn feature target hreg h3 hone hne
  obtain ⟨eps, heps, hlt⟩ :=
    train_decreases_of_slope_neg m nn feature target hwf hf hreg hneg
  refine ⟨eps, heps, fun lr h0 h1 => ⟨train_result m nn lr feature target,
    neuralnet_train_with_learn m nn feature target hf ht lr, ?_⟩⟩
  rw [query_loss_with_learn m nn feature target (by omega) hf lr]
  exact hlt lr h0 h1

/-- Instances of claim C14 (amended): the network of layout 1;1;1 with logistic activation,
trained on the feature 1 with the target 0, and the network of layout 1;1 with tanh
activation, trained on the feature 1 with the target 0. -/
theorem neuralnet_train_reduces_loss_witness :
    (∃ eps : ℝ, 0 < eps ∧ ∀ lr, 0 < lr → lr < eps →
      ∃ nn1, neuralnet_train (libc_of Real.exp Real.tanh Real.sqrt)
          (some { net_1_1_1 ℝ with learn := lr }) (some [1]) (some [0]) = (0, some nn1) ∧
        query_loss (libc_of Real.exp Real.tanh Real.sqrt) nn1 [1] [0] <
          query_loss (libc_of Real.exp Real.tanh Real.sqrt)
            { net_1_1_1 ℝ with learn := lr } [1] [0]) ∧
    ∃ eps : ℝ, 0 < eps ∧ ∀ lr, 0 < lr → lr < eps →
      ∃ nn1, neuralnet_train (libc_of Real.exp Real.tanh Real.sqrt)
          (some { net_tanh_1_1 ℝ with learn := lr }) (some [1]) (some [0]) = (0, some nn1) ∧
        query_loss (libc_of Real.exp Real.tanh Real.sqrt) nn1 [1] [0] <
          query_loss (libc_of Real.exp Real.tanh Real.sqrt)
            { net_tanh_1_1 ℝ with learn := lr } [1] [0] :=
  ⟨neuralnet_train_reduces_loss (libc_of Real.exp Real.tanh Real.sqrt) rfl rfl (net_1_1_1 ℝ)
      [1] [0] net_1_1_1_wf (by decide) (by decide) (fun h => by cases h)
      (Or.inr ⟨by decide, by decide⟩) (by rw [net_1_1_1_loss]; norm_num),
    neuralnet_train_reduces_loss (libc_of Real.exp Real.tanh Real.sqrt) rfl rfl
      (net_tanh_1_1 ℝ) [1] [0] net_tanh_1_1_wf (by decide) (by decide)
      (fun _ => net_tanh_1_1_out_ne_zero) (Or.inl (by decide)) net_tanh_1_1_loss⟩

/-- Claim C14 fails as stated: in the network of layout 1;1;2 with logistic activation,
weight 0 into the hidden node, weights 1 and -1 into the output nodes, bias 0 of the hidden
node and biases -1/2 and 7/2 of the output nodes, trained on the feature 10 with the target
(0, 0), there is a threshold `eps > 0` such that for every learning rate in `(0, eps)` the
loss of a query after the call of `neuralnet_train` is strictly larger than before; so no
threshold makes it strictly smaller. -/
theorem neuralnet_train_increases_loss :
    ([10] : vecd ℝ).length = (net_1_1_2 ℝ).layer_len 0 ∧
    ([0, 0] : vecd ℝ).length = (net_1_1_2 ℝ).layer_len ((net_1_1_2 ℝ).nlayers - 1) ∧
    (∃ eps : ℝ, 0 < eps ∧ ∀ lr, 0 < lr → lr < eps →
      ∃ nn1, neuralnet_train (libc_of Real.exp Real.tanh Real.sqrt)
          (some { net_1_1_2 ℝ with learn := lr }) (some [10]) (some [0, 0]) = (0, some nn1) ∧
        query_loss (libc_of Real.exp Real.tanh Real.sqrt)
            { net_1_1_2 ℝ with learn := lr } [10] [0, 0] <
          query_loss (libc_of Real.exp Real.tanh Real.sqrt) nn1 [10] [0, 0]) ∧
    ¬ ∃ eps : ℝ, 0 < eps ∧ ∀ lr, 0 < lr → lr < eps →
      ∃ nn1, neuralnet_train (libc_of Real.exp Real.tanh Real.sqrt)
          (some { net_1_1_2 ℝ with learn := lr }) (some [10]) (some [0, 0]) = (0, some nn1) ∧
        query_loss (libc_of Real.exp Real.tanh Real.sqrt) nn1 [10] [0, 0] <
          query_loss (libc_of Real.exp Real.tanh Real.sqrt)
            { net_1_1_2 ℝ with learn := lr } [10] [0, 0] := by
  have hf : ([10] : vecd ℝ).length = (net_1_1_2 ℝ).layer_len 0 := by decide
  have ht : ([0, 0] : vecd ℝ).length = (net_1_1_2 ℝ).layer_len ((net_1_1_2 ℝ).nlayers - 1) := by
    decide
  obtain ⟨eps, heps, hgt⟩ := train_increases_of_slope_pos
    (libc_of Real.exp Real.tanh Real.sqrt) (net_1_1_2 ℝ) [10] [0, 0] net_1_1_2_wf hf
    (nodes_regular_logistic (libc_of Real.exp Real.tanh Real.sqrt) rfl (net_1_1_2 ℝ) [10] rfl)
    net_1_1_2_slope_pos
  have hq : ∀ lr : ℝ, query_loss (libc_of Real.exp Real.tanh Real.sqrt)
      { net_1_1_2 ℝ with learn := lr } [10] [0, 0] =
      query_loss (libc_of Real.exp Real.tanh Real.sqrt) (net_1_1_2 ℝ) [10] [0, 0] :=
    fun lr => query_loss_with_learn _ (net_1_1_2 ℝ) [10] [0, 0] (show 1 ≤ 3 by omega) hf lr
  refine ⟨hf, ht, ⟨eps, heps, fun lr h0 h1 => ⟨_,
    neuralnet_train_with_learn _ (net_1_1_2 ℝ) [10] [0, 0] hf ht lr, ?_⟩⟩, ?_⟩
  · rw [hq lr]
    exact hgt lr h0 h1
  · rintro ⟨eps1, heps1, hdec⟩
    have hmin : 0 < min eps eps1 / 2 := by positivity
    have hlt0 : min eps eps1 / 2 < eps :=
      lt_of_lt_of_le (by linarith) (min_le_left eps eps1)
    have hlt1 : min eps eps1 / 2 < eps1 :=
      lt_of_lt_of_le (by linarith) (min_le_right eps eps1)
    obtain ⟨nn1, htrain, hless⟩ := hdec _ hmin hlt1
    rw [neuralnet_train_with_learn _ (net_1_1_2 ℝ) [10] [0, 0] hf ht] at htrain
    have hnn1 : nn1 = train_result (libc_of Real.exp Real.tanh Real.sqrt) (net_1_1_2 ℝ)
        (min eps eps1 / 2) [10] [0, 0] := by
      simp only [Prod.mk.injEq, Option.some.injEq, true_and] at htrain
      exact htrain.symm
    rw [hnn1, hq] at hless
    exact absurd (hgt _ hmin hlt0) (not_lt.mpr hless.le)

/-- Claim C15: over the real numbers, with `RAND_MAX > 0`, for every draw `r` with
`0 ≤ r ≤ RAND_MAX` and every fan-in `N ≥ 1` the value
`RESCALE(r, 0, RAND_MAX, -1/sqrt(N), 1/sqrt(N))` lies between `-1/sqrt(N)` and `1/sqrt(N)`; it
is `-1/sqrt(N)` at `r = 0` and `1/sqrt(N)` at `r = RAND_MAX`; `INIT_VAL(N)` is this value at
the draw `r = rand()`; and in every network returned by `neuralnet_create` the biases of the
input layer are 0, every bias of layer `i + 1` and every value of the weight matrix `i` is a
value `INIT_VAL(N)` with `N = layers[i].len`. -/
theorem INIT_VAL_fan_in_range (m : libc ℝ) (hsqrt : m.sqrt = Real.sqrt)
    (hR : 0 < m.RAND_MAX) :
    (∀ (r : ℝ) (N : Nat), 0 ≤ r → r ≤ m.RAND_MAX → 1 ≤ N →
      -1 / m.sqrt N ≤ RESCALE r 0 m.RAND_MAX (-1 / m.sqrt N) (1 / m.sqrt N) ∧
        RESCALE r 0 m.RAND_MAX (-1 / m.sqrt N) (1 / m.sqrt N) ≤ 1 / m.sqrt N) ∧
    (∀ N : Nat, 1 ≤ N →
      RESCALE (0 : ℝ) 0 m.RAND_MAX (-1 / m.sqrt N) (1 / m.sqrt N) = -1 / m.sqrt N ∧
        RESCALE (m.RAND_MAX : ℝ) 0 m.RAND_MAX (-1 / m.sqrt N) (1 / m.sqrt N) =
          1 / m.sqrt N) ∧
    (∀ k N : Nat,
      INIT_VAL m k N = RESCALE (m.rand k : ℝ) 0 m.RAND_MAX (-1 / m.sqrt N) (1 / m.sqrt N)) ∧
    ∀ (params : Option (hyperparams ℝ)) (nn : neuralnet ℝ),
      neuralnet_create m params = some nn →
        (∀ j, nn.bias 0 j = 0) ∧
        (∀ i j, j < nn.layer_len (i + 1) →
          ∃ k, nn.bias (i + 1) j = INIT_VAL m k (nn.layer_len i)) ∧
        ∀ i x, x < nn.weights_len i → ∃ k, nn.value i x = INIT_VAL m k (nn.layer_len i) := by
  have hRr : (0 : ℝ) < m.RAND_MAX := Nat.cast_pos.mpr hR
  have hs : ∀ N : Nat, 1 ≤ N → 0 < m.sqrt N := fun N hN => by
    rw [hsqrt]
    exact Real.sqrt_pos.mpr (Nat.cast_pos.mpr hN)
  refine ⟨fun r N hr0 hrR hN => ?_, fun N hN => ?_, fun _ _ => rfl, fun params nn hc => ?_⟩
  · have hrange := RESCALE_range r m.RAND_MAX (m.sqrt N) hr0 hrR hRr (hs N hN)
    rw [← neg_div] at hrange
    exact hrange
  · rw [RESCALE_lower, RESCALE_upper _ _ hRr, neg_div]
    exact ⟨rfl, rfl⟩
  · obtain ⟨hb, hw⟩ := neuralnet_create_init m params nn hc
    exact ⟨hb.1, hb.2, hw⟩

/-- Instance of claim C15 for the C library with `RAND_MAX = 32767`: the draw 100 with
fan-in 4, and the network created from the layout `2;3;1`. -/
theorem INIT_VAL_fan_in_range_witness :
    (-1 / Real.sqrt (4 : Nat) ≤
        RESCALE (100 : ℝ) 0 (32767 : Nat) (-1 / Real.sqrt (4 : Nat)) (1 / Real.sqrt (4 : Nat)) ∧
      RESCALE (100 : ℝ) 0 (32767 : Nat) (-1 / Real.sqrt (4 : Nat)) (1 / Real.sqrt (4 : Nat)) ≤
        1 / Real.sqrt (4 : Nat)) ∧
    ∃ nn, neuralnet_create (libc_of Real.exp Real.tanh Real.sqrt)
        (some ⟨some (String.mk (join_layout [['2'], ['3'], ['1']])), 1 / 10,
          .SIGMOID_LOGISTIC⟩) = some nn ∧
      (∀ j, nn.bias 0 j = 0) ∧
      (∀ i j, j < nn.layer_len (i + 1) →
        ∃ k, nn.bias (i + 1) j =
          INIT_VAL (libc_of Real.exp Real.tanh Real.sqrt) k (nn.layer_len i)) ∧
      ∀ i x, x < nn.weights_len i →
        ∃ k, nn.value i x = INIT_VAL (libc_of Real.exp Real.tanh Real.sqrt) k (nn.layer_len i) :=
  ⟨(INIT_VAL_fan_in_range (libc_of Real.exp Real.tanh Real.sqrt) rfl
      (show 0 < 32767 by norm_num)).1 100 4 (by norm_num)
      (show (100 : ℝ) ≤ ((32767 : Nat) : ℝ) by norm_num) (by norm_num),
    (neuralnet_create_ok (libc_of Real.exp Real.tanh Real.sqrt) [['2'], ['3'], ['1']] (1 / 10)
      .SIGMOID_LOGISTIC (by decide) tokens_2_3_1_ok tokens_2_3_1_prod (fun _ => rfl)).elim
      (fun nn h => ⟨nn, h.1,
        (INIT_VAL_fan_in_range (libc_of Real.exp Real.tanh Real.sqrt) rfl
          (show 0 < 32767 by norm_num)).2.2.2 _ nn h.1⟩)⟩

/-- Claim C16: in a network with `weights[p].len = layers[p].len * layers[p + 1].len`, the
index `layers[p].len * j + i` used by `WEIGHT_AT(p, i, j)` for a node `i` of layer `p` and a
node `j` of layer `p + 1` is less than `weights[p].len`; two different pairs `(i, j)` have
different indices; every index below `weights[p].len` is the index of a pair; and a write
through `WEIGHT_AT(p, i, j)` changes the value read through `WEIGHT_AT(p, i, j)` and no
other. -/
theorem weight_addressing_bijective (nn : neuralnet α) (p : Nat)
    (hw : nn.weights_len p = nn.layer_len p * nn.layer_len (p + 1)) :
    (∀ i j, i < nn.layer_len p → j < nn.layer_len (p + 1) →
      nn.weight_index p i j = nn.layer_len p * j + i ∧
        nn.weight_index p i j < nn.weights_len p) ∧
    (∀ i j i' j', i < nn.layer_len p → i' < nn.layer_len p →
      nn.weight_index p i j = nn.weight_index p i' j' → i = i' ∧ j = j') ∧
    (∀ k, k < nn.weights_len p →
      ∃ i j, i < nn.layer_len p ∧ j < nn.layer_len (p + 1) ∧ nn.weight_index p i j = k) ∧
    ∀ i j i' j' (v : α), i < nn.layer_len p → j < nn.layer_len (p + 1) →
      i' < nn.layer_len p →
      (nn.set_WEIGHT_AT p i j v).WEIGHT_AT p i' j' =
        if i' = i ∧ j' = j then v else nn.WEIGHT_AT p i' j' := by
  refine ⟨?_, ?_, ?_, ?_⟩
  · intro i j hi hj
    refine ⟨rfl, ?_⟩
    rw [hw]
    exact weight_index_lt hi hj
  · intro i j i' j' hi hi' h
    exact weight_index_inj hi hi' h
  · intro k hk
    rw [hw] at hk
    obtain ⟨h1, h2, h3⟩ := weight_index_surj hk
    exact ⟨k % nn.layer_len p, k / nn.layer_len p, h1, h2, h3⟩
  · intro i j i' j' v hi hj hi'
    have hb : nn.weight_index p i j < nn.weights_len p := by
      rw [hw]; exact weight_index_lt hi hj
    rw [WEIGHT_AT_set_WEIGHT_AT nn p i j v p i' j' hi hi' hb]
    by_cases h : i' = i ∧ j' = j
    · rw [if_pos ⟨rfl, h⟩, if_pos h]
    · rw [if_neg (fun hh => h hh.2), if_neg h]

/-- Instance of claim C16: the first weight matrix of the network of layout 2;2;1. -/
theorem weight_addressing_bijective_witness :
    (∀ i j, i < net_2_2_1.layer_len 0 → j < net_2_2_1.layer_len 1 →
      net_2_2_1.weight_index 0 i j = net_2_2_1.layer_len 0 * j + i ∧
        net_2_2_1.weight_index 0 i j < net_2_2_1.weights_len 0) ∧
    (∀ i j i' j', i < net_2_2_1.layer_len 0 → i' < net_2_2_1.layer_len 0 →
      net_2_2_1.weight_index 0 i j = net_2_2_1.weight_index 0 i' j' → i = i' ∧ j = j') ∧
    ∀ k, k < net_2_2_1.weights_len 0 →
      ∃ i j, i < net_2_2_1.layer_len 0 ∧ j < net_2_2_1.layer_len 1 ∧
        net_2_2_1.weight_index 0 i j = k :=
  ⟨(weight_addressing_bijective net_2_2_1 0 (by decide)).1,
    (weight_addressing_bijective net_2_2_1 0 (by decide)).2.1,
    (weight_addressing_bijective net_2_2_1 0 (by decide)).2.2.1⟩

/-- Claim C17: after a successful `neuralnet_query`, the weights, the biases, the error
values, the activation selector, the learning rate, the number of layers and the layer
lengths of the network are those before the call, and the `out` field of every node holds
the value of the forward pass on the feature, whatever it held before. -/
theorem neuralnet_query_frame (m : libc α) (nn nn1 : neuralnet α)
    (feature output output1 : vecd α)
    (h : neuralnet_query m (some nn) (some feature) (some output) =
      (0, some nn1, some output1)) :
    nn1.weights = nn.weights ∧ nn1.func_id = nn.func_id ∧ nn1.learn = nn.learn ∧
    nn1.nlayers = nn.nlayers ∧ (∀ l, nn1.layer_len l = nn.layer_len l) ∧
    (∀ l j, nn1.bias l j = nn.bias l j) ∧ (∀ l j, nn1.delta l j = nn.delta l j) ∧
    (∀ l j, l < nn.nlayers → j < nn.layer_len l → nn1.out l j = ref_out m nn feature l j) ∧
    ∀ nn', only_out nn nn' → ∀ l j, l < nn.nlayers → j < nn.layer_len l →
      (feedforward m nn' feature).out l j = nn1.out l j := by
  obtain ⟨hf, _, rfl, _⟩ := neuralnet_query_success m nn nn1 feature output output1 h
  obtain ⟨h1, h2⟩ := feedforward_spec m nn feature hf
  obtain ⟨hw, hfun, hlearn, hL, hlen, hdelta, hbias⟩ := h1
  refine ⟨hw, hfun, hlearn, hL, hlen, hbias, hdelta, fun l j hl hj => h2 l hl j hj, ?_⟩
  intro nn' hnn' l j hl hj
  obtain ⟨sw, sfun, _, sL, slen, _, sbias⟩ := hnn'
  obtain ⟨_, g2⟩ := feedforward_spec m nn' feature (by rw [slen]; exact hf)
  rw [g2 l (by rw [sL]; exact hl) j (by rw [slen]; exact hj), h2 l hl j hj]
  exact ref_out_ext m nn nn' feature sw sfun slen sbias l j

/-- Instance of claim C17 on the network of layout 2;2;1. -/
theorem neuralnet_query_frame_witness :
    (feedforward libc_Q net_2_2_1 [1, 0]).weights = net_2_2_1.weights ∧
    (∀ l j, (feedforward libc_Q net_2_2_1 [1, 0]).bias l j = net_2_2_1.bias l j) ∧
    ∀ l j, (feedforward libc_Q net_2_2_1 [1, 0]).delta l j = net_2_2_1.delta l j :=
  have h := neuralnet_query_frame libc_Q net_2_2_1 (feedforward libc_Q net_2_2_1 [1, 0])
    [1, 0] [0] (copy_output (feedforward libc_Q net_2_2_1 [1, 0]) [0])
    (neuralnet_query_ok libc_Q net_2_2_1 [1, 0] [0] (by decide) (by decide))
  ⟨h.1, h.2.2.2.2.2.1, h.2.2.2.2.2.2.1⟩

/-- Claim C18: on a network of at least two layers, `backpropagate` leaves the `delta` and
the `bias` of every node of the input layer and the `out` of every node of every layer as
they were after the forward pass before it; the number of layers and the layer lengths
are unchanged too. -/
theorem backpropagate_frame (s : neuralnet α) (test : vecd α) (hL : 2 ≤ s.nlayers) :
    (∀ j, (backpropagate s test).delta 0 j = s.delta 0 j) ∧
    (∀ j, (backpropagate s test).bias 0 j = s.bias 0 j) ∧
    (∀ l j, (backpropagate s test).out l j = s.out l j) ∧
    (backpropagate s test).nlayers = s.nlayers ∧
    ∀ l, (backpropagate s test).layer_len l = s.layer_len l := by
  have h : input_frame s (backpropagate s test) := by
    unfold backpropagate
    exact input_frame_trans _ _ _ (input_frame_backpropagate_output s test hL)
      (input_frame_trans _ _ _ (input_frame_backpropagate_hidden _)
        (input_frame_trans _ _ _ (input_frame_backpropagate_input _)
          (input_frame_backpropagate_bias _)))
  exact ⟨h.2.2.2.1, h.2.2.2.2, h.2.2.1, h.1, h.2.1⟩

/-- Instance of claim C18: the backward pass after the forward pass of the network of
layout 2;2;1 on the feature `[1, 0]`. -/
theorem backpropagate_frame_witness :
    (∀ j, (backpropagate (feedforward libc_Q net_2_2_1 [1, 0]) [1]).delta 0 j =
      (feedforward libc_Q net_2_2_1 [1, 0]).delta 0 j) ∧
    (∀ j, (backpropagate (feedforward libc_Q net_2_2_1 [1, 0]) [1]).bias 0 j =
      (feedforward libc_Q net_2_2_1 [1, 0]).bias 0 j) ∧
    ∀ l j, (backpropagate (feedforward libc_Q net_2_2_1 [1, 0]) [1]).out l j =
      (feedforward libc_Q net_2_2_1 [1, 0]).out l j :=
  have h := backpropagate_frame (feedforward libc_Q net_2_2_1 [1, 0]) [1] (by decide)
  ⟨h.1, h.2.1, h.2.2.1⟩

/-- Claim C19: on a well-formed network with logistic activation, over the real numbers,
one successful `neuralnet_train` call changes each weight `w(p, i, j)` of the last weight
matrix by `-learning_rate * dE/dw(p, i, j)` and the bias of each output node by
`-learning_rate * dE/db_j`, where `E = 1/2 * sum_j (t_j - o_j)^2`,
`o_j = f_logistic(sum_i out_i * w(p, i, j) + b_j)` and the outputs `out_i` of the preceding
layer are those of the forward pass, held fixed. -/
theorem neuralnet_train_output_layer_step (m : libc ℝ) (hexp : m.exp = Real.exp)
    (nn nn1 : neuralnet ℝ) (feature target : vecd ℝ) (hwf : nn.wf)
    (hfun : nn.func_id = .SIGMOID_LOGISTIC)
    (h : neuralnet_train m (some nn) (some feature) (some target) = (0, some nn1)) :
    (∀ i j, i < nn.layer_len (nn.nlayers - 2) → j < nn.layer_len (nn.nlayers - 1) →
      ∃ g, HasDerivAt
          (fun w => output_layer_loss m (nn.layer_len (nn.nlayers - 2))
            (nn.layer_len (nn.nlayers - 1))
            (fun x => (feedforward m nn feature).out (nn.nlayers - 2) x)
            (fun x k => if x = i ∧ k = j then w else nn.WEIGHT_AT (nn.nlayers - 2) x k)
            (fun k => nn.bias (nn.nlayers - 1) k) (fun k => target.getD k 0)) g
          (nn.WEIGHT_AT (nn.nlayers - 2) i j) ∧
        nn1.WEIGHT_AT (nn.nlayers - 2) i j - nn.WEIGHT_AT (nn.nlayers - 2) i j =
          -(nn.learn * g)) ∧
    ∀ j, j < nn.layer_len (nn.nlayers - 1) →
      ∃ g, HasDerivAt
          (fun b => output_layer_loss m (nn.layer_len (nn.nlayers - 2))
            (nn.layer_len (nn.nlayers - 1))
            (fun x => (feedforward m nn feature).out (nn.nlayers - 2) x)
            (fun x k => nn.WEIGHT_AT (nn.nlayers - 2) x k)
            (fun k => if k = j then b else nn.bias (nn.nlayers - 1) k)
            (fun k => target.getD k 0)) g
          (nn.bias (nn.nlayers - 1) j) ∧
        nn1.bias (nn.nlayers - 1) j - nn.bias (nn.nlayers - 1) j = -(nn.learn * g) := by
  obtain ⟨hf, _, rfl⟩ := neuralnet_train_success m nn nn1 feature target h
  obtain ⟨P, hP⟩ : ∃ P, nn.nlayers = P + 2 := ⟨nn.nlayers - 2, by have := hwf.nlayers_ge; omega⟩
  have e2 : nn.nlayers - 2 = P := by omega
  have e1 : nn.nlayers - 1 = P + 1 := by omega
  obtain ⟨t1, t2, t3⟩ := train_spec m nn feature target hwf hf
  obtain ⟨_, f2⟩ := feedforward_spec m nn feature hf
  rw [e1, e2]
  rw [e1] at t1
  have hdelta : ∀ j, j < nn.layer_len (P + 1) →
      (backpropagate (feedforward m nn feature) target).delta (P + 1) j =
        ref_out m nn feature (P + 1) j - target.getD j 0 := by
    intro j hj
    rw [t1 (P + 1) j (by omega) (by omega) hj]
    have := ref_D_last nn (ref_out m nn feature (P + 1)) target j
    rw [e1] at this
    exact this
  have hsum : ∀ j, (∑ x ∈ Finset.range (nn.layer_len P),
      (feedforward m nn feature).out P x * nn.WEIGHT_AT P x j) =
      ∑ x ∈ Finset.range (nn.layer_len P), ref_out m nn feature P x * nn.WEIGHT_AT P x j := by
    intro j
    apply Finset.sum_congr rfl
    intro x hx
    rw [f2 P (by omega) x (Finset.mem_range.mp hx)]
  have hout : ∀ j, f_logistic m ((∑ x ∈ Finset.range (nn.layer_len P),
      (feedforward m nn feature).out P x * nn.WEIGHT_AT P x j) + nn.bias (P + 1) j) =
      ref_out m nn feature (P + 1) j := by
    intro j
    rw [hsum j]
    simp only [ref_out]
    rw [hfun]
    rfl
  constructor
  · intro i j hi hj
    have key := output_layer_loss_weight m hexp (nn.layer_len P) (nn.layer_len (P + 1))
      (fun x => (feedforward m nn feature).out P x) (fun x k => nn.WEIGHT_AT P x k)
      (fun k => nn.bias (P + 1) k) (fun k => target.getD k 0) i j hi hj
    refine ⟨_, key, ?_⟩
    rw [hout j, t2 P i j (by omega) hi hj, hdelta j hj, f2 (P + 1) (by omega) j hj, hfun]
    simp only [activation_derivative, d_logistic]
    ring
  · intro j hj
    have key := output_layer_loss_bias m hexp (nn.layer_len P) (nn.layer_len (P + 1))
      (fun x => (feedforward m nn feature).out P x) (fun x k => nn.WEIGHT_AT P x k)
      (fun k => nn.bias (P + 1) k) (fun k => target.getD k 0) j hj
    refine ⟨_, key, ?_⟩
    rw [hout j, t3 (P + 1) j (by omega) (by omega) hj, hdelta j hj,
      f2 (P + 1) (by omega) j hj, hfun]
    simp only [activation_derivative, d_logistic]
    ring

/-- Instance of claim C19: the weight feeding the output node of the network of layout
1;1;1. -/
theorem neuralnet_train_output_layer_step_witness :
    ∃ g, HasDerivAt
        (fun w => output_layer_loss (libc_of Real.exp Real.tanh Real.sqrt) 1 1
          (fun x => (feedforward (libc_of Real.exp Real.tanh Real.sqrt) (net_1_1_1 ℝ) [1]).out 1 x)
          (fun x k => if x = 0 ∧ k = 0 then w else (net_1_1_1 ℝ).WEIGHT_AT 1 x k)
          (fun k => (net_1_1_1 ℝ).bias 2 k) (fun k => ([0] : vecd ℝ).getD k 0)) g
        ((net_1_1_1 ℝ).WEIGHT_AT 1 0 0) ∧
      (backpropagate (feedforward (libc_of Real.exp Real.tanh Real.sqrt) (net_1_1_1 ℝ) [1])
          [0]).WEIGHT_AT 1 0 0 - (net_1_1_1 ℝ).WEIGHT_AT 1 0 0 = -((net_1_1_1 ℝ).learn * g) :=
  (neuralnet_train_output_layer_step (libc_of Real.exp Real.tanh Real.sqrt) rfl (net_1_1_1 ℝ) _
    [1] [0] net_1_1_1_wf rfl
    (neuralnet_train_ok (libc_of Real.exp Real.tanh Real.sqrt) (net_1_1_1 ℝ) [1] [0]
      (by decide) (by decide))).1 0 0 (by decide) (by decide)

end Lemmas

end MLP
